import Mathlib

/-!
# Fbt code cache: the mapping table

A shallow embedding of `src/fbt_code_cache.c` (fastBT dynamic binary translator):
`fbt_ccache_find`, `fbt_ccache_add_entry` and `fbt_ccache_find_reverse`, and the
properties of the open-addressed mapping table they maintain.

Modelling conventions.

* Pointers and `ulong_t` values are natural numbers, `NULL` is `0`.
* The mapping table is the memory behind `tld->mappingtable`, seen as a function
  from a byte offset to the `struct ccache_entry` stored at that offset
  (`tld->mappingtable + offset` is byte arithmetic on a `void *`).
* `MAPPINGTABLE_SIZE`, `MAPPINGTABLE_MAXENTRIES`, `C_MAPPING_FUNCTION`,
  `sizeof(struct ccache_entry)` and the build flag `INLINE_CALLS` come from
  headers that are not part of the sources; they are fields of `Config`.
* `fbt_suicide_str` and a failed `assert` end the process: `Outcome.fatal`.
* A `while` loop is a function that is structurally recursive on a fuel
  argument; `Outcome.nofuel` is returned when the fuel is used up.
* The offsets are `ulong_t` in the source. The mask `MAPPINGTABLE_SIZE-1` fits the
  machine word, so the bitwise AND of the wrapped sum equals the AND of the sum of
  natural numbers, and `next_offset` needs no reduction modulo the word size.
* The counters are natural numbers: `count` (an `int`) never passes
  `MAPPINGTABLE_MAXENTRIES/10`, and `pos` (a `ulong_t`) is only compared with `0` and
  counts probes of a table that has fewer slots than the word has values.
* The statistics counters (`FBT_STATISTIC`) and the debug output are left out.
-/

namespace Fbt

/-- The `struct ccache_entry` of the source: a guest address and its translation. -/
structure ccache_entry where
  src : Nat
  dst : Nat
deriving DecidableEq, Repr

/-- The memory of the mapping table: byte offset from `tld->mappingtable` to the entry there. -/
abbrev Table := Nat → ccache_entry

/-- Compile-time constants of the translator that the code cache uses. -/
structure Config where
  MAPPINGTABLE_SIZE : Nat
  MAPPINGTABLE_MAXENTRIES : Nat
  sizeof_entry : Nat
  C_MAPPING_FUNCTION : Nat → Nat
  INLINE_CALLS : Bool

/-- The part of `struct thread_local_data` that the code cache reads and writes:
the mapping table and `trans.inline_call_RIP`. -/
structure thread_local_data where
  mappingtable : Table
  inline_call_RIP : Nat

/-- How a call ends: it returns, the process is terminated, or the loop bound of
the model is exhausted. -/
inductive Outcome (α : Type) where
  | ret : α → Outcome α
  | fatal : Outcome α
  | nofuel : Outcome α

/-- The store `entry->src = v` for the entry at byte offset `off`. -/
def Table.setSrc (t : Table) (off v : Nat) : Table :=
  fun o => if o = off then { src := v, dst := (t o).dst } else t o

/-- The store `entry->dst = v` for the entry at byte offset `off`. -/
def Table.setDst (t : Table) (off v : Nat) : Table :=
  fun o => if o = off then { src := (t o).src, dst := v } else t o

/-- Both stores of an entry at byte offset `off`. -/
def Table.write (t : Table) (off : Nat) (e : ccache_entry) : Table :=
  fun o => if o = off then e else t o

/-- The table right after `mmap`: every byte is zero. -/
def Table.empty : Table := fun _ => { src := 0, dst := 0 }

/-- The probe step of both loops:
`offset = (offset + sizeof(struct ccache_entry)) & (MAPPINGTABLE_SIZE-1)`. -/
def next_offset (cfg : Config) (offset : Nat) : Nat :=
  (offset + cfg.sizeof_entry) &&& (cfg.MAPPINGTABLE_SIZE - 1)

/-- The loop of `fbt_ccache_find` (lines 72-98), with the move-to-front swap of
lines 77-89 as its four stores. Returns the pointer returned by the C function
(`0` is `NULL`) and the table. -/
def find_loop (cfg : Config) (orig_address : Nat) (t : Table) :
    Nat → Nat → Nat → Outcome (Nat × Table)
  | 0, _, _ => Outcome.nofuel
  | fuel + 1, offset, pos =>
    if (t offset).src ≠ 0 then
      if orig_address = (t offset).src then
        if (t offset).dst = 0 then Outcome.fatal
        else if pos ≠ 0 then
          let first := cfg.C_MAPPING_FUNCTION orig_address
          let tmp := (t first).src
          let t1 := t.setSrc first (t offset).src
          let t2 := t1.setSrc offset tmp
          let tmp2 := (t2 first).dst
          let t3 := t2.setDst first (t2 offset).dst
          let t4 := t3.setDst offset tmp2
          Outcome.ret ((t4 first).dst, t4)
        else Outcome.ret ((t offset).dst, t)
      else find_loop cfg orig_address t fuel (next_offset cfg offset) (pos + 1)
    else Outcome.ret (0, t)

/-- The function `fbt_ccache_find(tld, orig_address)`; `fuel` bounds the number of probes. -/
def fbt_ccache_find (cfg : Config) (fuel : Nat) (tld : thread_local_data)
    (orig_address : Nat) : Outcome (Nat × thread_local_data) :=
  match find_loop cfg orig_address tld.mappingtable fuel
      (cfg.C_MAPPING_FUNCTION orig_address) 0 with
  | Outcome.ret (r, t) => Outcome.ret (r, { tld with mappingtable := t })
  | Outcome.fatal => Outcome.fatal
  | Outcome.nofuel => Outcome.nofuel

/-- The search loop of `fbt_ccache_add_entry` (lines 128-135): the offset of the free
slot found, or `fatal` when `count` reaches `MAPPINGTABLE_MAXENTRIES/10`. -/
def add_loop (cfg : Config) (t : Table) : Nat → Nat → Nat → Outcome Nat
  | 0, _, _ => Outcome.nofuel
  | fuel + 1, offset, count =>
    if (t offset).src ≠ 0 then
      if count + 1 ≥ cfg.MAPPINGTABLE_MAXENTRIES / 10 then Outcome.fatal
      else add_loop cfg t fuel (next_offset cfg offset) (count + 1)
    else Outcome.ret offset

/-- Whether `fbt_ccache_add_entry` takes its early return: an `INLINE_CALLS` build with
`tld->trans.inline_call_RIP != NULL`. -/
def inlining (cfg : Config) (tld : thread_local_data) : Bool :=
  cfg.INLINE_CALLS && decide (tld.inline_call_RIP ≠ 0)

/-- The function `fbt_ccache_add_entry(tld, orig_address, transl_address)`. The loop runs
at most `MAPPINGTABLE_MAXENTRIES/10` times, which the fuel given here covers. -/
def fbt_ccache_add_entry (cfg : Config) (tld : thread_local_data)
    (orig_address transl_address : Nat) : Outcome thread_local_data :=
  if inlining cfg tld then Outcome.ret tld
  else
    match add_loop cfg tld.mappingtable (cfg.MAPPINGTABLE_MAXENTRIES / 10 + 1)
        (cfg.C_MAPPING_FUNCTION orig_address) 0 with
    | Outcome.ret offset =>
      Outcome.ret { tld with
        mappingtable :=
          (tld.mappingtable.setSrc offset orig_address).setDst offset transl_address }
    | Outcome.fatal => Outcome.fatal
    | Outcome.nofuel => Outcome.nofuel

/-- The scan of `fbt_ccache_find_reverse` (lines 229-235): `entry` runs from the table
base in steps of one entry while `entry < end`. -/
def find_reverse_loop (cfg : Config) (t : Table) (transl_address : Nat) :
    Nat → Nat → Outcome Nat
  | 0, _ => Outcome.nofuel
  | fuel + 1, offset =>
    if offset < cfg.MAPPINGTABLE_SIZE then
      if (t offset).dst = transl_address then Outcome.ret (t offset).src
      else find_reverse_loop cfg t transl_address fuel (offset + cfg.sizeof_entry)
    else Outcome.ret 0

/-- The function `fbt_ccache_find_reverse(tld, transl_address)`. With a positive entry
size the scan makes at most `MAPPINGTABLE_SIZE` steps, which the fuel given here covers. -/
def fbt_ccache_find_reverse (cfg : Config) (tld : thread_local_data)
    (transl_address : Nat) : Outcome Nat :=
  find_reverse_loop cfg tld.mappingtable transl_address (cfg.MAPPINGTABLE_SIZE + 1) 0

/-! ## The probe chain and the invariants of the table -/

/-- The offset that both loops inspect after `i` probe steps from `h`. -/
def probe (cfg : Config) (h : Nat) : Nat → Nat
  | 0 => h
  | i + 1 => probe cfg (next_offset cfg h) i

/-- The number of entries of the table. -/
def nslots (cfg : Config) : Nat := cfg.MAPPINGTABLE_SIZE / cfg.sizeof_entry

/-- An entry-aligned byte offset below `MAPPINGTABLE_SIZE`. -/
def IsSlot (cfg : Config) (p : Nat) : Prop :=
  p < cfg.MAPPINGTABLE_SIZE ∧ cfg.sizeof_entry ∣ p

instance (cfg : Config) (p : Nat) : Decidable (IsSlot cfg p) := by
  unfold IsSlot; infer_instance

/-- The layout assumptions of the data model: the table size is a power of two and a
multiple of the (positive) entry size, and the hash of every address is the offset of
an entry. -/
structure Config.WF (cfg : Config) : Prop where
  size_pow : ∃ k, cfg.MAPPINGTABLE_SIZE = 2 ^ k
  entry_pos : 0 < cfg.sizeof_entry
  entry_dvd : cfg.sizeof_entry ∣ cfg.MAPPINGTABLE_SIZE
  hash_slot : ∀ g, IsSlot cfg (cfg.C_MAPPING_FUNCTION g)

/-- No holes on chain: for every occupied slot `p` whose key hashes to `h`, every slot
of the probe chain from `h` up to `p` is occupied. -/
def NoHoles (cfg : Config) (t : Table) : Prop :=
  ∀ p, p < cfg.MAPPINGTABLE_SIZE → cfg.sizeof_entry ∣ p → (t p).src ≠ 0 →
    ∀ i, i < nslots cfg → probe cfg (cfg.C_MAPPING_FUNCTION (t p).src) i = p →
      ∀ j, j < i + 1 → (t (probe cfg (cfg.C_MAPPING_FUNCTION (t p).src) j)).src ≠ 0

set_option synthInstance.maxSize 2048 in
instance (cfg : Config) (t : Table) : Decidable (NoHoles cfg t) := by
  unfold NoHoles; infer_instance

/-- The keys of the occupied slots are pairwise distinct. -/
def DistinctKeys (cfg : Config) (t : Table) : Prop :=
  ∀ p, p < cfg.MAPPINGTABLE_SIZE → cfg.sizeof_entry ∣ p → (t p).src ≠ 0 →
    ∀ q, q < cfg.MAPPINGTABLE_SIZE → cfg.sizeof_entry ∣ q → (t p).src = (t q).src → p = q

set_option synthInstance.maxSize 2048 in
instance (cfg : Config) (t : Table) : Decidable (DistinctKeys cfg t) := by
  unfold DistinctKeys; infer_instance

/-- Some slot of the table is empty. -/
def HasEmpty (cfg : Config) (t : Table) : Prop :=
  ∃ p, p < cfg.MAPPINGTABLE_SIZE ∧ cfg.sizeof_entry ∣ p ∧ (t p).src = 0

instance (cfg : Config) (t : Table) : Decidable (HasEmpty cfg t) := by
  unfold HasEmpty; infer_instance

/-- Every occupied slot carries a non-null translation (what `assert(entry->dst != NULL)`
of `fbt_ccache_find` expects). -/
def DstNonzero (cfg : Config) (t : Table) : Prop :=
  ∀ p, p < cfg.MAPPINGTABLE_SIZE → cfg.sizeof_entry ∣ p → (t p).src ≠ 0 → (t p).dst ≠ 0

instance (cfg : Config) (t : Table) : Decidable (DstNonzero cfg t) := by
  unfold DstNonzero; infer_instance

/-- The table with the entries at offsets `a` and `b` exchanged. -/
def Table.swap (t : Table) (a b : Nat) : Table :=
  fun o => if o = a then t b else if o = b then t a else t o

/-- A small instance of the constants, for 8-byte entries: a table of 256 bytes, that is
32 slots, `MAPPINGTABLE_MAXENTRIES = 32`, so that `MAPPINGTABLE_MAXENTRIES / 10 = 3`, and
a hash that shifts the address by three bits and masks it to the offset of an entry. -/
def exampleConfig : Config where
  MAPPINGTABLE_SIZE := 256
  MAPPINGTABLE_MAXENTRIES := 32
  sizeof_entry := 8
  C_MAPPING_FUNCTION := fun addr => (addr <<< 3) &&& (255 ^^^ 7)
  INLINE_CALLS := false

/-- The same constants in a build with `INLINE_CALLS`. -/
def exampleConfigInline : Config := { exampleConfig with INLINE_CALLS := true }

/-- A table whose only entry maps the guest address `8` (home slot `64`) to `NULL`. -/
def nullDstTable : Table := Table.empty.write 64 { src := 8, dst := 0 }

/-- A table whose only entry maps the guest address `0xA000` (home slot `0`) to `0xC000`. -/
def singleTable : Table := Table.empty.write 0 { src := 0xA000, dst := 0xC000 }

/-- A call of one of the two functions that change the mapping table. A lookup carries
the bound on its number of probes. -/
inductive Call where
  | add (orig_address transl_address : Nat)
  | find (orig_address fuel : Nat)

/-- A sequence of calls, each of which has to return for the next one to be made. -/
def run (cfg : Config) : List Call → thread_local_data → Outcome thread_local_data
  | [], tld => Outcome.ret tld
  | Call.add g c :: rest, tld =>
    match fbt_ccache_add_entry cfg tld g c with
    | Outcome.ret tld1 => run cfg rest tld1
    | Outcome.fatal => Outcome.fatal
    | Outcome.nofuel => Outcome.nofuel
  | Call.find g fuel :: rest, tld =>
    match fbt_ccache_find cfg fuel tld g with
    | Outcome.ret (_, tld1) => run cfg rest tld1
    | Outcome.fatal => Outcome.fatal
    | Outcome.nofuel => Outcome.nofuel

/-- A table in which the first three slots of the chain of slot `0` are taken by keys
that hash to slot `0`; the slot at displacement `3 = MAPPINGTABLE_MAXENTRIES / 10` is free. -/
def chainTable : Table :=
  ((Table.empty.write 0 { src := 32, dst := 0xC000 }).write 8 { src := 64, dst := 0xC100 }).write
    16 { src := 96, dst := 0xC200 }

/-- A table without any empty slot. -/
def fullTable : Table := fun _ => { src := 1, dst := 1 }

/-- The table after the insertion of the keys `32` and `64`, which both hash to slot `0`. -/
def twoTable : Table :=
  (Table.empty.write 0 { src := 32, dst := 0xC000 }).write 8 { src := 64, dst := 0xC100 }

/-- The entries of all slots of the table, as a multiset. -/
def slotEntries (cfg : Config) (t : Table) : Multiset ccache_entry :=
  (Multiset.range (nslots cfg)).map (fun a => t (cfg.sizeof_entry * a))

/-- The live pairs of the table: the entries of the occupied slots, as a multiset. -/
def livePairs (cfg : Config) (t : Table) : Multiset ccache_entry :=
  (slotEntries cfg t).filter (fun e => e.src ≠ 0)

/-- The pairs `(g, c)` of all calls `fbt_ccache_add_entry(g, c)` of a sequence. -/
def calledPairs : List Call → Multiset ccache_entry
  | [] => 0
  | Call.add g c :: rest => { src := g, dst := c } ::ₘ calledPairs rest
  | Call.find _ _ :: rest => calledPairs rest

/-- The pairs of the insertions of a sequence whose guest address is not `NULL`. -/
def addedPairs (ops : List Call) : Multiset ccache_entry :=
  (calledPairs ops).filter (fun e => e.src ≠ 0)

/-- Thirty-two insertions whose keys `1, ..., 32` hash to thirty-two different slots. -/
def fillCalls : List Call :=
  (List.range 32).map (fun i => Call.add (i + 1) (0xC000 + i))

/-- The table holds pairs of the collection `S` only, as far as translations other than
`NULL` go, and it holds every pair of `S` whose guest address is not `NULL`. -/
def PairsInv (cfg : Config) (t : Table) (S : ccache_entry → Prop) : Prop :=
  (∀ p, IsSlot cfg p → (t p).dst ≠ 0 → S (t p)) ∧
  (∀ e, S e → e.src ≠ 0 → ∃ p, IsSlot cfg p ∧ t p = e)

/-! ## The actions of `arm/fbt_actions.c` -/

/-- The verdict of an action, `enum translation_state`. -/
inductive translation_state where
  | NEUTRAL
  | CLOSE
  | CLOSE_GLUE
deriving DecidableEq, Repr

/-- The cursor state `struct translate` (`tld->trans`), every pointer as its address. -/
structure translate where
  tld : Nat
  transl_instr : Nat
  code_cache_end : Nat
  trampos : Nat
  cur_instr : Nat
  cur_instr_info : Nat
  first_byte_after_opcode : Nat
  num_prefixes : Nat
  next_instr : Nat
  inline_call_RIP : Nat
deriving DecidableEq, Repr

/-- The function `action_copy(ts)`. `code` is the memory of `Code` cells, `info` gives the
`opcode_flags` of the instruction descriptor at an address, `SWI` is the opcode constant
of `arm/fbt_arm_opcode.h`. The result is the verdict, the struct `*ts` after the call and
the memory. The source increments its local copy `transl_addr` only and has no store to
a field of `*ts`. -/
def action_copy (SWI : Nat) (ts : translate) (info : Nat → Nat) (code : Nat → Nat) :
    translation_state × translate × (Nat → Nat) :=
  let addr := ts.cur_instr
  let transl_addr := ts.transl_instr
  let code1 : Nat → Nat := fun a => if a = transl_addr then code addr else code a
  if (info ts.cur_instr_info) &&& 0x1FFF = SWI then
    (translation_state.CLOSE_GLUE, ts, code1)
  else
    (translation_state.NEUTRAL, ts, code1)

/-- The function `action_warn(ts)`: debug output, then `action_copy(ts)`. -/
def action_warn (SWI : Nat) (ts : translate) (info : Nat → Nat) (code : Nat → Nat) :
    translation_state × translate × (Nat → Nat) :=
  action_copy SWI ts info code

/-- A translator state for the evaluation of the actions: the instruction at `0x1000` is
to be copied to the cache position `0x2000`, and its descriptor is at `0x3000`. -/
def exampleTranslate : translate where
  tld := 0
  transl_instr := 0x2000
  code_cache_end := 0x2800
  trampos := 0
  cur_instr := 0x1000
  cur_instr_info := 0x3000
  first_byte_after_opcode := 0
  num_prefixes := 0
  next_instr := 0x1004
  inline_call_RIP := 0

/-! ## The memory manager of `fbt_mem_mgmt.c`

Conventions of this part.

* The address space of the process is `OS`: for every address the protection flags of
  the page mapping that covers it (if any) and the word stored there, the trampolines
  as typed records, the results the kernel will give to the coming `mmap` calls, a log
  of the `munmap` calls, and a log of the reads of unmapped chunk records.
* The chunk list `tld->chunk` is a list of records; a record keeps the address at which
  it is stored (`addr`), its `next` pointer is the rest of the list.
* The fields of the thread data and of the chunk records are fields of the state, not
  bytes of `OS.mem`. The constants are natural numbers, taken to fit the C types of
  the expressions they occur in; the one product with a run-time operand,
  `pages * PAGESIZE` of `fbt_lalloc`, is reduced to a 32-bit `int` (`int32`).
* The size of a chunk is the signed number that the code stores, and the kernel takes the
  size given to `mmap` and `munmap` as an unsigned length (`ulen`): a chunk covers the
  `ulen size` bytes from `ptr` on.
* A call ends with `Result.ok`, or it ends the process (`Result.stop`) for the cause
  given, a failed assertion with its source line.
-/

/-- The kinds of memory, `enum mem_type`. -/
inductive mem_type where
  | MT_INTERNAL
  | MT_MAPPING_TABLE
  | MT_PC_MAPPING_TABLE
  | MT_CODE_CACHE
  | MT_TRAMPOLINE
  | MT_SHARED_DATA
  | MT_SYSCALL_TABLE
  | MT_ICF_PREDICT
deriving DecidableEq, Repr

/-- A chunk record, `struct mem_info`: the region `ptr`, `size` of the kind `type`, with
the size a signed number as `fbt_lalloc` stores it from its `int alloc_size`. The field
`addr` is the address at which the record itself is stored. -/
structure mem_info where
  addr : Nat
  ptr : Nat
  size : Int
  type : mem_type
deriving DecidableEq, Repr

/-- A trampoline, `struct trampoline`. -/
structure trampoline where
  target : Nat
  origin : Nat
  origin_t : Nat
  next : Nat
  code : List Nat
deriving DecidableEq, Repr

/-- The compile-time constants and build flags that the memory manager uses; they come
from headers that are not part of the sources. `trampoline_code` stands for the code
that the assembler macros of `fbt_create_trampoline` write, given `tld->stack - 1` and
`tld->unmanaged_code_trampoline`. -/
structure MemConfig where
  ccache : Config
  PAGESIZE : Nat
  SMALLOC_PAGES : Nat
  SMALLOC_MAX : Nat
  BT_STACK_SIZE : Nat
  PC_MAPPINGTABLE_SIZE : Nat
  CODE_CACHE_ALLOC_PAGES : Nat
  TRANSL_GUARD : Nat
  ALLOC_TRAMPOLINES : Nat
  MAX_SYSCALLS_TABLE : Nat
  sizeof_tld : Nat
  sizeof_mem_info : Nat
  sizeof_trampoline : Nat
  sizeof_ptr : Nat
  sizeof_long : Nat
  trampoline_code : Nat → Nat → List Nat
  arm : Bool
  SHARED_DATA : Bool
  AUTHORIZE_SYSCALLS : Bool
  ICF_PREDICT : Bool

/-- The part of `struct thread_local_data` that the memory manager reads and writes.
`self` is the address of the struct, the value of the pointer `tld`. -/
structure mem_tld where
  self : Nat
  ind_target : Nat
  stack : Nat
  chunk : List mem_info
  smalloc : Nat
  smalloc_size : Int
  mappingtable : Nat
  pc_mappingtable : Nat
  trans : translate
  ret2app_trampoline : Nat
  opt_ijump_trampoline : Nat
  opt_icall_trampoline : Nat
  unmanaged_code_trampoline : Nat
  opt_ret_trampoline : Nat
  opt_ret_remove_trampoline : Nat
  opt_ijump_predict_fixup : Nat
  opt_icall_predict_fixup : Nat
  icf_predict : Nat
  syscall_location : Nat
  syscall_table : Nat

/-- Why the process was ended: a failed system call (`SYSCALL_SUCCESS_OR_SUICIDE_STR`),
`fbt_suicide_str`, an access to unmapped memory, or the failed assertion of a line. -/
inductive Stop where
  | syscall
  | suicide
  | segfault
  | assertion (line : Nat)
deriving DecidableEq, Repr

/-- How a call of the memory manager ends. -/
inductive Result (α : Type) where
  | ok : α → Result α
  | stop : Stop → Result α
  | nofuel : Result α

/-- Sequencing of calls: the second is made when the first returned. -/
def Result.bind {α β : Type} (r : Result α) (f : α → Result β) : Result β :=
  match r with
  | Result.ok a => f a
  | Result.stop s => Result.stop s
  | Result.nofuel => Result.nofuel

/-- The address space of the process. -/
structure OS where
  prot : Nat → Option Nat
  mem : Nat → Nat
  tramp : Nat → trampoline
  oracle : List (Option Nat)
  munmap_log : List (Nat × Int)
  bad_reads : List Nat

/-- The flag `PROT_READ` of `mman.h`. -/
def PROT_READ : Nat := 1

/-- The flag `PROT_WRITE` of `mman.h`. -/
def PROT_WRITE : Nat := 2

/-- The flag `PROT_EXEC` of `mman.h`. -/
def PROT_EXEC : Nat := 4

/-- The conversion of a value to a 32-bit two's complement `int`. -/
def int32 (n : Int) : Int := (n + 2 ^ 31) % 2 ^ 32 - 2 ^ 31

/-- The conversion of a signed size to the unsigned 32-bit length that the kernel is
given: a negative `int` `n` is taken as `2^32 + n`, a value that is not negative as
itself. -/
def ulen (n : Int) : Nat := if n < 0 then (n + 2 ^ 32).toNat else n.toNat

/-- The size of the scratch block, `SMALLOC_PAGES * PAGESIZE`. -/
def scratch_size (mc : MemConfig) : Nat := mc.SMALLOC_PAGES * mc.PAGESIZE

/-- The offset of the thread data in the bootstrap block, `BT_STACK_SIZE * PAGESIZE`. -/
def stack_size (mc : MemConfig) : Nat := mc.BT_STACK_SIZE * mc.PAGESIZE

/-- Modelled from the spec: `fbt_mmap(NULL, size, flags, MAP_PRIVATE|MAP_ANONYMOUS, -1, 0,
result)`, a macro of a header that is not part of the sources, with the `mmap` semantics
of the page allocator shim. The kernel takes `size` as an unsigned length, `ulen size`
bytes. It either reports an error (`none`), as it does for the length `0`, or maps a
region of that length that is page aligned, not `NULL`, free of any live mapping, and
filled with zeros. Which of the two, and where, is read from `oracle`. -/
def mmap (mc : MemConfig) (os : OS) (size : Int) (flags : Nat) : Option (Nat × OS) :=
  match os.oracle with
  | some a :: rest =>
    if 0 < ulen size ∧ a ≠ 0 ∧ a % mc.PAGESIZE = 0 ∧
        ∀ i, i < ulen size → os.prot (a + i) = none then
      some (a, { os with
        prot := fun x => if a ≤ x ∧ x < a + ulen size then some flags else os.prot x
        mem := fun x => if a ≤ x ∧ x < a + ulen size then 0 else os.mem x
        tramp := fun x =>
          if a ≤ x ∧ x < a + ulen size then
            { target := 0, origin := 0, origin_t := 0, next := 0, code := [] }
          else os.tramp x
        oracle := rest })
    else none
  | _ => none

/-- Modelled from the spec: `fbt_munmap(ptr, size, result)`, a macro of a header that is
not part of the sources, with the `munmap` semantics of the page allocator shim. The
kernel takes `size` as an unsigned length, `ulen size` bytes. The call is an error
(`none`) for a pointer that is not page aligned and for the length `0`; otherwise no
address of the region is mapped afterwards. The log keeps the arguments of the call. -/
def munmap (mc : MemConfig) (os : OS) (ptr : Nat) (size : Int) : Option OS :=
  if ptr % mc.PAGESIZE ≠ 0 ∨ ulen size = 0 then none
  else
    some { os with
      prot := fun x => if ptr ≤ x ∧ x < ptr + ulen size then none else os.prot x
      munmap_log := os.munmap_log ++ [(ptr, size)] }

/-- The recursion of `fbt_smalloc(tld, size)` (lines 315-348); the result is the pointer
returned. The assertion of line 345 compares `tld->smalloc` with the sum it was just
given and cannot fail. -/
def smalloc_fuel (mc : MemConfig) :
    Nat → OS → mem_tld → Int → Result (Nat × OS × mem_tld)
  | 0, _, _, _ => Result.nofuel
  | fuel + 1, os, tld, size =>
    if size > (mc.SMALLOC_MAX : Int) ∨ size ≤ 0 then Result.stop Stop.suicide
    else
      let refill : Result (OS × mem_tld) :=
        if size > tld.smalloc_size then
          match mmap mc os (scratch_size mc : Nat) (PROT_READ ||| PROT_WRITE) with
          | none => Result.stop Stop.syscall
          | some (mem, os1) =>
            let tld1 := { tld with smalloc_size := (scratch_size mc : Nat), smalloc := mem }
            match smalloc_fuel mc fuel os1 tld1 (mc.sizeof_mem_info : Nat) with
            | Result.ok (chunk, os2, tld2) =>
              Result.ok (os2, { tld2 with
                chunk := { addr := chunk, type := mem_type.MT_INTERNAL, ptr := mem,
                           size := scratch_size mc } :: tld2.chunk })
            | Result.stop s => Result.stop s
            | Result.nofuel => Result.nofuel
        else Result.ok (os, tld)
      match refill with
      | Result.ok (os3, tld3) =>
        Result.ok (tld3.smalloc, os3, { tld3 with
          smalloc := ((tld3.smalloc : Int) + size).toNat
          smalloc_size := tld3.smalloc_size - size })
      | Result.stop s => Result.stop s
      | Result.nofuel => Result.nofuel

/-- The function `fbt_smalloc(tld, size)`. Every level of the recursion takes one result
of `mmap` from the kernel, which the fuel given here covers. -/
def fbt_smalloc (mc : MemConfig) (os : OS) (tld : mem_tld) (size : Int) :
    Result (Nat × OS × mem_tld) :=
  smalloc_fuel mc (os.oracle.length + 1) os tld size

/-- The first `switch` of `fbt_lalloc` (lines 263-286): the protection flags asked for.
A `case` label that the build leaves out gives no match, and `flags` stays `0`. -/
def lalloc_flags (mc : MemConfig) : mem_type → Nat
  | mem_type.MT_INTERNAL => PROT_READ ||| PROT_WRITE
  | mem_type.MT_MAPPING_TABLE => PROT_READ ||| PROT_WRITE
  | mem_type.MT_PC_MAPPING_TABLE => if mc.arm then PROT_READ ||| PROT_WRITE else 0
  | mem_type.MT_SHARED_DATA => if mc.SHARED_DATA then PROT_READ ||| PROT_WRITE else 0
  | mem_type.MT_SYSCALL_TABLE => if mc.AUTHORIZE_SYSCALLS then PROT_READ ||| PROT_WRITE else 0
  | mem_type.MT_ICF_PREDICT => if mc.ICF_PREDICT then PROT_READ ||| PROT_WRITE else 0
  | mem_type.MT_CODE_CACHE => PROT_READ ||| PROT_WRITE ||| PROT_EXEC
  | mem_type.MT_TRAMPOLINE => PROT_READ ||| PROT_WRITE ||| PROT_EXEC

/-- The second `switch` of `fbt_lalloc` (lines 294-302): `track_chunk`. Without
`SHARED_DATA` the switch has the `default` label only. -/
def track_chunk (mc : MemConfig) : mem_type → Bool
  | mem_type.MT_SHARED_DATA => !mc.SHARED_DATA
  | _ => true

/-- The function `fbt_lalloc(tld, pages, type)`; the result is the pointer returned. The
`int alloc_size` is what `fbt_mmap` is given (line 289) and what the record keeps (line
307), also when the product has wrapped to a negative number. -/
def fbt_lalloc (mc : MemConfig) (os : OS) (tld : mem_tld) (pages : Int) (type : mem_type) :
    Result (Nat × OS × mem_tld) :=
  if pages ≤ 0 then Result.stop (Stop.assertion 253)
  else
    let alloc_size := int32 (pages * (mc.PAGESIZE : Nat))
    (fbt_smalloc mc os tld (mc.sizeof_mem_info : Nat)).bind fun (chunk, os1, tld1) =>
      match mmap mc os1 alloc_size (lalloc_flags mc type) with
      | none => Result.stop Stop.syscall
      | some (retval, os2) =>
        if track_chunk mc type then
          Result.ok (retval, os2, { tld1 with
            chunk := { addr := chunk, ptr := retval, size := alloc_size, type := type }
              :: tld1.chunk })
        else Result.ok (retval, os2, tld1)

/-- The bytes `addr .. addr + sizeof(struct mem_info) - 1` are mapped readable. -/
def record_readable (mc : MemConfig) (os : OS) (addr : Nat) : Prop :=
  ∀ i, i < mc.sizeof_mem_info → ∃ f, os.prot (addr + i) = some f ∧ f &&& PROT_READ ≠ 0

instance (mc : MemConfig) (os : OS) (addr : Nat) : Decidable (record_readable mc os addr) := by
  unfold record_readable
  have : ∀ x, Decidable (∃ f, os.prot x = some f ∧ f &&& PROT_READ ≠ 0) := by
    intro x
    cases h : os.prot x with
    | none => exact isFalse (by simp)
    | some f =>
      by_cases hf : f &&& PROT_READ ≠ 0
      · exact isTrue ⟨f, rfl, hf⟩
      · exact isFalse (by simpa using hf)
  infer_instance

/-- The reads of the fields of the chunk record `c` in one round of the loop of
`fbt_mem_free`; a read of a record that is not mapped is logged. -/
def read_chunk (mc : MemConfig) (os : OS) (c : mem_info) : OS :=
  if record_readable mc os c.addr then os
  else { os with bad_reads := os.bad_reads ++ [c.addr] }

/-- The loop of `fbt_mem_free` (lines 234-246): the fields of the record are read, then
its region is unmapped, then the walk goes on with the saved `next`. -/
def mem_free_loop (mc : MemConfig) : OS → List mem_info → Result (OS × List mem_info)
  | _, [] => Result.stop Stop.segfault
  | os, [c] => Result.ok (read_chunk mc os c, [c])
  | os, c :: c1 :: rest =>
    match munmap mc (read_chunk mc os c) c.ptr c.size with
    | none => Result.stop Stop.syscall
    | some os1 => mem_free_loop mc os1 (c1 :: rest)

/-- The function `fbt_mem_free(tld)`. -/
def fbt_mem_free (mc : MemConfig) (os : OS) (tld : mem_tld) : Result (OS × mem_tld) :=
  (mem_free_loop mc os tld.chunk).bind fun (os1, chunk) =>
    Result.ok (os1, { tld with chunk := chunk })

/-- The number of pages for `n` bytes, as computed in `ulong_t`:
`((n + (PAGESIZE-1)) & (~(PAGESIZE-1))) / PAGESIZE`. -/
def page_count (mc : MemConfig) (n : Nat) : Nat :=
  (((n + (mc.PAGESIZE - 1)) % 2 ^ 32) &&& (2 ^ 32 - 1 - (mc.PAGESIZE - 1) % 2 ^ 32))
    / mc.PAGESIZE

/-- The function `fbt_allocate_new_code_cache(tld)`. -/
def fbt_allocate_new_code_cache (mc : MemConfig) (os : OS) (tld : mem_tld) :
    Result (OS × mem_tld) :=
  (fbt_lalloc mc os tld (mc.CODE_CACHE_ALLOC_PAGES : Nat) mem_type.MT_CODE_CACHE).bind
    fun (mem, os1, tld1) =>
      Result.ok (os1, { tld1 with
        trans := { tld1.trans with
          transl_instr := mem
          code_cache_end := mem + mc.CODE_CACHE_ALLOC_PAGES * mc.PAGESIZE - mc.TRANSL_GUARD } })

/-- The store `*(long*)addr = v`; it needs a mapping with write permission. -/
def store_long (os : OS) (addr v : Nat) : Result OS :=
  match os.prot addr with
  | some f =>
    if f &&& PROT_WRITE ≠ 0 then
      Result.ok { os with mem := fun x => if x = addr then v else os.mem x }
    else Result.stop Stop.segfault
  | none => Result.stop Stop.segfault

/-- Lines 73-97 of `fbt_reinit_tls`: the stores to the thread data at the address
`mem + BT_STACK_SIZE * PAGESIZE` of the bootstrap block `mem`; `base` holds the fields
that the function does not store to. The first chunk record follows the thread data, the
scratch region follows the record. The difference of line 96 is taken in the integers. -/
def reinit_reset (mc : MemConfig) (mem : Nat) (base : mem_tld) : mem_tld :=
  { base with
    self := mem + stack_size mc
    ind_target := 0
    stack := mem + stack_size mc
    chunk := [{ addr := mem + stack_size mc + mc.sizeof_tld, ptr := mem,
                size := scratch_size mc, type := mem_type.MT_INTERNAL }]
    trans := { base.trans with
      tld := mem + stack_size mc, transl_instr := 0, code_cache_end := 0, trampos := 0,
      cur_instr := 0, cur_instr_info := 0, first_byte_after_opcode := 0, num_prefixes := 0,
      next_instr := 0 }
    smalloc := mem + stack_size mc + mc.sizeof_tld + mc.sizeof_mem_info
    smalloc_size := (scratch_size mc : Int) -
      (((mem + stack_size mc + mc.sizeof_tld + mc.sizeof_mem_info : Nat) : Int) - (mem : Int)) }

/-- Lines 107-114 of `fbt_reinit_tls`: the allocation of the mapping table, of the PC
mapping table on ARM, and the store of the guard word. -/
def reinit_tables (mc : MemConfig) (os : OS) (tld : mem_tld) : Result (OS × mem_tld) :=
  (fbt_lalloc mc os tld ((mc.ccache.MAPPINGTABLE_SIZE / mc.PAGESIZE + 1 : Nat) : Int)
    mem_type.MT_MAPPING_TABLE).bind fun (mt, os2, tld2) =>
  (if mc.arm then
    (fbt_lalloc mc os2 { tld2 with mappingtable := mt }
      ((mc.PC_MAPPINGTABLE_SIZE / mc.PAGESIZE + 1 : Nat) : Int)
      mem_type.MT_PC_MAPPING_TABLE).bind fun (pc, os3, tld3) =>
        Result.ok (os3, { tld3 with pc_mappingtable := pc })
   else Result.ok (os2, { tld2 with mappingtable := mt })).bind fun (os4, tld4) =>
  (store_long os4 (tld4.mappingtable + mc.ccache.MAPPINGTABLE_SIZE) 1).bind fun os5 =>
    Result.ok (os5, tld4)

/-- Lines 123-151 of `fbt_reinit_tls`: the trampoline pointers, the system call table
in a build with `AUTHORIZE_SYSCALLS`, and the first code cache. -/
def reinit_rest (mc : MemConfig) (os : OS) (tld : mem_tld) : Result (OS × mem_tld) :=
  let tld5 : mem_tld := { tld with
    ret2app_trampoline := 0
    opt_ijump_trampoline := 0
    opt_icall_trampoline := 0
    unmanaged_code_trampoline := 0
    opt_ret_trampoline := 0
    opt_ret_remove_trampoline := 0
    opt_ijump_predict_fixup := if mc.ICF_PREDICT then 0 else tld.opt_ijump_predict_fixup
    opt_icall_predict_fixup := if mc.ICF_PREDICT then 0 else tld.opt_icall_predict_fixup
    icf_predict := if mc.ICF_PREDICT then 0 else tld.icf_predict }
  (if mc.AUTHORIZE_SYSCALLS then
    (fbt_lalloc mc os { tld5 with syscall_location := 0 }
      (int32 (page_count mc (mc.MAX_SYSCALLS_TABLE * mc.sizeof_ptr) : Nat))
      mem_type.MT_SYSCALL_TABLE).bind fun (tbl, os6, tld6) =>
        if page_count mc (mc.MAX_SYSCALLS_TABLE * mc.sizeof_ptr) = 1 then
          Result.ok (os6, { tld6 with syscall_table := tbl })
        else Result.stop (Stop.assertion 147)
   else Result.ok (os, tld5)).bind fun (os7, tld7) =>
  fbt_allocate_new_code_cache mc os7 tld7

/-- Lines 69-153 of `fbt_reinit_tls`: the set-up of the thread data in the bootstrap
block `mem`, with the assertions of lines 72 and 99. `caller` is the argument `tld`
(`none` for `NULL`). -/
def reinit_body (mc : MemConfig) (os : OS) (mem : Nat) (caller : Option Nat)
    (base : mem_tld) : Result (OS × mem_tld) :=
  if caller ≠ none ∧ caller ≠ some (mem + stack_size mc) then Result.stop (Stop.assertion 72)
  else if (reinit_reset mc mem base).smalloc_size ≤ 0 then Result.stop (Stop.assertion 99)
  else
    (reinit_tables mc os (reinit_reset mc mem base)).bind fun (os5, tld4) =>
      reinit_rest mc os5 tld4

/-- The thread data in fresh memory: every field is zero. -/
def mem_tld.zero : mem_tld where
  self := 0
  ind_target := 0
  stack := 0
  chunk := []
  smalloc := 0
  smalloc_size := 0
  mappingtable := 0
  pc_mappingtable := 0
  trans := { tld := 0, transl_instr := 0, code_cache_end := 0, trampos := 0, cur_instr := 0,
             cur_instr_info := 0, first_byte_after_opcode := 0, num_prefixes := 0,
             next_instr := 0, inline_call_RIP := 0 }
  ret2app_trampoline := 0
  opt_ijump_trampoline := 0
  opt_icall_trampoline := 0
  unmanaged_code_trampoline := 0
  opt_ret_trampoline := 0
  opt_ret_remove_trampoline := 0
  opt_ijump_predict_fixup := 0
  opt_icall_predict_fixup := 0
  icf_predict := 0
  syscall_location := 0
  syscall_table := 0

/-- The function `fbt_reinit_tls(tld)`, with `none` for `tld == NULL`. After
`fbt_mem_free` the bootstrap block is read from the first record of the chunk list. -/
def fbt_reinit_tls (mc : MemConfig) (os : OS) (tld : Option mem_tld) :
    Result (OS × mem_tld) :=
  match tld with
  | none =>
    match mmap mc os (scratch_size mc : Nat) (PROT_READ ||| PROT_WRITE) with
    | none => Result.stop Stop.syscall
    | some (mem, os1) => reinit_body mc os1 mem none mem_tld.zero
  | some t =>
    (fbt_mem_free mc os t).bind fun (os1, t1) =>
      match t1.chunk with
      | [] => Result.stop Stop.segfault
      | c :: _ => reinit_body mc os1 c.ptr (some t.self) t1

/-- The function `fbt_init_tls()`. -/
def fbt_init_tls (mc : MemConfig) (os : OS) : Result (OS × mem_tld) :=
  fbt_reinit_tls mc os none

/-- The store `trampo->next = n` for the trampoline at address `a`. -/
def set_next (h : Nat → trampoline) (a n : Nat) : Nat → trampoline :=
  fun x => if x = a then { h a with next := n } else h x

/-- The loop of `fbt_allocate_new_trampolines` (lines 187-190), for the number of rounds
given: `trampos->next = trampos+1; trampos = trampos->next`. -/
def link_trampolines (mc : MemConfig) :
    Nat → (Nat → trampoline) → Nat → (Nat → trampoline) × Nat
  | 0, h, trampos => (h, trampos)
  | n + 1, h, trampos =>
    link_trampolines mc n (set_next h trampos (trampos + mc.sizeof_trampoline))
      (trampos + mc.sizeof_trampoline)

/-- The function `fbt_allocate_new_trampolines(tld)`. -/
def fbt_allocate_new_trampolines (mc : MemConfig) (os : OS) (tld : mem_tld) :
    Result (OS × mem_tld) :=
  let trampo_size := page_count mc (mc.ALLOC_TRAMPOLINES * mc.sizeof_trampoline)
  (fbt_lalloc mc os tld (int32 (trampo_size : Nat)) mem_type.MT_TRAMPOLINE).bind
    fun (mem, os1, tld1) =>
      let linked := link_trampolines mc (mc.ALLOC_TRAMPOLINES - 1) os1.tramp mem
      Result.ok ({ os1 with tramp := set_next linked.1 linked.2 tld1.trans.trampos },
        { tld1 with trans := { tld1.trans with trampos := mem } })

/-- The function `fbt_trampoline_free(tld, trampo)`. -/
def fbt_trampoline_free (os : OS) (tld : mem_tld) (trampo : Nat) : OS × mem_tld :=
  ({ os with tramp := set_next os.tramp trampo tld.trans.trampos },
    { tld with trans := { tld.trans with trampos := trampo } })

/-- The function `fbt_create_trampoline(tld, call_target, origin, origin_t)`; the result
is the trampoline returned. -/
def fbt_create_trampoline (mc : MemConfig) (os : OS) (tld : mem_tld)
    (call_target origin origin_t : Nat) : Result (Nat × OS × mem_tld) :=
  (if tld.trans.trampos = 0 then fbt_allocate_new_trampolines mc os tld
   else Result.ok (os, tld)).bind fun (os1, tld1) =>
    let trampos := tld1.trans.trampos
    Result.ok (trampos,
      { os1 with tramp := fun x =>
          if x = trampos then
            { os1.tramp trampos with
              target := call_target
              origin := origin
              origin_t := origin_t
              code := mc.trampoline_code tld1.stack tld1.unmanaged_code_trampoline }
          else os1.tramp x },
      { tld1 with trans := { tld1.trans with trampos := (os1.tramp trampos).next } })

/-- The trampolines `l`, in this order, are the free list that starts at `head`. -/
def IsFreelist (h : Nat → trampoline) : Nat → List Nat → Prop
  | head, [] => head = 0
  | head, t :: rest => head = t ∧ t ≠ 0 ∧ IsFreelist h (h t).next rest

/-- A call of one of the functions of the memory manager on a thread's data. -/
inductive MemCall where
  | lalloc (pages : Int) (type : mem_type)
  | smalloc (size : Int)
  | new_code_cache
  | create_trampoline (call_target origin origin_t : Nat)
  | trampoline_free (trampo : Nat)
  | reinit

/-- One call on the state of the process and the thread's data. -/
def mem_step (mc : MemConfig) (os : OS) (tld : mem_tld) : MemCall → Result (OS × mem_tld)
  | MemCall.lalloc pages type =>
    (fbt_lalloc mc os tld pages type).bind fun (_, os1, tld1) => Result.ok (os1, tld1)
  | MemCall.smalloc size =>
    (fbt_smalloc mc os tld size).bind fun (_, os1, tld1) => Result.ok (os1, tld1)
  | MemCall.new_code_cache => fbt_allocate_new_code_cache mc os tld
  | MemCall.create_trampoline call_target origin origin_t =>
    (fbt_create_trampoline mc os tld call_target origin origin_t).bind
      fun (_, os1, tld1) => Result.ok (os1, tld1)
  | MemCall.trampoline_free trampo => Result.ok (fbt_trampoline_free os tld trampo)
  | MemCall.reinit => fbt_reinit_tls mc os (some tld)

/-- A sequence of calls, each of which has to return for the next one to be made. -/
def mem_run (mc : MemConfig) : List MemCall → OS → mem_tld → Result (OS × mem_tld)
  | [], os, tld => Result.ok (os, tld)
  | call :: rest, os, tld =>
    (mem_step mc os tld call).bind fun (os1, tld1) => mem_run mc rest os1 tld1

/-- The states of a thread: what `fbt_init_tls` returns, and what a sequence of returning
calls leads to from there. -/
def Reachable (mc : MemConfig) (os : OS) (tld : mem_tld) : Prop :=
  ∃ os0 calls os1 tld1, fbt_init_tls mc os0 = Result.ok (os1, tld1) ∧
    mem_run mc calls os1 tld1 = Result.ok (os, tld)

/-- The thread data as the code cache sees them: the entries of the mapping table are
read from the memory behind `tld->mappingtable`, `src` at offset `0` of an entry and
`dst` at the offset `sizeof(void*)`. -/
def ccache_view (mc : MemConfig) (os : OS) (tld : mem_tld) : thread_local_data where
  mappingtable := fun off =>
    { src := os.mem (tld.mappingtable + off)
      dst := os.mem (tld.mappingtable + off + mc.sizeof_ptr) }
  inline_call_RIP := tld.trans.inline_call_RIP

/-- The assumptions on the constants: a positive page size, a bootstrap block that holds
the stack, the thread data, the first chunk record and some scratch memory (the assertion
of line 99), a chunk record that `fbt_smalloc` accepts, table and cache sizes that fit an
`int`, one page for the system call table (the assertion of line 147), and a `long` whose
size divides the page size and the size of the mapping table. -/
structure MemConfig.WF (mc : MemConfig) : Prop where
  page_pos : 0 < mc.PAGESIZE
  boot_fits : stack_size mc + mc.sizeof_tld + mc.sizeof_mem_info < scratch_size mc
  record_pos : 0 < mc.sizeof_mem_info
  record_small : mc.sizeof_mem_info ≤ mc.SMALLOC_MAX
  table_int : (mc.ccache.MAPPINGTABLE_SIZE / mc.PAGESIZE + 1) * mc.PAGESIZE < 2 ^ 31
  pc_int : (mc.PC_MAPPINGTABLE_SIZE / mc.PAGESIZE + 1) * mc.PAGESIZE < 2 ^ 31
  cache_pos : 0 < mc.CODE_CACHE_ALLOC_PAGES
  cache_int : mc.CODE_CACHE_ALLOC_PAGES * mc.PAGESIZE < 2 ^ 31
  syscall_pages : mc.AUTHORIZE_SYSCALLS = true →
    page_count mc (mc.MAX_SYSCALLS_TABLE * mc.sizeof_ptr) = 1
  long_pos : 0 < mc.sizeof_long
  long_dvd_size : mc.sizeof_long ∣ mc.ccache.MAPPINGTABLE_SIZE
  long_dvd_page : mc.sizeof_long ∣ mc.PAGESIZE

/-- A small instance of the constants of the memory manager, around `exampleConfig`:
pages of 16 bytes, a scratch block of 8 pages with 2 pages of stack, a mapping table of
256 bytes, a code cache of 4 pages, 4 trampolines of 8 bytes per refill. -/
def exampleMem : MemConfig where
  ccache := exampleConfig
  PAGESIZE := 16
  SMALLOC_PAGES := 8
  SMALLOC_MAX := 32
  BT_STACK_SIZE := 2
  PC_MAPPINGTABLE_SIZE := 64
  CODE_CACHE_ALLOC_PAGES := 4
  TRANSL_GUARD := 8
  ALLOC_TRAMPOLINES := 4
  MAX_SYSCALLS_TABLE := 4
  sizeof_tld := 40
  sizeof_mem_info := 16
  sizeof_trampoline := 8
  sizeof_ptr := 4
  sizeof_long := 4
  trampoline_code := fun stack target => [stack, target]
  arm := false
  SHARED_DATA := false
  AUTHORIZE_SYSCALLS := false
  ICF_PREDICT := false

/-- The same constants in a build with `SHARED_DATA`. -/
def exampleMemShared : MemConfig := { exampleMem with SHARED_DATA := true }

/-- A process without any mapping, whose memory would read `0xFF` everywhere, and a
kernel that is going to place the coming mappings at the addresses listed. -/
def exampleOS : OS where
  prot := fun _ => none
  mem := fun _ => 0xFF
  tramp := fun _ => { target := 0, origin := 0, origin_t := 0, next := 0, code := [] }
  oracle := [some 0x100, some 0x200, some 0x400, some 0x500, some 0x700, some 0x900,
             some 0xB00, some 0xD00, some 0xF00, some 0x1100]
  munmap_log := []
  bad_reads := []

/-- The thread data after `fbt_smalloc` has handed out `size` bytes at `tld->smalloc`
(lines 341-343). -/
def bump (tld : mem_tld) (size : Int) : mem_tld :=
  { tld with
    smalloc := ((tld.smalloc : Int) + size).toNat
    smalloc_size := tld.smalloc_size - size }

/-- The thread data after `fbt_smalloc` has taken the new scratch block `mem` into use
(lines 327-338): the record of the block is stored at its start and heads the list. -/
def refilled (mc : MemConfig) (tld : mem_tld) (mem : Nat) : mem_tld :=
  { tld with
    chunk := { addr := mem, ptr := mem, size := scratch_size mc,
               type := mem_type.MT_INTERNAL } :: tld.chunk
    smalloc := mem + mc.sizeof_mem_info
    smalloc_size := (scratch_size mc : Int) - (mc.sizeof_mem_info : Int) }

/-- The arguments of the `munmap` call for a chunk are accepted by the kernel. -/
def munmap_valid (mc : MemConfig) (c : mem_info) : Prop :=
  c.ptr % mc.PAGESIZE = 0 ∧ ulen c.size ≠ 0

instance (mc : MemConfig) (c : mem_info) : Decidable (munmap_valid mc c) := by
  unfold munmap_valid; infer_instance

/-- The address `x` lies in the region of the chunk `c`, the `ulen c.size` bytes from
`c.ptr` on. -/
def in_region (c : mem_info) (x : Nat) : Prop := c.ptr ≤ x ∧ x < c.ptr + ulen c.size

instance (c : mem_info) (x : Nat) : Decidable (in_region c x) := by
  unfold in_region; infer_instance

/-- A thread's data with three chunks, the bootstrap block last. -/
def exampleTld : mem_tld :=
  { mem_tld.zero with
    self := 288
    stack := 288
    chunk := [{ addr := 360, ptr := 1024, size := 64, type := mem_type.MT_CODE_CACHE },
              { addr := 344, ptr := 512, size := 272, type := mem_type.MT_MAPPING_TABLE },
              { addr := 328, ptr := 256, size := 128, type := mem_type.MT_INTERNAL }]
    smalloc := 376
    smalloc_size := 8
    mappingtable := 512 }

/-- The state of the example process after `fbt_init_tls`. -/
def exampleInit : OS × mem_tld :=
  match fbt_init_tls exampleMem exampleOS with
  | Result.ok s => s
  | _ => (exampleOS, mem_tld.zero)

/-- The state `os1`, `tld1` extends the state `os`, `tld`: every address that was mapped
keeps its protection and its content, the chunk list has grown at its head only, and the
thread data are at the same place with the same mapping table and inlining state. -/
def MemExt (os : OS) (tld : mem_tld) (os1 : OS) (tld1 : mem_tld) : Prop :=
  (∀ x, os.prot x ≠ none → os1.prot x = os.prot x ∧ os1.mem x = os.mem x) ∧
  tld.chunk <:+ tld1.chunk ∧ tld1.mappingtable = tld.mappingtable ∧
  tld1.self = tld.self ∧ tld1.stack = tld.stack ∧
  tld1.trans.inline_call_RIP = tld.trans.inline_call_RIP

/-! ### The mapping table in the memory of the process -/

/-- The store `*addr = v` of a word. -/
def poke (os : OS) (addr v : Nat) : OS :=
  { os with mem := fun x => if x = addr then v else os.mem x }

/-- The loop of `fbt_ccache_find` (lines 72-98) on the memory of the process: the entry
at the byte offset `offset` is at the address `tld->mappingtable + offset`, with `src`
there and `dst` at `sizeof(void*)` after it. -/
def find_loop_mem (mc : MemConfig) (tld : mem_tld) (orig_address : Nat) :
    Nat → OS → Nat → Nat → Outcome (Nat × OS)
  | 0, _, _, _ => Outcome.nofuel
  | fuel + 1, os, offset, pos =>
    if os.mem (tld.mappingtable + offset) ≠ 0 then
      if orig_address = os.mem (tld.mappingtable + offset) then
        if os.mem (tld.mappingtable + offset + mc.sizeof_ptr) = 0 then Outcome.fatal
        else if pos ≠ 0 then
          let entry := tld.mappingtable + offset
          let firstentry := tld.mappingtable + mc.ccache.C_MAPPING_FUNCTION orig_address
          let tmp := os.mem firstentry
          let os1 := poke os firstentry (os.mem entry)
          let os2 := poke os1 entry tmp
          let tmp2 := os2.mem (firstentry + mc.sizeof_ptr)
          let os3 := poke os2 (firstentry + mc.sizeof_ptr) (os2.mem (entry + mc.sizeof_ptr))
          let os4 := poke os3 (entry + mc.sizeof_ptr) tmp2
          Outcome.ret (os4.mem (firstentry + mc.sizeof_ptr), os4)
        else Outcome.ret (os.mem (tld.mappingtable + offset + mc.sizeof_ptr), os)
      else find_loop_mem mc tld orig_address fuel os (next_offset mc.ccache offset) (pos + 1)
    else Outcome.ret (0, os)

/-- The function `fbt_ccache_find(tld, orig_address)` on the memory of the process. -/
def fbt_ccache_find_mem (mc : MemConfig) (fuel : Nat) (os : OS) (tld : mem_tld)
    (orig_address : Nat) : Outcome (Nat × OS) :=
  find_loop_mem mc tld orig_address fuel os (mc.ccache.C_MAPPING_FUNCTION orig_address) 0

/-- The function `fbt_ccache_add_entry(tld, orig_address, transl_address)` on the memory
of the process: the search loop reads the `src` words, lines 166-167 store the entry. -/
def fbt_ccache_add_entry_mem (mc : MemConfig) (os : OS) (tld : mem_tld)
    (orig_address transl_address : Nat) : Outcome OS :=
  if inlining mc.ccache (ccache_view mc os tld) then Outcome.ret os
  else
    match add_loop mc.ccache (ccache_view mc os tld).mappingtable
        (mc.ccache.MAPPINGTABLE_MAXENTRIES / 10 + 1)
        (mc.ccache.C_MAPPING_FUNCTION orig_address) 0 with
    | Outcome.ret offset =>
      Outcome.ret (poke (poke os (tld.mappingtable + offset) orig_address)
        (tld.mappingtable + offset + mc.sizeof_ptr) transl_address)
    | Outcome.fatal => Outcome.fatal
    | Outcome.nofuel => Outcome.nofuel

/-- A sequence of calls on the memory of the process, each of which has to return for the
next one to be made. -/
def run_mem (mc : MemConfig) (tld : mem_tld) : List Call → OS → Outcome OS
  | [], os => Outcome.ret os
  | Call.add g c :: rest, os =>
    match fbt_ccache_add_entry_mem mc os tld g c with
    | Outcome.ret os1 => run_mem mc tld rest os1
    | Outcome.fatal => Outcome.fatal
    | Outcome.nofuel => Outcome.nofuel
  | Call.find g fuel :: rest, os =>
    match fbt_ccache_find_mem mc fuel os tld g with
    | Outcome.ret (_, os1) => run_mem mc tld rest os1
    | Outcome.fatal => Outcome.fatal
    | Outcome.nofuel => Outcome.nofuel

/-- The constants of `exampleMem` with a hash whose value `252` is below
`MAPPINGTABLE_SIZE = 256` and is not a multiple of the entry size `8`. -/
def unalignedMem : MemConfig :=
  { exampleMem with ccache := { exampleConfig with C_MAPPING_FUNCTION := fun _ => 252 } }

instance (h : Nat → trampoline) (l : List Nat) :
    ∀ head, Decidable (IsFreelist h head l) := by
  induction l with
  | nil => intro head; unfold IsFreelist; infer_instance
  | cons t rest ih =>
    intro head
    unfold IsFreelist
    have := ih (h t).next
    infer_instance

/-- The addresses of `n` consecutive trampolines from `a` on. -/
def consecutive (mc : MemConfig) (a n : Nat) : List Nat :=
  (List.range n).map fun i => a + i * mc.sizeof_trampoline

/-- A process without any mapping in which the kernel is going to place the next mapping
at `0x700`. -/
def trampOS : OS := { exampleOS with oracle := [some 0x700] }

/-- A thread's data with an empty free list of trampolines and 64 bytes of scratch memory
at `0x100`. -/
def trampTld : mem_tld := { mem_tld.zero with smalloc := 0x100, smalloc_size := 64 }

/-- A process with three trampolines, `1800`, `1808` and `1816`, that are linked in this
order. -/
def listOS : OS :=
  { exampleOS with
    tramp := fun x =>
      { target := 0, origin := 0, origin_t := 0,
        next := if x = 1800 then 1808 else if x = 1808 then 1816 else 0, code := [] } }

/-- A thread's data whose free list of trampolines starts at `1800`. -/
def listTld : mem_tld :=
  { mem_tld.zero with trans := { mem_tld.zero.trans with trampos := 1800 } }

/-- What a call that returns a value and a state gives back to its caller: the value, or
the way the call ended otherwise. -/
def returned {α : Type} (r : Outcome (Nat × α)) : Outcome Nat :=
  match r with
  | Outcome.ret (v, _) => Outcome.ret v
  | Outcome.fatal => Outcome.fatal
  | Outcome.nofuel => Outcome.nofuel

/-- The offset whose entry `Table.swap t a b` has at the offset `o`. -/
def swap_index (a b o : Nat) : Nat := if o = a then b else if o = b then a else o

/-! ### The invariant of the memory manager -/

/-- The record of the bootstrap block `mem` (lines 79-82 of `fbt_reinit_tls`): it follows
the thread data, which follow the stack. -/
def boot_record (mc : MemConfig) (mem : Nat) : mem_info :=
  { addr := mem + stack_size mc + mc.sizeof_tld, ptr := mem, size := scratch_size mc,
    type := mem_type.MT_INTERNAL }

/-- The record of the scratch block `mem` that `fbt_smalloc` has mapped (lines 331-335):
it is stored at the start of the block. -/
def scratch_record (mc : MemConfig) (mem : Nat) : mem_info :=
  { addr := mem, ptr := mem, size := scratch_size mc, type := mem_type.MT_INTERNAL }

/-- Every record of the list is stored inside the region of a chunk of the type
`MT_INTERNAL` that is the record's own chunk or comes later in the list. -/
def Stored (mc : MemConfig) : List mem_info → Prop
  | [] => True
  | c :: rest =>
    (∃ d ∈ c :: rest, d.type = mem_type.MT_INTERNAL ∧ d.ptr ≤ c.addr ∧
      c.addr + mc.sizeof_mem_info ≤ d.ptr + ulen d.size) ∧ Stored mc rest

/-- The address `x` lies in the scratch memory that `fbt_smalloc` has not handed out:
the `smalloc_size` bytes from `smalloc` on. -/
def in_free (smalloc : Nat) (smalloc_size : Int) (x : Nat) : Prop :=
  smalloc ≤ x ∧ (x : Int) < (smalloc : Int) + smalloc_size

/-- The invariant, on the parts of the state that it is about: the protection of the
addresses, the chunk list, the address of the thread data, the stack pointer, and the
scratch pointer with its size.

* `boot`: the last chunk is the record of the bootstrap block, the thread data follow the
  stack in that block, and `tld->stack` is the address of the thread data.
* `valid`, `mapped`, `disj`: the regions of the chunks are page aligned and not empty,
  mapped with the protection of their type, and pairwise disjoint.
* `scratch`: the scratch memory ends where a chunk of the type `MT_INTERNAL` ends.
* `stored`, `used`: when a scratch block holds two records, every record is stored in an
  internal chunk that is not earlier in the list, and neither a record nor the stack or
  the thread data lie in the scratch memory not handed out.
* `nonneg`: when a scratch block holds a record and a request of the largest size,
  `smalloc_size` is not negative. -/
structure MemInvCore (mc : MemConfig) (prot : Nat → Option Nat) (chunk : List mem_info)
    (tldp stack smalloc : Nat) (smalloc_size : Int) : Prop where
  boot : ∃ front mem, chunk = front ++ [boot_record mc mem] ∧ tldp = mem + stack_size mc ∧
    stack = tldp
  valid : ∀ c ∈ chunk, munmap_valid mc c
  mapped : ∀ c ∈ chunk, ∀ x, in_region c x → prot x = some (lalloc_flags mc c.type)
  disj : chunk.Pairwise (fun c d => ∀ x, in_region c x → ¬ in_region d x)
  scratch : ∃ d ∈ chunk, d.type = mem_type.MT_INTERNAL ∧ d.ptr ≤ smalloc ∧
    (smalloc : Int) + smalloc_size = ((d.ptr + ulen d.size : Nat) : Int)
  stored : 2 * mc.sizeof_mem_info ≤ scratch_size mc → Stored mc chunk
  used : 2 * mc.sizeof_mem_info ≤ scratch_size mc →
    (∀ c ∈ chunk, ∀ x, c.addr ≤ x → x < c.addr + mc.sizeof_mem_info →
      ¬ in_free smalloc smalloc_size x) ∧
    (∀ x, tldp ≤ x + stack_size mc → x < tldp + mc.sizeof_tld →
      ¬ in_free smalloc smalloc_size x)
  nonneg : mc.SMALLOC_MAX + mc.sizeof_mem_info ≤ scratch_size mc → 0 ≤ smalloc_size

/-- The invariant of the states of a thread. -/
def MemInv (mc : MemConfig) (os : OS) (tld : mem_tld) : Prop :=
  MemInvCore mc os.prot tld.chunk tld.self tld.stack tld.smalloc tld.smalloc_size

/-- The address `x` is mapped and does not lie in the scratch memory that `fbt_smalloc`
has not handed out. -/
def InUse (os : OS) (tld : mem_tld) (x : Nat) : Prop :=
  os.prot x ≠ none ∧ ¬ in_free tld.smalloc tld.smalloc_size x

/-- The calls other than `fbt_reinit_tls`. -/
def MemCall.keeps : MemCall → Prop
  | MemCall.reinit => False
  | _ => True

/-- The call returns, or the process is ended because the kernel has refused a mapping. -/
def OkOrSyscall {α : Type} (r : Result α) : Prop :=
  (∃ a, r = Result.ok a) ∨ r = Result.stop Stop.syscall

/-! ## Basic facts about the probe chain -/

theorem next_offset_eq_mod {cfg : Config} (wf : cfg.WF) (off : Nat) :
    next_offset cfg off = (off + cfg.sizeof_entry) % cfg.MAPPINGTABLE_SIZE := by
  obtain ⟨k, hk⟩ := wf.size_pow
  unfold next_offset
  rw [hk]
  exact Nat.and_pow_two_sub_one_eq_mod _ _

theorem size_eq_mul {cfg : Config} (wf : cfg.WF) :
    cfg.MAPPINGTABLE_SIZE = cfg.sizeof_entry * nslots cfg := by
  unfold nslots
  exact (Nat.mul_div_cancel' wf.entry_dvd).symm

theorem nslots_pos {cfg : Config} (wf : cfg.WF) : 0 < nslots cfg := by
  have h1 := size_eq_mul wf
  obtain ⟨k, hk⟩ := wf.size_pow
  have h2 : 0 < cfg.MAPPINGTABLE_SIZE := by rw [hk]; exact Nat.pos_pow_of_pos k (by decide)
  rcases Nat.eq_zero_or_pos (nslots cfg) with h | h
  · rw [h, Nat.mul_zero] at h1; omega
  · exact h

theorem isSlot_index {cfg : Config} (wf : cfg.WF) {p : Nat} (hp : IsSlot cfg p) :
    ∃ a, a < nslots cfg ∧ p = cfg.sizeof_entry * a := by
  obtain ⟨hlt, a, ha⟩ := hp
  refine ⟨a, ?_, ha⟩
  rw [size_eq_mul wf, ha] at hlt
  exact Nat.lt_of_mul_lt_mul_left hlt

theorem isSlot_of_index {cfg : Config} (wf : cfg.WF) {a : Nat} (ha : a < nslots cfg) :
    IsSlot cfg (cfg.sizeof_entry * a) := by
  refine ⟨?_, Dvd.intro _ rfl⟩
  rw [size_eq_mul wf]
  exact Nat.mul_lt_mul_of_pos_left ha wf.entry_pos

theorem probe_succ (cfg : Config) (h i : Nat) :
    probe cfg h (i + 1) = next_offset cfg (probe cfg h i) := by
  induction i generalizing h with
  | zero => rfl
  | succ n ih => exact ih (next_offset cfg h)

theorem probe_add (cfg : Config) (h i j : Nat) :
    probe cfg h (i + j) = probe cfg (probe cfg h i) j := by
  induction i generalizing h with
  | zero => simp [probe]
  | succ n ih =>
    have : n + 1 + j = (n + j) + 1 := by omega
    rw [this]
    exact ih (next_offset cfg h)

theorem probe_index {cfg : Config} (wf : cfg.WF) {a : Nat} (ha : a < nslots cfg) (i : Nat) :
    probe cfg (cfg.sizeof_entry * a) i = cfg.sizeof_entry * ((a + i) % nslots cfg) := by
  induction i with
  | zero => simp [probe, Nat.mod_eq_of_lt ha]
  | succ n ih =>
    rw [probe_succ, ih, next_offset_eq_mod wf]
    have h1 : cfg.sizeof_entry * ((a + n) % nslots cfg) + cfg.sizeof_entry
        = cfg.sizeof_entry * ((a + n) % nslots cfg + 1) := by ring
    rw [h1, size_eq_mul wf, Nat.mul_mod_mul_left, Nat.mod_add_mod]
    rfl

theorem probe_isSlot {cfg : Config} (wf : cfg.WF) {h : Nat} (hh : IsSlot cfg h) (i : Nat) :
    IsSlot cfg (probe cfg h i) := by
  obtain ⟨a, ha, rfl⟩ := isSlot_index wf hh
  rw [probe_index wf ha]
  exact isSlot_of_index wf (Nat.mod_lt _ (nslots_pos wf))

/-- Two steps of one chain that reach the same slot differ by a multiple of the number
of slots; the one below the number of slots is the smaller. -/
theorem probe_first {cfg : Config} (wf : cfg.WF) {h : Nat} (hh : IsSlot cfg h) {i m : Nat}
    (hi : i < nslots cfg) (e : probe cfg h i = probe cfg h m) : i ≤ m := by
  obtain ⟨a, ha, rfl⟩ := isSlot_index wf hh
  rw [probe_index wf ha, probe_index wf ha] at e
  have e2 : (a + i) % nslots cfg = (a + m) % nslots cfg :=
    Nat.eq_of_mul_eq_mul_left wf.entry_pos e
  by_contra hlt
  have hlt : m < i := Nat.lt_of_not_le hlt
  have e3 : (a + m + (i - m)) % nslots cfg = (a + m) % nslots cfg := by
    have : a + m + (i - m) = a + i := by omega
    rw [this]; exact e2
  have e4 : (i - m) % nslots cfg = 0 := by
    have h5 : (a + m + (i - m)) ≡ (a + m + 0) [MOD nslots cfg] := by
      simpa [Nat.ModEq] using e3
    have h6 := Nat.ModEq.add_left_cancel' (a + m) h5
    simpa [Nat.ModEq] using h6
  have h7 : (i - m) % nslots cfg = i - m := Nat.mod_eq_of_lt (by omega)
  omega

theorem probe_inj {cfg : Config} (wf : cfg.WF) {h : Nat} (hh : IsSlot cfg h) {i j : Nat}
    (hi : i < nslots cfg) (hj : j < nslots cfg) (e : probe cfg h i = probe cfg h j) :
    i = j :=
  Nat.le_antisymm (probe_first wf hh hi e) (probe_first wf hh hj e.symm)

theorem probe_period {cfg : Config} (wf : cfg.WF) {h : Nat} (hh : IsSlot cfg h) (i : Nat) :
    probe cfg h (i % nslots cfg) = probe cfg h i := by
  obtain ⟨a, ha, rfl⟩ := isSlot_index wf hh
  rw [probe_index wf ha, probe_index wf ha, Nat.add_mod_mod]

/-- Every slot lies on the probe chain of every slot. -/
theorem probe_cover {cfg : Config} (wf : cfg.WF) {h p : Nat} (hh : IsSlot cfg h)
    (hp : IsSlot cfg p) : ∃ i, i < nslots cfg ∧ probe cfg h i = p := by
  obtain ⟨a, ha, rfl⟩ := isSlot_index wf hh
  obtain ⟨b, hb, rfl⟩ := isSlot_index wf hp
  refine ⟨(b + (nslots cfg - a)) % nslots cfg, Nat.mod_lt _ (nslots_pos wf), ?_⟩
  rw [probe_index wf ha, Nat.add_mod_mod]
  have : a + (b + (nslots cfg - a)) = b + nslots cfg := by omega
  rw [this, Nat.add_mod_right, Nat.mod_eq_of_lt hb]

/-! ## The loops follow the probe chain -/

/-- The four stores of the move-to-front code exchange the two entries. -/
theorem mtf_stores (t : Table) (first offset : Nat) :
    ((((t.setSrc first (t offset).src).setSrc offset (t first).src).setDst first
        ((((t.setSrc first (t offset).src).setSrc offset (t first).src) offset).dst)).setDst
        offset ((((t.setSrc first (t offset).src).setSrc offset (t first).src) first).dst))
      = t.swap first offset := by
  funext o
  by_cases h3 : first = offset
  · subst h3
    by_cases h1 : o = first <;> simp_all [Table.setSrc, Table.setDst, Table.swap]
  · have h3b : ¬ offset = first := fun e => h3 e.symm
    by_cases h1 : o = first <;> by_cases h2 : o = offset <;>
      simp_all [Table.setSrc, Table.setDst, Table.swap]

theorem find_loop_skip (cfg : Config) (g : Nat) (t : Table) (d fuel h pos : Nat)
    (hs : ∀ j, j < d → (t (probe cfg h j)).src ≠ 0 ∧ (t (probe cfg h j)).src ≠ g) :
    find_loop cfg g t (fuel + d) h pos = find_loop cfg g t fuel (probe cfg h d) (pos + d) := by
  induction d generalizing h pos with
  | zero => rfl
  | succ n ih =>
    have h0 := hs 0 (Nat.succ_pos n)
    have hrec : ∀ j, j < n → (t (probe cfg (next_offset cfg h) j)).src ≠ 0 ∧
        (t (probe cfg (next_offset cfg h) j)).src ≠ g := fun j hj => hs (j + 1) (by omega)
    have e := ih (next_offset cfg h) (pos + 1) hrec
    have hf : fuel + (n + 1) = (fuel + n) + 1 := by omega
    rw [hf]
    simp only [probe] at h0
    simp only [find_loop, probe]
    rw [if_pos h0.1, if_neg (fun e' => h0.2 e'.symm), e]
    have : pos + 1 + n = pos + (n + 1) := by omega
    rw [this]

theorem find_loop_hit (cfg : Config) (g c : Nat) (t : Table) (fuel off pos : Nat)
    (hg : g ≠ 0) (hc : c ≠ 0) (ht : t off = { src := g, dst := c }) :
    find_loop cfg g t (fuel + 1) off pos =
      Outcome.ret (c, if pos = 0 then t else t.swap (cfg.C_MAPPING_FUNCTION g) off) := by
  have h1 : (t off).src = g := by rw [ht]
  have h2 : (t off).dst = c := by rw [ht]
  simp only [find_loop]
  rw [if_pos (by rw [h1]; exact hg), if_pos h1.symm, if_neg (by rw [h2]; exact hc)]
  by_cases hp : pos = 0
  · simp [hp, h2]
  · rw [if_pos hp, if_neg hp, mtf_stores]
    simp [Table.swap, h2]

theorem find_loop_null_dst (cfg : Config) (g : Nat) (t : Table) (fuel off pos : Nat)
    (hg : g ≠ 0) (ht : t off = { src := g, dst := 0 }) :
    find_loop cfg g t (fuel + 1) off pos = Outcome.fatal := by
  have h1 : (t off).src = g := by rw [ht]
  have h2 : (t off).dst = 0 := by rw [ht]
  simp only [find_loop]
  rw [if_pos (by rw [h1]; exact hg), if_pos h1.symm, if_pos h2]

theorem find_loop_miss (cfg : Config) (g : Nat) (t : Table) (fuel off pos : Nat)
    (ht : (t off).src = 0) :
    find_loop cfg g t (fuel + 1) off pos = Outcome.ret (0, t) := by
  simp [find_loop, ht]

theorem add_loop_skip (cfg : Config) (t : Table) (d fuel h count : Nat)
    (hs : ∀ j, j < d → (t (probe cfg h j)).src ≠ 0)
    (hd : d = 0 ∨ count + d < cfg.MAPPINGTABLE_MAXENTRIES / 10) :
    add_loop cfg t (fuel + d) h count = add_loop cfg t fuel (probe cfg h d) (count + d) := by
  induction d generalizing h count with
  | zero => rfl
  | succ n ih =>
    have h0 := hs 0 (Nat.succ_pos n)
    have hrec : ∀ j, j < n → (t (probe cfg (next_offset cfg h) j)).src ≠ 0 :=
      fun j hj => hs (j + 1) (by omega)
    have e := ih (next_offset cfg h) (count + 1) hrec (by omega)
    have hf : fuel + (n + 1) = (fuel + n) + 1 := by omega
    rw [hf]
    simp only [probe] at h0
    simp only [add_loop, probe]
    rw [if_pos h0, if_neg (by omega), e]
    have : count + 1 + n = count + (n + 1) := by omega
    rw [this]

/-- The search loop of the insertion, when the first free slot of the chain is at
displacement `d`, and `d` is `0` or below `MAPPINGTABLE_MAXENTRIES/10`. -/
theorem add_loop_found (cfg : Config) (t : Table) (h d : Nat)
    (hs : ∀ j, j < d → (t (probe cfg h j)).src ≠ 0)
    (he : (t (probe cfg h d)).src = 0)
    (hd : d = 0 ∨ d < cfg.MAPPINGTABLE_MAXENTRIES / 10) :
    add_loop cfg t (cfg.MAPPINGTABLE_MAXENTRIES / 10 + 1) h 0 = Outcome.ret (probe cfg h d) := by
  have hf : cfg.MAPPINGTABLE_MAXENTRIES / 10 + 1
      = (cfg.MAPPINGTABLE_MAXENTRIES / 10 - d + 1) + d := by omega
  rw [hf, add_loop_skip cfg t d _ h 0 hs (by omega)]
  simp [add_loop, he]

/-- The search loop of the insertion, when the first `max (MAPPINGTABLE_MAXENTRIES/10) 1`
slots of the chain are occupied. -/
theorem add_loop_fatal (cfg : Config) (t : Table) (h : Nat)
    (hs : ∀ j, j < max (cfg.MAPPINGTABLE_MAXENTRIES / 10) 1 → (t (probe cfg h j)).src ≠ 0) :
    add_loop cfg t (cfg.MAPPINGTABLE_MAXENTRIES / 10 + 1) h 0 = Outcome.fatal := by
  have hf : cfg.MAPPINGTABLE_MAXENTRIES / 10 + 1
      = (cfg.MAPPINGTABLE_MAXENTRIES / 10 - (max (cfg.MAPPINGTABLE_MAXENTRIES / 10) 1 - 1) + 1)
        + (max (cfg.MAPPINGTABLE_MAXENTRIES / 10) 1 - 1) := by omega
  rw [hf, add_loop_skip cfg t _ _ h 0 (fun j hj => hs j (by omega)) (by omega)]
  have h1 := hs (max (cfg.MAPPINGTABLE_MAXENTRIES / 10) 1 - 1) (by omega)
  simp only [add_loop]
  rw [if_pos h1, if_pos (by omega)]

theorem exists_first (P : Nat → Prop) (i : Nat) (h : P i) :
    ∃ d, d ≤ i ∧ P d ∧ ∀ j, j < d → ¬ P j := by
  classical
  exact ⟨Nat.find ⟨i, h⟩, Nat.find_min' _ h, Nat.find_spec _, fun j hj => Nat.find_min _ hj⟩

theorem exampleConfig_wf : exampleConfig.WF where
  size_pow := ⟨8, rfl⟩
  entry_pos := by decide
  entry_dvd := by decide
  hash_slot := by
    intro g
    show (g <<< 3) &&& 248 < 256 ∧ 8 ∣ (g <<< 3) &&& 248
    constructor
    · exact Nat.lt_of_le_of_lt Nat.and_le_right (by decide)
    · apply Nat.dvd_of_mod_eq_zero
      have h := Nat.and_pow_two_sub_one_eq_mod ((g <<< 3) &&& 248) 3
      rw [← h, Nat.and_assoc]
      have h2 : 248 &&& 2 ^ 3 - 1 = 0 := by decide
      rw [h2, Nat.and_zero]

theorem exampleConfigInline_wf : exampleConfigInline.WF where
  size_pow := exampleConfig_wf.size_pow
  entry_pos := exampleConfig_wf.entry_pos
  entry_dvd := exampleConfig_wf.entry_dvd
  hash_slot := exampleConfig_wf.hash_slot

/-- The loop of the lookup on a table with the invariants, when the key is stored. -/
theorem find_loop_stored {cfg : Config} (wf : cfg.WF) (t : Table) (g p fuel : Nat)
    (hnh : NoHoles cfg t) (hdk : DistinctKeys cfg t) (hdst : DstNonzero cfg t)
    (hg : g ≠ 0) (hfuel : nslots cfg ≤ fuel) (hp : IsSlot cfg p) (hpg : (t p).src = g) :
    ∃ t', find_loop cfg g t fuel (cfg.C_MAPPING_FUNCTION g) 0 = Outcome.ret ((t p).dst, t') := by
  obtain ⟨i, hi, hip⟩ := probe_cover wf (wf.hash_slot g) hp
  have hocc : (t p).src ≠ 0 := by rw [hpg]; exact hg
  have hchain := hnh p hp.1 hp.2 hocc i hi (by rw [hpg]; exact hip)
  rw [hpg] at hchain
  have hskip : ∀ j, j < i → (t (probe cfg (cfg.C_MAPPING_FUNCTION g) j)).src ≠ 0 ∧
      (t (probe cfg (cfg.C_MAPPING_FUNCTION g) j)).src ≠ g := by
    intro j hj
    refine ⟨hchain j (by omega), fun e => ?_⟩
    have hs := probe_isSlot wf (wf.hash_slot g) j
    have := hdk p hp.1 hp.2 hocc _ hs.1 hs.2 (by rw [hpg, e])
    rw [← hip] at this
    have := probe_inj wf (wf.hash_slot g) hi (by omega) this
    omega
  have hf : fuel = (fuel - i - 1 + 1) + i := by omega
  rw [hf, find_loop_skip cfg g t i _ _ 0 hskip, hip]
  have hc := hdst p hp.1 hp.2 hocc
  have hentry : t p = { src := g, dst := (t p).dst } := by rw [← hpg]
  rw [find_loop_hit cfg g (t p).dst t _ p _ hg hc hentry]
  exact ⟨_, rfl⟩

/-- The loop of the lookup on a table with an empty slot, when the key is not stored. -/
theorem find_loop_absent {cfg : Config} (wf : cfg.WF) (t : Table) (g fuel : Nat)
    (hempty : HasEmpty cfg t) (hfuel : nslots cfg ≤ fuel)
    (habs : ∀ p, IsSlot cfg p → (t p).src ≠ g) :
    find_loop cfg g t fuel (cfg.C_MAPPING_FUNCTION g) 0 = Outcome.ret (0, t) := by
  obtain ⟨e, he1, he2, he3⟩ := hempty
  obtain ⟨i, hi, hie⟩ := probe_cover wf (wf.hash_slot g) ⟨he1, he2⟩
  obtain ⟨d, hd, hde, hdmin⟩ := exists_first
    (fun j => (t (probe cfg (cfg.C_MAPPING_FUNCTION g) j)).src = 0) i (by show (t (probe cfg (cfg.C_MAPPING_FUNCTION g) i)).src = 0; rw [hie]; exact he3)
  have hskip : ∀ j, j < d → (t (probe cfg (cfg.C_MAPPING_FUNCTION g) j)).src ≠ 0 ∧
      (t (probe cfg (cfg.C_MAPPING_FUNCTION g) j)).src ≠ g :=
    fun j hj => ⟨hdmin j hj, habs _ (probe_isSlot wf (wf.hash_slot g) j)⟩
  have hf : fuel = (fuel - d - 1 + 1) + d := by omega
  rw [hf, find_loop_skip cfg g t d _ _ 0 hskip]
  exact find_loop_miss cfg g t _ _ _ hde

/-! ## C1: the lookup -/

/-- C1 (as amended): on a table that has no holes, pairwise distinct keys, an empty slot
and, in addition, no occupied slot with a null translation, and for a guest address
`g ≠ 0`, `fbt_ccache_find` returns (with any fuel of at least the number of slots); the
value returned is a non-null `c` exactly when the pair `(g, c)` is stored in a slot, and
it is `NULL` exactly when no slot has `src == g`. -/
theorem fbt_ccache_find_lookup {cfg : Config} (wf : cfg.WF) (tld : thread_local_data)
    (g fuel : Nat) (hnh : NoHoles cfg tld.mappingtable)
    (hdk : DistinctKeys cfg tld.mappingtable) (hempty : HasEmpty cfg tld.mappingtable)
    (hdst : DstNonzero cfg tld.mappingtable) (hg : g ≠ 0) (hfuel : nslots cfg ≤ fuel) :
    ∃ v tld1, fbt_ccache_find cfg fuel tld g = Outcome.ret (v, tld1) ∧
      (∀ c, (v = c ∧ c ≠ 0) ↔
        ∃ p, IsSlot cfg p ∧ tld.mappingtable p = { src := g, dst := c }) ∧
      (v = 0 ↔ ∀ p, IsSlot cfg p → (tld.mappingtable p).src ≠ g) := by
  by_cases hex : ∃ p, IsSlot cfg p ∧ (tld.mappingtable p).src = g
  · obtain ⟨p, hp, hpg⟩ := hex
    obtain ⟨t1, ht1⟩ := find_loop_stored wf tld.mappingtable g p fuel hnh hdk hdst hg hfuel hp hpg
    have hocc : (tld.mappingtable p).src ≠ 0 := by rw [hpg]; exact hg
    have hc := hdst p hp.1 hp.2 hocc
    refine ⟨(tld.mappingtable p).dst, { tld with mappingtable := t1 }, ?_, ?_, ?_⟩
    · simp [fbt_ccache_find, ht1]
    · intro c
      constructor
      · rintro ⟨rfl, _⟩
        exact ⟨p, hp, by rw [← hpg]⟩
      · rintro ⟨q, hq, hqe⟩
        have hqs : (tld.mappingtable q).src = g := by rw [hqe]
        have hpq := hdk p hp.1 hp.2 hocc q hq.1 hq.2 (by rw [hpg, hqs])
        subst hpq
        have hqd : (tld.mappingtable p).dst = c := by rw [hqe]
        exact ⟨hqd, by rw [← hqd]; exact hc⟩
    · constructor
      · intro h0; exact absurd h0 hc
      · intro hall; exact absurd hpg (hall p hp)
  · have habs : ∀ p, IsSlot cfg p → (tld.mappingtable p).src ≠ g :=
      fun p hp e => hex ⟨p, hp, e⟩
    have h := find_loop_absent wf tld.mappingtable g fuel hempty hfuel habs
    refine ⟨0, tld, ?_, ?_, ?_⟩
    · simp [fbt_ccache_find, h]
    · intro c
      constructor
      · rintro ⟨rfl, hc⟩; exact absurd rfl hc
      · rintro ⟨q, hq, hqe⟩
        exact absurd (by rw [hqe]) (habs q hq)
    · exact ⟨fun _ => habs, fun _ => rfl⟩

set_option maxRecDepth 100000 in
/-- C1, witness: the lookup of `0xA000` in the table that holds `(0xA000, 0xC000)`. -/
theorem fbt_ccache_find_lookup_witness :
    NoHoles exampleConfig singleTable ∧ DistinctKeys exampleConfig singleTable ∧
    HasEmpty exampleConfig singleTable ∧ DstNonzero exampleConfig singleTable ∧
    ∃ v tld1, fbt_ccache_find exampleConfig 32 ⟨singleTable, 0⟩ 0xA000
        = Outcome.ret (v, tld1) ∧
      (∀ c, (v = c ∧ c ≠ 0) ↔
        ∃ p, IsSlot exampleConfig p ∧ singleTable p = { src := 0xA000, dst := c }) ∧
      (v = 0 ↔ ∀ p, IsSlot exampleConfig p → (singleTable p).src ≠ 0xA000) :=
  ⟨by decide, by decide, by decide, by decide,
    fbt_ccache_find_lookup exampleConfig_wf ⟨singleTable, 0⟩ 0xA000 32
      (by decide) (by decide) (by decide) (by decide) (by decide) (by decide)⟩

set_option maxRecDepth 100000 in
/-- C1, counterexample: `nullDstTable` has no holes, distinct non-zero keys and an empty
slot, and the pair `(8, NULL)` is stored in it, yet no call `fbt_ccache_find(8)` returns
`NULL`: the assertion `entry->dst != NULL` ends the process. So "returns `c` if and only
if `(g, c)` is stored" fails for `c = NULL`. -/
theorem fbt_ccache_find_lookup_null_dst :
    NoHoles exampleConfig nullDstTable ∧ DistinctKeys exampleConfig nullDstTable ∧
    HasEmpty exampleConfig nullDstTable ∧ (8 : Nat) ≠ 0 ∧
    IsSlot exampleConfig (exampleConfig.C_MAPPING_FUNCTION 8) ∧
    (∃ p, IsSlot exampleConfig p ∧ nullDstTable p = { src := 8, dst := 0 }) ∧
    (∀ fuel, fbt_ccache_find exampleConfig (fuel + 1) ⟨nullDstTable, 0⟩ 8 = Outcome.fatal) ∧
    ¬ ((∃ fuel tld1, fbt_ccache_find exampleConfig fuel ⟨nullDstTable, 0⟩ 8
          = Outcome.ret (0, tld1)) ↔
        ∃ p, IsSlot exampleConfig p ∧ nullDstTable p = { src := 8, dst := 0 }) := by
  have hfatal : ∀ fuel,
      fbt_ccache_find exampleConfig (fuel + 1) ⟨nullDstTable, 0⟩ 8 = Outcome.fatal := by
    intro fuel
    have h := find_loop_null_dst exampleConfig 8 nullDstTable fuel 64 0 (by decide) rfl
    have h64 : exampleConfig.C_MAPPING_FUNCTION 8 = 64 := by decide
    simp [fbt_ccache_find, h64, h]
  have hstored : ∃ p, IsSlot exampleConfig p ∧ nullDstTable p = { src := 8, dst := 0 } :=
    ⟨64, by decide, rfl⟩
  refine ⟨by decide, by decide, by decide, by decide, by decide, hstored, hfatal, ?_⟩
  intro hiff
  obtain ⟨fuel, tld1, h⟩ := hiff.mpr hstored
  cases fuel with
  | zero => simp [fbt_ccache_find, find_loop] at h
  | succ n => rw [hfatal n] at h; cases h

/-! ## C2: lookup after insert -/

/-- The two stores of the insertion write the entry. -/
theorem add_stores (t : Table) (off g c : Nat) :
    (t.setSrc off g).setDst off c = t.write off { src := g, dst := c } := by
  funext o
  by_cases h : o = off <;> simp [Table.setSrc, Table.setDst, Table.write, h]

/-- The insertion outside inlining mode, when the first free slot of the chain is at
displacement `d`, and `d` is `0` or below `MAPPINGTABLE_MAXENTRIES/10`. -/
theorem add_entry_found (cfg : Config) (tld : thread_local_data) (g c d : Nat)
    (hin : inlining cfg tld = false)
    (hs : ∀ j, j < d → (tld.mappingtable (probe cfg (cfg.C_MAPPING_FUNCTION g) j)).src ≠ 0)
    (he : (tld.mappingtable (probe cfg (cfg.C_MAPPING_FUNCTION g) d)).src = 0)
    (hd : d = 0 ∨ d < cfg.MAPPINGTABLE_MAXENTRIES / 10) :
    fbt_ccache_add_entry cfg tld g c = Outcome.ret { tld with
      mappingtable := tld.mappingtable.write (probe cfg (cfg.C_MAPPING_FUNCTION g) d)
        { src := g, dst := c } } := by
  unfold fbt_ccache_add_entry
  rw [hin, add_loop_found cfg tld.mappingtable _ d hs he hd]
  simp [add_stores]

/-- A lookup that hits at the first probe returns the translation and the same state. -/
theorem find_home_hit (cfg : Config) (tld : thread_local_data) (g c fuel : Nat)
    (hg : g ≠ 0) (hc : c ≠ 0)
    (ht : tld.mappingtable (cfg.C_MAPPING_FUNCTION g) = { src := g, dst := c }) :
    fbt_ccache_find cfg (fuel + 1) tld g = Outcome.ret (c, tld) := by
  unfold fbt_ccache_find
  rw [find_loop_hit cfg g c tld.mappingtable fuel _ 0 hg hc ht]
  simp

/-- Lookups that return the same state can be repeated any number of times. -/
theorem run_find_replicate (cfg : Config) (tld : thread_local_data) (g c fuel : Nat)
    (h : fbt_ccache_find cfg fuel tld g = Outcome.ret (c, tld)) (n : Nat) :
    run cfg (List.replicate n (Call.find g fuel)) tld = Outcome.ret tld := by
  induction n with
  | zero => rfl
  | succ k ih => simp [List.replicate, run, h, ih]

/-- C2 (as amended): outside inlining mode, for a guest address `g ≠ 0` and a cache
address `c ≠ 0`, `fbt_ccache_add_entry(g, c)` on an empty table returns, and then
`fbt_ccache_find(g)` returns `c`, also after any number `n` of earlier calls
`fbt_ccache_find(g)`. -/
theorem fbt_ccache_lookup_after_insert (cfg : Config) (tld : thread_local_data) (g c : Nat)
    (hempty : ∀ o, (tld.mappingtable o).src = 0) (hin : inlining cfg tld = false)
    (hg : g ≠ 0) (hc : c ≠ 0) :
    ∃ tld1, fbt_ccache_add_entry cfg tld g c = Outcome.ret tld1 ∧
      ∀ n fuel, ∃ tld2,
        run cfg (List.replicate n (Call.find g (fuel + 1))) tld1 = Outcome.ret tld2 ∧
        fbt_ccache_find cfg (fuel + 1) tld2 g = Outcome.ret (c, tld2) := by
  refine ⟨_, add_entry_found cfg tld g c 0 hin (fun j hj => absurd hj (Nat.not_lt_zero j))
    (hempty _) (Or.inl rfl), ?_⟩
  intro n fuel
  have hfind := find_home_hit cfg { tld with
      mappingtable := tld.mappingtable.write (probe cfg (cfg.C_MAPPING_FUNCTION g) 0)
        { src := g, dst := c } } g c fuel hg hc (by simp [Table.write, probe])
  exact ⟨_, run_find_replicate cfg _ g c (fuel + 1) hfind n, hfind⟩

/-- C2, witness: `add(0xA000, 0xC000)` on the empty table, then `find(0xA000) = 0xC000`. -/
theorem fbt_ccache_lookup_after_insert_witness :
    (∀ o, (Table.empty o).src = 0) ∧ inlining exampleConfig ⟨Table.empty, 0⟩ = false ∧
    ∃ tld1, fbt_ccache_add_entry exampleConfig ⟨Table.empty, 0⟩ 0xA000 0xC000
        = Outcome.ret tld1 ∧
      ∀ n fuel, ∃ tld2,
        run exampleConfig (List.replicate n (Call.find 0xA000 (fuel + 1))) tld1
          = Outcome.ret tld2 ∧
        fbt_ccache_find exampleConfig (fuel + 1) tld2 0xA000 = Outcome.ret (0xC000, tld2) :=
  ⟨fun _ => rfl, rfl,
    fbt_ccache_lookup_after_insert exampleConfig ⟨Table.empty, 0⟩ 0xA000 0xC000
      (fun _ => rfl) rfl (by decide) (by decide)⟩

/-- C2, counterexample: after `fbt_ccache_add_entry(0, 0xC000)` on the empty table the
lookup of the guest address `0` returns `NULL`, not `0xC000`; and in inlining mode
`fbt_ccache_add_entry(0xA000, 0xC000)` returns without a store, so that the lookup of
`0xA000` returns `NULL`. -/
theorem fbt_ccache_lookup_after_insert_null_key :
    (∃ tld1, fbt_ccache_add_entry exampleConfig ⟨Table.empty, 0⟩ 0 0xC000
        = Outcome.ret tld1 ∧
      ∀ fuel, fbt_ccache_find exampleConfig (fuel + 1) tld1 0 = Outcome.ret (0, tld1)) ∧
    (∃ tld1, fbt_ccache_add_entry exampleConfigInline ⟨Table.empty, 1⟩ 0xA000 0xC000
        = Outcome.ret tld1 ∧
      ∀ fuel, fbt_ccache_find exampleConfigInline (fuel + 1) tld1 0xA000
        = Outcome.ret (0, tld1)) := by
  constructor
  · refine ⟨_, rfl, fun fuel => ?_⟩
    unfold fbt_ccache_find
    rw [find_loop_miss _ _ _ _ _ _ (by decide)]
  · refine ⟨_, rfl, fun fuel => ?_⟩
    unfold fbt_ccache_find
    rw [find_loop_miss _ _ _ _ _ _ (by decide)]

/-! ## C9, C4, C10: the insertion -/

theorem probe_eq_mod {cfg : Config} (wf : cfg.WF) {h : Nat} (hh : IsSlot cfg h) (d : Nat) :
    probe cfg h d = (h + d * cfg.sizeof_entry) % cfg.MAPPINGTABLE_SIZE := by
  obtain ⟨a, ha, rfl⟩ := isSlot_index wf hh
  rw [probe_index wf ha]
  have h1 : cfg.sizeof_entry * a + d * cfg.sizeof_entry = cfg.sizeof_entry * (a + d) := by ring
  rw [h1, size_eq_mul wf, Nat.mul_mod_mul_left]

/-- The insertion outside inlining mode is fatal when the first
`max (MAPPINGTABLE_MAXENTRIES/10) 1` slots of the chain are occupied. -/
theorem add_entry_fatal (cfg : Config) (tld : thread_local_data) (g c : Nat)
    (hin : inlining cfg tld = false)
    (hs : ∀ j, j < max (cfg.MAPPINGTABLE_MAXENTRIES / 10) 1 →
      (tld.mappingtable (probe cfg (cfg.C_MAPPING_FUNCTION g) j)).src ≠ 0) :
    fbt_ccache_add_entry cfg tld g c = Outcome.fatal := by
  unfold fbt_ccache_add_entry
  rw [hin, add_loop_fatal cfg tld.mappingtable _ hs]
  simp

/-- What a returning insertion outside inlining mode has done. -/
theorem add_entry_inv (cfg : Config) (tld tld1 : thread_local_data) (g c : Nat)
    (hret : fbt_ccache_add_entry cfg tld g c = Outcome.ret tld1)
    (hin : inlining cfg tld = false) :
    ∃ d, (∀ j, j < d → (tld.mappingtable (probe cfg (cfg.C_MAPPING_FUNCTION g) j)).src ≠ 0) ∧
      (tld.mappingtable (probe cfg (cfg.C_MAPPING_FUNCTION g) d)).src = 0 ∧
      (d = 0 ∨ d < cfg.MAPPINGTABLE_MAXENTRIES / 10) ∧
      tld1 = { tld with
        mappingtable := tld.mappingtable.write (probe cfg (cfg.C_MAPPING_FUNCTION g) d)
          { src := g, dst := c } } := by
  by_cases hall : ∀ j, j < max (cfg.MAPPINGTABLE_MAXENTRIES / 10) 1 →
      (tld.mappingtable (probe cfg (cfg.C_MAPPING_FUNCTION g) j)).src ≠ 0
  · rw [add_entry_fatal cfg tld g c hin hall] at hret
    cases hret
  · push_neg at hall
    obtain ⟨j, hj, hje⟩ := hall
    obtain ⟨d, hd, hde, hdmin⟩ := exists_first
      (fun j => (tld.mappingtable (probe cfg (cfg.C_MAPPING_FUNCTION g) j)).src = 0) j hje
    have hd2 : d = 0 ∨ d < cfg.MAPPINGTABLE_MAXENTRIES / 10 := by omega
    have h := add_entry_found cfg tld g c d hin hdmin hde hd2
    rw [h] at hret
    injection hret with hret
    exact ⟨d, hdmin, hde, hd2, hret.symm⟩

/-- C9: when `fbt_ccache_add_entry(g, c)` returns outside inlining mode, there is a
displacement `d` such that the slots of the probe chain of `hash(g)` before `d` are
occupied and the slot at `d`, the offset `(hash(g) + d * sizeof(entry)) mod
MAPPINGTABLE_SIZE`, had `src == 0`; that slot now holds `(g, c)` and every other slot,
and the rest of the thread data, is unchanged. -/
theorem fbt_ccache_add_entry_frame {cfg : Config} (wf : cfg.WF) (tld tld1 : thread_local_data)
    (g c : Nat) (hret : fbt_ccache_add_entry cfg tld g c = Outcome.ret tld1)
    (hin : inlining cfg tld = false) :
    ∃ d p, p = (cfg.C_MAPPING_FUNCTION g + d * cfg.sizeof_entry) % cfg.MAPPINGTABLE_SIZE ∧
      p = probe cfg (cfg.C_MAPPING_FUNCTION g) d ∧
      (∀ j, j < d → (tld.mappingtable (probe cfg (cfg.C_MAPPING_FUNCTION g) j)).src ≠ 0) ∧
      (tld.mappingtable p).src = 0 ∧
      tld1.mappingtable p = { src := g, dst := c } ∧
      (∀ o, o ≠ p → tld1.mappingtable o = tld.mappingtable o) ∧
      tld1.inline_call_RIP = tld.inline_call_RIP := by
  obtain ⟨d, hocc, hemp, _, rfl⟩ := add_entry_inv cfg tld tld1 g c hret hin
  refine ⟨d, probe cfg (cfg.C_MAPPING_FUNCTION g) d, probe_eq_mod wf (wf.hash_slot g) d, rfl,
    hocc, hemp, ?_, ?_, rfl⟩
  · simp [Table.write]
  · intro o ho
    simp [Table.write, ho]

/-- C9, witness: the insertion of the key `64` into `singleTable`, where it collides with
the key `0xA000` at slot `0` and goes to slot `8`. -/
theorem fbt_ccache_add_entry_frame_witness :
    fbt_ccache_add_entry exampleConfig ⟨singleTable, 0⟩ 64 0xC100
      = Outcome.ret ⟨singleTable.write 8 { src := 64, dst := 0xC100 }, 0⟩ ∧
    inlining exampleConfig ⟨singleTable, 0⟩ = false ∧
    ∃ d p, p = (exampleConfig.C_MAPPING_FUNCTION 64 + d * exampleConfig.sizeof_entry)
          % exampleConfig.MAPPINGTABLE_SIZE ∧
      p = probe exampleConfig (exampleConfig.C_MAPPING_FUNCTION 64) d ∧
      (∀ j, j < d →
        (singleTable (probe exampleConfig (exampleConfig.C_MAPPING_FUNCTION 64) j)).src ≠ 0) ∧
      (singleTable p).src = 0 ∧
      (singleTable.write 8 { src := 64, dst := 0xC100 }) p = { src := 64, dst := 0xC100 } ∧
      (∀ o, o ≠ p → (singleTable.write 8 { src := 64, dst := 0xC100 }) o = singleTable o) ∧
      (0 : Nat) = 0 :=
  have h : fbt_ccache_add_entry exampleConfig ⟨singleTable, 0⟩ 64 0xC100
      = Outcome.ret ⟨singleTable.write 8 { src := 64, dst := 0xC100 }, 0⟩ :=
    add_entry_found exampleConfig ⟨singleTable, 0⟩ 64 0xC100 1 rfl (by decide) (by decide)
      (by decide)
  ⟨h, rfl, fbt_ccache_add_entry_frame exampleConfig_wf _ _ 64 0xC100 h rfl⟩

/-- C4 (as amended): outside inlining mode `fbt_ccache_add_entry` ends the process, and
so stores nothing, if and only if the first `max (MAPPINGTABLE_MAXENTRIES/10) 1` slots of
the probe chain of `hash(g)` are occupied, that is, when the displacement of the first
empty slot reaches `MAPPINGTABLE_MAXENTRIES/10` (and is not `0`); for every displacement
`d` of the first empty slot that is `0` or below `MAPPINGTABLE_MAXENTRIES/10` the
insertion returns, and for every `d ≥ 1` that is at least `MAPPINGTABLE_MAXENTRIES/10`
it is fatal. -/
theorem fbt_ccache_add_entry_capacity (cfg : Config) (tld : thread_local_data) (g c : Nat)
    (hin : inlining cfg tld = false) :
    (fbt_ccache_add_entry cfg tld g c = Outcome.fatal ↔
      ∀ j, j < max (cfg.MAPPINGTABLE_MAXENTRIES / 10) 1 →
        (tld.mappingtable (probe cfg (cfg.C_MAPPING_FUNCTION g) j)).src ≠ 0) ∧
    (∀ d, (∀ j, j < d → (tld.mappingtable (probe cfg (cfg.C_MAPPING_FUNCTION g) j)).src ≠ 0) →
      (tld.mappingtable (probe cfg (cfg.C_MAPPING_FUNCTION g) d)).src = 0 →
      ((d = 0 ∨ d < cfg.MAPPINGTABLE_MAXENTRIES / 10) →
        ∃ tld1, fbt_ccache_add_entry cfg tld g c = Outcome.ret tld1) ∧
      (1 ≤ d → cfg.MAPPINGTABLE_MAXENTRIES / 10 ≤ d →
        fbt_ccache_add_entry cfg tld g c = Outcome.fatal)) := by
  refine ⟨⟨fun hf => ?_, add_entry_fatal cfg tld g c hin⟩, fun d hocc hemp => ⟨fun hd => ?_, fun h1 hM => ?_⟩⟩
  · by_contra hall
    push_neg at hall
    obtain ⟨j, hj, hje⟩ := hall
    obtain ⟨d, hd, hde, hdmin⟩ := exists_first
      (fun j => (tld.mappingtable (probe cfg (cfg.C_MAPPING_FUNCTION g) j)).src = 0) j hje
    rw [add_entry_found cfg tld g c d hin hdmin hde (by omega)] at hf
    cases hf
  · exact ⟨_, add_entry_found cfg tld g c d hin hocc hemp hd⟩
  · exact add_entry_fatal cfg tld g c hin (fun j hj => hocc j (by omega))

/-- C4, witness: an insertion on the chain of `chainTable`, in a build without
`INLINE_CALLS`. -/
theorem fbt_ccache_add_entry_capacity_witness :
    inlining exampleConfig ⟨chainTable, 0⟩ = false ∧
    ((fbt_ccache_add_entry exampleConfig ⟨chainTable, 0⟩ 128 0xC300 = Outcome.fatal ↔
      ∀ j, j < max (exampleConfig.MAPPINGTABLE_MAXENTRIES / 10) 1 →
        (chainTable (probe exampleConfig (exampleConfig.C_MAPPING_FUNCTION 128) j)).src ≠ 0) ∧
    (∀ d, (∀ j, j < d →
        (chainTable (probe exampleConfig (exampleConfig.C_MAPPING_FUNCTION 128) j)).src ≠ 0) →
      (chainTable (probe exampleConfig (exampleConfig.C_MAPPING_FUNCTION 128) d)).src = 0 →
      ((d = 0 ∨ d < exampleConfig.MAPPINGTABLE_MAXENTRIES / 10) →
        ∃ tld1, fbt_ccache_add_entry exampleConfig ⟨chainTable, 0⟩ 128 0xC300
          = Outcome.ret tld1) ∧
      (1 ≤ d → exampleConfig.MAPPINGTABLE_MAXENTRIES / 10 ≤ d →
        fbt_ccache_add_entry exampleConfig ⟨chainTable, 0⟩ 128 0xC300 = Outcome.fatal))) :=
  ⟨rfl, fbt_ccache_add_entry_capacity exampleConfig ⟨chainTable, 0⟩ 128 0xC300 rfl⟩

/-- C4, counterexample: in `chainTable` the first empty slot of the chain of `hash(128)`
is at displacement `3`, which does not exceed `MAPPINGTABLE_MAXENTRIES / 10 = 3`, and
the insertion of the key `128` is fatal all the same. -/
theorem fbt_ccache_add_entry_capacity_at_bound :
    inlining exampleConfig ⟨chainTable, 0⟩ = false ∧
    (∀ j, j < 3 →
      (chainTable (probe exampleConfig (exampleConfig.C_MAPPING_FUNCTION 128) j)).src ≠ 0) ∧
    (chainTable (probe exampleConfig (exampleConfig.C_MAPPING_FUNCTION 128) 3)).src = 0 ∧
    ¬ (exampleConfig.MAPPINGTABLE_MAXENTRIES / 10 < 3) ∧
    fbt_ccache_add_entry exampleConfig ⟨chainTable, 0⟩ 128 0xC300 = Outcome.fatal :=
  ⟨rfl, by decide, by decide, by decide, rfl⟩

/-- C10: in an `INLINE_CALLS` build with `tld->trans.inline_call_RIP != NULL`,
`fbt_ccache_add_entry` returns and leaves the thread data, and with it every slot of
the mapping table, as it was, whatever `g`, `c` and the table are. -/
theorem fbt_ccache_add_entry_inlining (cfg : Config) (tld : thread_local_data) (g c : Nat)
    (hflag : cfg.INLINE_CALLS = true) (hrip : tld.inline_call_RIP ≠ 0) :
    fbt_ccache_add_entry cfg tld g c = Outcome.ret tld ∧
      ∀ tld1, fbt_ccache_add_entry cfg tld g c = Outcome.ret tld1 →
        ∀ o, tld1.mappingtable o = tld.mappingtable o := by
  have h : fbt_ccache_add_entry cfg tld g c = Outcome.ret tld := by
    simp [fbt_ccache_add_entry, inlining, hflag, hrip]
  refine ⟨h, fun tld1 h1 o => ?_⟩
  rw [h] at h1
  injection h1 with h1
  rw [← h1]

/-- C10, witness: an insertion in inlining mode into a table without an empty slot. -/
theorem fbt_ccache_add_entry_inlining_witness :
    exampleConfigInline.INLINE_CALLS = true ∧ (0x8000 : Nat) ≠ 0 ∧
    (fbt_ccache_add_entry exampleConfigInline ⟨fullTable, 0x8000⟩ 0xA000 0xC000
        = Outcome.ret ⟨fullTable, 0x8000⟩ ∧
      ∀ tld1, fbt_ccache_add_entry exampleConfigInline ⟨fullTable, 0x8000⟩ 0xA000 0xC000
          = Outcome.ret tld1 →
        ∀ o, tld1.mappingtable o = fullTable o) :=
  ⟨rfl, by decide,
    fbt_ccache_add_entry_inlining exampleConfigInline ⟨fullTable, 0x8000⟩ 0xA000 0xC000 rfl
      (by decide)⟩

/-! ## C8: move to front -/

/-- What a returning lookup loop has seen and done. -/
theorem find_loop_inv (cfg : Config) (g : Nat) (t : Table) :
    ∀ (fuel off pos v : Nat) (t1 : Table),
      find_loop cfg g t fuel off pos = Outcome.ret (v, t1) →
      ∃ d, d < fuel ∧
        (∀ j, j < d → (t (probe cfg off j)).src ≠ 0 ∧ (t (probe cfg off j)).src ≠ g) ∧
        (((t (probe cfg off d)).src = 0 ∧ v = 0 ∧ t1 = t) ∨
          (g ≠ 0 ∧ v ≠ 0 ∧ t (probe cfg off d) = { src := g, dst := v } ∧
            t1 = if pos + d = 0 then t else t.swap (cfg.C_MAPPING_FUNCTION g) (probe cfg off d))) := by
  intro fuel
  induction fuel with
  | zero => intro off pos v t1 h; simp [find_loop] at h
  | succ n ih =>
    intro off pos v t1 h
    by_cases hocc : (t off).src = 0
    · rw [find_loop_miss cfg g t n off pos hocc] at h
      injection h with h
      injection h with hv ht
      exact ⟨0, Nat.succ_pos n, fun j hj => absurd hj (Nat.not_lt_zero j),
        Or.inl ⟨hocc, hv.symm, ht.symm⟩⟩
    · by_cases hkey : (t off).src = g
      · have hg : g ≠ 0 := by rw [← hkey]; exact hocc
        by_cases hdst : (t off).dst = 0
        · have hentry : t off = { src := g, dst := 0 } := by rw [← hkey, ← hdst]
          rw [find_loop_null_dst cfg g t n off pos hg hentry] at h
          cases h
        · have hentry : t off = { src := g, dst := (t off).dst } := by rw [← hkey]
          rw [find_loop_hit cfg g (t off).dst t n off pos hg hdst hentry] at h
          injection h with h
          injection h with hv ht
          refine ⟨0, Nat.succ_pos n, fun j hj => absurd hj (Nat.not_lt_zero j), Or.inr ⟨hg, ?_, ?_, ?_⟩⟩
          · rw [← hv]; exact hdst
          · rw [← hv]; exact hentry
          · rw [← ht]; rfl
      · have hstep : find_loop cfg g t (n + 1) off pos
            = find_loop cfg g t n (next_offset cfg off) (pos + 1) := by
          simp only [find_loop]
          rw [if_pos hocc, if_neg (fun e => hkey e.symm)]
        rw [hstep] at h
        obtain ⟨d, hd, hchain, hres⟩ := ih (next_offset cfg off) (pos + 1) v t1 h
        refine ⟨d + 1, Nat.succ_lt_succ hd, ?_, ?_⟩
        · intro j hj
          cases j with
          | zero => exact ⟨hocc, hkey⟩
          | succ k => exact hchain k (by omega)
        · have hpos : pos + 1 + d = pos + (d + 1) := by omega
          rw [hpos] at hres
          exact hres

/-- What a returning lookup has seen and done: it ran along occupied slots with other
keys up to displacement `d`, where it found either an empty slot or the key. -/
theorem find_inv (cfg : Config) (fuel : Nat) (tld tld1 : thread_local_data) (g v : Nat)
    (hret : fbt_ccache_find cfg fuel tld g = Outcome.ret (v, tld1)) :
    ∃ d, d < fuel ∧
      (∀ j, j < d → (tld.mappingtable (probe cfg (cfg.C_MAPPING_FUNCTION g) j)).src ≠ 0 ∧
        (tld.mappingtable (probe cfg (cfg.C_MAPPING_FUNCTION g) j)).src ≠ g) ∧
      (((tld.mappingtable (probe cfg (cfg.C_MAPPING_FUNCTION g) d)).src = 0 ∧ v = 0 ∧
          tld1 = tld) ∨
        (g ≠ 0 ∧ v ≠ 0 ∧
          tld.mappingtable (probe cfg (cfg.C_MAPPING_FUNCTION g) d) = { src := g, dst := v } ∧
          tld1 = { tld with mappingtable :=
            (if d = 0 then tld.mappingtable
             else tld.mappingtable.swap (cfg.C_MAPPING_FUNCTION g)
              (probe cfg (cfg.C_MAPPING_FUNCTION g) d)) })) := by
  unfold fbt_ccache_find at hret
  cases hloop : find_loop cfg g tld.mappingtable fuel (cfg.C_MAPPING_FUNCTION g) 0 with
  | fatal => rw [hloop] at hret; cases hret
  | nofuel => rw [hloop] at hret; cases hret
  | ret r =>
    obtain ⟨v1, t1⟩ := r
    rw [hloop] at hret
    injection hret with hret
    injection hret with hv ht
    obtain ⟨d, hd, hchain, hres⟩ := find_loop_inv cfg g tld.mappingtable fuel _ 0 v1 t1 hloop
    refine ⟨d, hd, hchain, ?_⟩
    rcases hres with ⟨h1, h2, h3⟩ | ⟨h1, h2, h3, h4⟩
    · left
      refine ⟨h1, by rw [← hv]; exact h2, ?_⟩
      rw [← ht, h3]
    · right
      refine ⟨h1, by rw [← hv]; exact h2, by rw [← hv]; exact h3, ?_⟩
      rw [← ht, h4, Nat.zero_add]

/-- A lookup that hits at displacement `d`. -/
theorem find_hit_at (cfg : Config) (fuel : Nat) (tld : thread_local_data) (g c d : Nat)
    (hs : ∀ j, j < d → (tld.mappingtable (probe cfg (cfg.C_MAPPING_FUNCTION g) j)).src ≠ 0 ∧
      (tld.mappingtable (probe cfg (cfg.C_MAPPING_FUNCTION g) j)).src ≠ g)
    (ht : tld.mappingtable (probe cfg (cfg.C_MAPPING_FUNCTION g) d) = { src := g, dst := c })
    (hg : g ≠ 0) (hc : c ≠ 0) (hfuel : d < fuel) :
    fbt_ccache_find cfg fuel tld g = Outcome.ret (c, { tld with mappingtable :=
      (if d = 0 then tld.mappingtable
       else tld.mappingtable.swap (cfg.C_MAPPING_FUNCTION g)
        (probe cfg (cfg.C_MAPPING_FUNCTION g) d)) }) := by
  unfold fbt_ccache_find
  have hf : fuel = (fuel - d - 1 + 1) + d := by omega
  rw [hf, find_loop_skip cfg g tld.mappingtable d _ _ 0 hs,
    find_loop_hit cfg g c tld.mappingtable _ _ _ hg hc ht, Nat.zero_add]

/-- C8: let `fbt_ccache_find(g)` reach the key `g` at displacement `d` of the probe
chain, in the slot `p` that holds `(g, c)`. If `c` is not `NULL`, as the assertion of
the function requires, the call returns `c`; if `d` is not `0` then afterwards the home
slot `hash(g)` holds `(g, c)`, the slot `p` holds the entry that was in the home slot,
every other slot is unchanged, and a second lookup of `g` returns `c` again and changes
nothing; if `d` is `0` no slot is changed. If `c` is `NULL` the assertion ends the
process before the return statement. -/
theorem fbt_ccache_find_move_to_front (cfg : Config) (fuel : Nat) (tld : thread_local_data)
    (g c d : Nat)
    (hs : ∀ j, j < d → (tld.mappingtable (probe cfg (cfg.C_MAPPING_FUNCTION g) j)).src ≠ 0 ∧
      (tld.mappingtable (probe cfg (cfg.C_MAPPING_FUNCTION g) j)).src ≠ g)
    (ht : tld.mappingtable (probe cfg (cfg.C_MAPPING_FUNCTION g) d) = { src := g, dst := c })
    (hg : g ≠ 0) (hfuel : d < fuel) :
    (c ≠ 0 → d ≠ 0 → ∃ tld1, fbt_ccache_find cfg fuel tld g = Outcome.ret (c, tld1) ∧
      tld1.mappingtable (cfg.C_MAPPING_FUNCTION g) = { src := g, dst := c } ∧
      tld1.mappingtable (probe cfg (cfg.C_MAPPING_FUNCTION g) d)
        = tld.mappingtable (cfg.C_MAPPING_FUNCTION g) ∧
      (∀ o, o ≠ cfg.C_MAPPING_FUNCTION g → o ≠ probe cfg (cfg.C_MAPPING_FUNCTION g) d →
        tld1.mappingtable o = tld.mappingtable o) ∧
      ∀ fuel2, fbt_ccache_find cfg (fuel2 + 1) tld1 g = Outcome.ret (c, tld1)) ∧
    (c ≠ 0 → d = 0 → fbt_ccache_find cfg fuel tld g = Outcome.ret (c, tld)) ∧
    (c = 0 → fbt_ccache_find cfg fuel tld g = Outcome.fatal) := by
  refine ⟨fun hc hd => ?_, fun hc hd => ?_, fun hc => ?_⟩
  · have hfind := find_hit_at cfg fuel tld g c d hs ht hg hc hfuel
    have hne : probe cfg (cfg.C_MAPPING_FUNCTION g) d ≠ cfg.C_MAPPING_FUNCTION g := by
      intro e
      have h0 := (hs 0 (Nat.pos_of_ne_zero hd)).2
      rw [e] at ht
      simp only [probe] at h0
      rw [ht] at h0
      exact h0 rfl
    rw [if_neg hd] at hfind
    refine ⟨_, hfind, ?_, ?_, ?_, ?_⟩
    · simp [Table.swap, ht]
    · simp [Table.swap, hne]
    · intro o h1 h2
      simp [Table.swap, h1, h2]
    · intro fuel2
      exact find_home_hit cfg _ g c fuel2 hg hc (by simp [Table.swap, ht])
  · have hfind := find_hit_at cfg fuel tld g c d hs ht hg hc hfuel
    rw [if_pos hd] at hfind
    exact hfind
  · unfold fbt_ccache_find
    have hf : fuel = (fuel - d - 1 + 1) + d := by omega
    rw [hc] at ht
    rw [hf, find_loop_skip cfg g tld.mappingtable d _ _ 0 hs,
      find_loop_null_dst cfg g tld.mappingtable _ _ _ hg ht]

/-- C8, witness: the keys `32` and `64` collide at slot `0`; the insertions put `32` in
slot `0` and `64` in slot `8` (`twoTable`). The lookup of `64` hits at displacement `1`,
after which `64` is in slot `0` and `32` in slot `8`, and a second lookup leaves that. -/
theorem fbt_ccache_find_move_to_front_witness :
    run exampleConfig [Call.add 32 0xC000, Call.add 64 0xC100] ⟨Table.empty, 0⟩
      = Outcome.ret ⟨twoTable, 0⟩ ∧
    exampleConfig.C_MAPPING_FUNCTION 64 = 0 ∧
    probe exampleConfig (exampleConfig.C_MAPPING_FUNCTION 64) 1 = 8 ∧
    twoTable (exampleConfig.C_MAPPING_FUNCTION 64) = { src := 32, dst := 0xC000 } ∧
    ((0xC100 : Nat) ≠ 0 → (1 : Nat) ≠ 0 →
      ∃ tld1, fbt_ccache_find exampleConfig 32 ⟨twoTable, 0⟩ 64
        = Outcome.ret (0xC100, tld1) ∧
      tld1.mappingtable (exampleConfig.C_MAPPING_FUNCTION 64) = { src := 64, dst := 0xC100 } ∧
      tld1.mappingtable (probe exampleConfig (exampleConfig.C_MAPPING_FUNCTION 64) 1)
        = twoTable (exampleConfig.C_MAPPING_FUNCTION 64) ∧
      (∀ o, o ≠ exampleConfig.C_MAPPING_FUNCTION 64 →
        o ≠ probe exampleConfig (exampleConfig.C_MAPPING_FUNCTION 64) 1 →
        tld1.mappingtable o = twoTable o) ∧
      ∀ fuel2, fbt_ccache_find exampleConfig (fuel2 + 1) tld1 64
        = Outcome.ret (0xC100, tld1)) := by
  have h1 : fbt_ccache_add_entry exampleConfig ⟨Table.empty, 0⟩ 32 0xC000
      = Outcome.ret ⟨Table.empty.write 0 { src := 32, dst := 0xC000 }, 0⟩ :=
    add_entry_found exampleConfig ⟨Table.empty, 0⟩ 32 0xC000 0 rfl (by decide) (by decide)
      (by decide)
  have h2 : fbt_ccache_add_entry exampleConfig
      ⟨Table.empty.write 0 { src := 32, dst := 0xC000 }, 0⟩ 64 0xC100
      = Outcome.ret ⟨twoTable, 0⟩ :=
    add_entry_found exampleConfig ⟨Table.empty.write 0 { src := 32, dst := 0xC000 }, 0⟩
      64 0xC100 1 rfl (by decide) (by decide) (by decide)
  refine ⟨by simp [run, h1, h2], by decide, by decide, by decide, ?_⟩
  exact (fbt_ccache_find_move_to_front exampleConfig 32 ⟨twoTable, 0⟩ 64 0xC100 1
    (by decide) (by decide) (by decide) (by decide)).1

/-! ## C6: no holes on chain -/

/-- The first empty slot of a chain is reached in less steps than there are slots. -/
theorem first_empty_lt {cfg : Config} (wf : cfg.WF) (t : Table) {h : Nat} (hh : IsSlot cfg h)
    (d : Nat) (hocc : ∀ j, j < d → (t (probe cfg h j)).src ≠ 0)
    (hemp : (t (probe cfg h d)).src = 0) : d < nslots cfg := by
  by_contra hge
  have hge : nslots cfg ≤ d := Nat.le_of_not_lt hge
  have hlt : d % nslots cfg < d := Nat.lt_of_lt_of_le (Nat.mod_lt _ (nslots_pos wf)) hge
  have h1 := hocc _ hlt
  rw [probe_period wf hh] at h1
  exact h1 hemp

/-- A store of an entry with a non-zero key into an empty slot keeps the invariant, when
the slots of the chain of the key before that slot are occupied. -/
theorem noHoles_write {cfg : Config} (wf : cfg.WF) (t : Table) (g c d : Nat) (hg : g ≠ 0)
    (hnh : NoHoles cfg t)
    (hocc : ∀ j, j < d → (t (probe cfg (cfg.C_MAPPING_FUNCTION g) j)).src ≠ 0)
    (hemp : (t (probe cfg (cfg.C_MAPPING_FUNCTION g) d)).src = 0) :
    NoHoles cfg (t.write (probe cfg (cfg.C_MAPPING_FUNCTION g) d) { src := g, dst := c }) := by
  have hdN := first_empty_lt wf t (wf.hash_slot g) d hocc hemp
  have hmono : ∀ o, (t o).src ≠ 0 →
      ((t.write (probe cfg (cfg.C_MAPPING_FUNCTION g) d) { src := g, dst := c }) o).src ≠ 0 := by
    intro o ho
    by_cases e : o = probe cfg (cfg.C_MAPPING_FUNCTION g) d
    · simp [Table.write, e, hg]
    · simp [Table.write, e, ho]
  intro q hq1 hq2 hoccq i hi hprobe j hj
  by_cases e : q = probe cfg (cfg.C_MAPPING_FUNCTION g) d
  · have hkey : ((t.write (probe cfg (cfg.C_MAPPING_FUNCTION g) d) { src := g, dst := c }) q).src
        = g := by simp [Table.write, e]
    rw [hkey] at hprobe ⊢
    rw [e] at hprobe
    have hid : i = d := probe_inj wf (wf.hash_slot g) hi hdN hprobe
    by_cases hjd : j = d
    · rw [hjd]; simp [Table.write, hg]
    · exact hmono _ (hocc j (by omega))
  · have hsame : (t.write (probe cfg (cfg.C_MAPPING_FUNCTION g) d) { src := g, dst := c }) q
        = t q := by simp [Table.write, e]
    rw [hsame] at hoccq hprobe ⊢
    exact hmono _ (hnh q hq1 hq2 hoccq i hi hprobe j hj)

/-- The move-to-front exchange keeps the invariant. -/
theorem noHoles_swap {cfg : Config} (wf : cfg.WF) (t : Table) (g v d : Nat) (hg : g ≠ 0)
    (hd : d ≠ 0) (hnh : NoHoles cfg t)
    (hchain : ∀ j, j < d → (t (probe cfg (cfg.C_MAPPING_FUNCTION g) j)).src ≠ 0 ∧
      (t (probe cfg (cfg.C_MAPPING_FUNCTION g) j)).src ≠ g)
    (hit : t (probe cfg (cfg.C_MAPPING_FUNCTION g) d) = { src := g, dst := v }) :
    NoHoles cfg (t.swap (cfg.C_MAPPING_FUNCTION g) (probe cfg (cfg.C_MAPPING_FUNCTION g) d)) := by
  have hh := wf.hash_slot g
  have h0 := hchain 0 (Nat.pos_of_ne_zero hd)
  simp only [probe] at h0
  have hpsrc : (t (probe cfg (cfg.C_MAPPING_FUNCTION g) d)).src = g := by rw [hit]
  have hne : probe cfg (cfg.C_MAPPING_FUNCTION g) d ≠ cfg.C_MAPPING_FUNCTION g := by
    intro e; rw [e] at hpsrc; exact h0.2 hpsrc
  have hchain2 : ∀ j, j < d + 1 → (t (probe cfg (cfg.C_MAPPING_FUNCTION g) j)).src ≠ 0 := by
    intro j hj
    by_cases hjd : j = d
    · rw [hjd, hpsrc]; exact hg
    · exact (hchain j (by omega)).1
  have hoccEq : ∀ o, (t o).src ≠ 0 →
      ((t.swap (cfg.C_MAPPING_FUNCTION g) (probe cfg (cfg.C_MAPPING_FUNCTION g) d)) o).src ≠ 0 := by
    intro o ho
    by_cases e1 : o = cfg.C_MAPPING_FUNCTION g
    · simp [Table.swap, e1, hpsrc, hg]
    · by_cases e2 : o = probe cfg (cfg.C_MAPPING_FUNCTION g) d
      · simp [Table.swap, e2, hne, h0.1]
      · simp [Table.swap, e1, e2, ho]
  intro q hq1 hq2 hoccq i hi hprobe j hj
  apply hoccEq
  by_cases e1 : q = cfg.C_MAPPING_FUNCTION g
  · have hkey : ((t.swap (cfg.C_MAPPING_FUNCTION g) (probe cfg (cfg.C_MAPPING_FUNCTION g) d)) q).src
        = g := by simp [Table.swap, e1, hpsrc]
    rw [hkey] at hprobe ⊢
    rw [e1] at hprobe
    have hi0 : i = 0 := probe_inj wf hh hi (nslots_pos wf) hprobe
    have hj0 : j = 0 := by omega
    rw [hj0]
    exact h0.1
  · by_cases e2 : q = probe cfg (cfg.C_MAPPING_FUNCTION g) d
    · have hkey : (t.swap (cfg.C_MAPPING_FUNCTION g) (probe cfg (cfg.C_MAPPING_FUNCTION g) d)) q
          = t (cfg.C_MAPPING_FUNCTION g) := by simp [Table.swap, e2, hne]
      rw [hkey] at hprobe ⊢
      have hh2 := wf.hash_slot (t (cfg.C_MAPPING_FUNCTION g)).src
      obtain ⟨i0, hi0, hi0p⟩ := probe_cover wf hh2 hh
      have hpre := hnh _ hh.1 hh.2 h0.1 i0 hi0 hi0p
      have hreach : probe cfg (cfg.C_MAPPING_FUNCTION (t (cfg.C_MAPPING_FUNCTION g)).src) (i0 + d)
          = q := by rw [probe_add, hi0p, e2]
      have hle : i ≤ i0 + d := probe_first wf hh2 hi (hprobe.trans hreach.symm)
      by_cases hj0 : j < i0 + 1
      · exact hpre j hj0
      · have hsplit : j = i0 + (j - i0) := by omega
        rw [hsplit, probe_add, hi0p]
        exact hchain2 (j - i0) (by omega)
    · have hsame : (t.swap (cfg.C_MAPPING_FUNCTION g) (probe cfg (cfg.C_MAPPING_FUNCTION g) d)) q
          = t q := by simp [Table.swap, e1, e2]
      rw [hsame] at hoccq hprobe ⊢
      exact hnh q hq1 hq2 hoccq i hi hprobe j hj

/-- C6: no holes on chain is an invariant. It holds for the all-empty table, it is kept
by every returning `fbt_ccache_add_entry` with a non-zero key, and it is kept by every
returning `fbt_ccache_find`, the move-to-front exchange included. -/
theorem no_holes_invariant {cfg : Config} (wf : cfg.WF) :
    NoHoles cfg Table.empty ∧
    (∀ (tld tld1 : thread_local_data) (g c : Nat), NoHoles cfg tld.mappingtable → g ≠ 0 →
      fbt_ccache_add_entry cfg tld g c = Outcome.ret tld1 → NoHoles cfg tld1.mappingtable) ∧
    (∀ (fuel : Nat) (tld tld1 : thread_local_data) (g v : Nat), NoHoles cfg tld.mappingtable →
      fbt_ccache_find cfg fuel tld g = Outcome.ret (v, tld1) →
      NoHoles cfg tld1.mappingtable) := by
  refine ⟨?_, ?_, ?_⟩
  · intro q _ _ hocc
    exact absurd rfl hocc
  · intro tld tld1 g c hnh hg hret
    cases hin : inlining cfg tld with
    | true =>
      have h : fbt_ccache_add_entry cfg tld g c = Outcome.ret tld := by
        simp [fbt_ccache_add_entry, hin]
      rw [h] at hret
      injection hret with hret
      rw [← hret]; exact hnh
    | false =>
      obtain ⟨d, hocc, hemp, _, rfl⟩ := add_entry_inv cfg tld tld1 g c hret hin
      exact noHoles_write wf tld.mappingtable g c d hg hnh hocc hemp
  · intro fuel tld tld1 g v hnh hret
    obtain ⟨d, _, hchain, hres⟩ := find_inv cfg fuel tld tld1 g v hret
    rcases hres with ⟨_, _, rfl⟩ | ⟨hg, _, hit, rfl⟩
    · exact hnh
    · by_cases hd : d = 0
      · simp only [hd, if_true]; exact hnh
      · simp only [hd, if_false]
        exact noHoles_swap wf tld.mappingtable g v d hg hd hnh hchain hit

set_option maxRecDepth 100000 in
/-- C6, witness: the invariant after the insertion of the colliding key `64` into
`singleTable`, and after the lookup of `64` in `twoTable`, which exchanges two slots. -/
theorem no_holes_invariant_witness :
    NoHoles exampleConfig singleTable ∧ (64 : Nat) ≠ 0 ∧
    fbt_ccache_add_entry exampleConfig ⟨singleTable, 0⟩ 64 0xC100
      = Outcome.ret ⟨singleTable.write 8 { src := 64, dst := 0xC100 }, 0⟩ ∧
    NoHoles exampleConfig (singleTable.write 8 { src := 64, dst := 0xC100 }) ∧
    NoHoles exampleConfig twoTable ∧
    fbt_ccache_find exampleConfig 32 ⟨twoTable, 0⟩ 64
      = Outcome.ret (0xC100, ⟨twoTable.swap 0 8, 0⟩) ∧
    NoHoles exampleConfig (twoTable.swap 0 8) :=
  have hadd : fbt_ccache_add_entry exampleConfig ⟨singleTable, 0⟩ 64 0xC100
      = Outcome.ret ⟨singleTable.write 8 { src := 64, dst := 0xC100 }, 0⟩ :=
    add_entry_found exampleConfig ⟨singleTable, 0⟩ 64 0xC100 1 rfl (by decide) (by decide)
      (by decide)
  have hfind : fbt_ccache_find exampleConfig 32 ⟨twoTable, 0⟩ 64
      = Outcome.ret (0xC100, ⟨twoTable.swap 0 8, 0⟩) :=
    find_hit_at exampleConfig 32 ⟨twoTable, 0⟩ 64 0xC100 1 (by decide) (by decide) (by decide)
      (by decide) (by decide)
  ⟨by decide, by decide, hadd,
    (no_holes_invariant exampleConfig_wf).2.1 ⟨singleTable, 0⟩ _ 64 0xC100 (by decide)
      (by decide) hadd,
    by decide, hfind,
    (no_holes_invariant exampleConfig_wf).2.2 32 ⟨twoTable, 0⟩ _ 64 0xC100 (by decide) hfind⟩

/-! ## C7, C5: the live pairs -/

theorem map_range_split {α : Type} (n b : Nat) (hb : b < n) (f : Nat → α) :
    (Multiset.range n).map f = f b ::ₘ ((Multiset.range n).erase b).map f := by
  rw [← Multiset.map_cons, Multiset.cons_erase (Multiset.mem_range.2 hb)]

theorem map_erase_congr {α : Type} (n b : Nat) (f1 f2 : Nat → α)
    (h : ∀ x, x < n → x ≠ b → f1 x = f2 x) :
    ((Multiset.range n).erase b).map f1 = ((Multiset.range n).erase b).map f2 := by
  apply Multiset.map_congr rfl
  intro x hx
  have hx2 := (Multiset.nodup_range n).mem_erase_iff.1 hx
  exact h x (Multiset.mem_range.1 hx2.2) hx2.1

/-- The entries of the slots after a store into the slot with index `b`. -/
theorem slotEntries_write {cfg : Config} (wf : cfg.WF) (t : Table) (b : Nat)
    (hb : b < nslots cfg) (e : ccache_entry) :
    slotEntries cfg (t.write (cfg.sizeof_entry * b) e)
      = e ::ₘ ((Multiset.range (nslots cfg)).erase b).map (fun a => t (cfg.sizeof_entry * a)) ∧
    slotEntries cfg t = t (cfg.sizeof_entry * b) ::ₘ
      ((Multiset.range (nslots cfg)).erase b).map (fun a => t (cfg.sizeof_entry * a)) := by
  constructor
  · unfold slotEntries
    rw [map_range_split _ b hb]
    congr 1
    · simp [Table.write]
    · apply map_erase_congr
      intro x _ hx
      have : cfg.sizeof_entry * x ≠ cfg.sizeof_entry * b :=
        fun e2 => hx (Nat.eq_of_mul_eq_mul_left wf.entry_pos e2)
      simp [Table.write, this]
  · unfold slotEntries
    exact map_range_split _ b hb _

/-- A store into an empty slot adds the stored entry to the live pairs when its key is
not `0`, and leaves them as they were otherwise. -/
theorem livePairs_write {cfg : Config} (wf : cfg.WF) (t : Table) (p : Nat) (hp : IsSlot cfg p)
    (hemp : (t p).src = 0) (e : ccache_entry) :
    livePairs cfg (t.write p e)
      = livePairs cfg t + Multiset.filter (fun e => e.src ≠ 0) {e} := by
  obtain ⟨b, hb, rfl⟩ := isSlot_index wf hp
  obtain ⟨h1, h2⟩ := slotEntries_write wf t b hb e
  have hA : ∀ (x : ccache_entry) (R : Multiset ccache_entry), x.src = 0 →
      Multiset.filter (fun e : ccache_entry => e.src ≠ 0) (x ::ₘ R)
        = Multiset.filter (fun e : ccache_entry => e.src ≠ 0) R :=
    fun x R hx => Multiset.filter_cons_of_neg _ (fun h => h hx)
  have hB : ∀ (x : ccache_entry) (R : Multiset ccache_entry), x.src ≠ 0 →
      Multiset.filter (fun e : ccache_entry => e.src ≠ 0) (x ::ₘ R)
        = x ::ₘ Multiset.filter (fun e : ccache_entry => e.src ≠ 0) R :=
    fun x R hx => Multiset.filter_cons_of_pos _ hx
  unfold livePairs
  rw [h1, h2, hA _ _ hemp]
  by_cases he : e.src = 0
  · rw [hA _ _ he, ← Multiset.cons_zero e, hA _ _ he, Multiset.filter_zero, add_zero]
  · rw [hB _ _ he, ← Multiset.cons_zero e, hB _ _ he, Multiset.filter_zero, Multiset.cons_zero,
      add_comm, Multiset.singleton_add]

/-- The exchange of two slots does not change the entries of the slots. -/
theorem slotEntries_swap {cfg : Config} (wf : cfg.WF) (t : Table) (p q : Nat)
    (hp : IsSlot cfg p) (hq : IsSlot cfg q) :
    slotEntries cfg (t.swap p q) = slotEntries cfg t := by
  by_cases hpq : p = q
  · have : t.swap p q = t := by
      subst hpq
      funext o
      by_cases h : o = p
      · simp [Table.swap, h]
      · simp [Table.swap, h]
    rw [this]
  · obtain ⟨a, ha, rfl⟩ := isSlot_index wf hp
    obtain ⟨b, hb, rfl⟩ := isSlot_index wf hq
    have hab : a ≠ b := fun e => hpq (by rw [e])
    have hinj : ∀ x y, cfg.sizeof_entry * x = cfg.sizeof_entry * y → x = y :=
      fun x y e => Nat.eq_of_mul_eq_mul_left wf.entry_pos e
    have hbmem : b ∈ (Multiset.range (nslots cfg)).erase a :=
      (Multiset.nodup_range _).mem_erase_iff.2 ⟨fun e => hab e.symm, Multiset.mem_range.2 hb⟩
    have hsplit : ∀ f : Nat → ccache_entry, (Multiset.range (nslots cfg)).map f
        = f a ::ₘ f b ::ₘ (((Multiset.range (nslots cfg)).erase a).erase b).map f := by
      intro f
      rw [map_range_split _ a ha, ← Multiset.map_cons f b, Multiset.cons_erase hbmem]
    have hrest : (((Multiset.range (nslots cfg)).erase a).erase b).map
          (fun x => (t.swap (cfg.sizeof_entry * a) (cfg.sizeof_entry * b)) (cfg.sizeof_entry * x))
        = (((Multiset.range (nslots cfg)).erase a).erase b).map
          (fun x => t (cfg.sizeof_entry * x)) := by
      apply Multiset.map_congr rfl
      intro x hx
      have hnd : ((Multiset.range (nslots cfg)).erase a).Nodup :=
        (Multiset.nodup_range _).erase a
      have hx1 := hnd.mem_erase_iff.1 hx
      have hx2 := (Multiset.nodup_range (nslots cfg)).mem_erase_iff.1 hx1.2
      have n1 : cfg.sizeof_entry * x ≠ cfg.sizeof_entry * a := fun e => hx2.1 (hinj _ _ e)
      have n2 : cfg.sizeof_entry * x ≠ cfg.sizeof_entry * b := fun e => hx1.1 (hinj _ _ e)
      simp [Table.swap, n1, n2]
    unfold slotEntries
    rw [hsplit, hsplit, hrest]
    have n3 : cfg.sizeof_entry * b ≠ cfg.sizeof_entry * a := fun e => hab (hinj _ _ e).symm
    simp only [Table.swap, if_true, if_neg n3]
    exact Multiset.cons_swap _ _ _

theorem livePairs_swap {cfg : Config} (wf : cfg.WF) (t : Table) (p q : Nat)
    (hp : IsSlot cfg p) (hq : IsSlot cfg q) :
    livePairs cfg (t.swap p q) = livePairs cfg t := by
  unfold livePairs
  rw [slotEntries_swap wf t p q hp hq]

/-- The live pairs after a returning insertion. -/
theorem add_live {cfg : Config} (wf : cfg.WF) (tld tld1 : thread_local_data) (g c : Nat)
    (hret : fbt_ccache_add_entry cfg tld g c = Outcome.ret tld1) :
    livePairs cfg tld1.mappingtable = livePairs cfg tld.mappingtable +
      (if inlining cfg tld then 0
       else Multiset.filter (fun e : ccache_entry => e.src ≠ 0) {{ src := g, dst := c }}) ∧
    inlining cfg tld1 = inlining cfg tld := by
  cases hin : inlining cfg tld with
  | true =>
    have h : fbt_ccache_add_entry cfg tld g c = Outcome.ret tld := by
      simp [fbt_ccache_add_entry, hin]
    rw [h] at hret
    injection hret with hret
    subst hret
    simp [hin]
  | false =>
    obtain ⟨d, hocc, hemp, _, rfl⟩ := add_entry_inv cfg tld tld1 g c hret hin
    refine ⟨?_, hin⟩
    have hp := probe_isSlot wf (wf.hash_slot g) d
    simp only [Bool.false_eq_true, if_false]
    exact livePairs_write wf tld.mappingtable _ hp hemp _

/-- The live pairs after a returning lookup. -/
theorem find_live {cfg : Config} (wf : cfg.WF) (fuel : Nat) (tld tld1 : thread_local_data)
    (g v : Nat) (hret : fbt_ccache_find cfg fuel tld g = Outcome.ret (v, tld1)) :
    livePairs cfg tld1.mappingtable = livePairs cfg tld.mappingtable ∧
    inlining cfg tld1 = inlining cfg tld := by
  obtain ⟨d, _, _, hres⟩ := find_inv cfg fuel tld tld1 g v hret
  rcases hres with ⟨_, _, rfl⟩ | ⟨_, _, _, rfl⟩
  · exact ⟨rfl, rfl⟩
  · refine ⟨?_, rfl⟩
    by_cases hd : d = 0
    · simp only [hd, if_true]
    · simp only [hd, if_false]
      exact livePairs_swap wf _ _ _ (wf.hash_slot g) (probe_isSlot wf (wf.hash_slot g) d)

theorem addedPairs_add (g c : Nat) (rest : List Call) :
    addedPairs (Call.add g c :: rest)
      = Multiset.filter (fun e : ccache_entry => e.src ≠ 0) {{ src := g, dst := c }}
        + addedPairs rest := by
  unfold addedPairs
  rw [← Multiset.filter_add]
  rfl

/-- The live pairs after a sequence of returning calls. -/
theorem run_live {cfg : Config} (wf : cfg.WF) (ops : List Call) :
    ∀ tld0 tld : thread_local_data, run cfg ops tld0 = Outcome.ret tld →
      livePairs cfg tld.mappingtable = livePairs cfg tld0.mappingtable +
        (if inlining cfg tld0 then 0 else addedPairs ops) := by
  induction ops with
  | nil =>
    intro tld0 tld h
    simp only [run] at h
    injection h with h
    subst h
    have : addedPairs [] = 0 := rfl
    simp [this]
  | cons op rest ih =>
    intro tld0 tld h
    cases op with
    | add g c =>
      cases hadd : fbt_ccache_add_entry cfg tld0 g c with
      | fatal => simp only [run, hadd] at h; cases h
      | nofuel => simp only [run, hadd] at h; cases h
      | ret tld1 =>
        simp only [run, hadd] at h
        obtain ⟨h1, h2⟩ := add_live wf tld0 tld1 g c hadd
        rw [ih tld1 tld h, h1, h2, addedPairs_add]
        cases inlining cfg tld0 <;> simp [add_assoc]
    | find g fuel =>
      cases hfind : fbt_ccache_find cfg fuel tld0 g with
      | fatal => simp only [run, hfind] at h; cases h
      | nofuel => simp only [run, hfind] at h; cases h
      | ret r =>
        obtain ⟨v, tld1⟩ := r
        simp only [run, hfind] at h
        obtain ⟨h1, h2⟩ := find_live wf fuel tld0 tld1 g v hfind
        rw [ih tld1 tld h, h1, h2]
        rfl

theorem livePairs_of_empty (cfg : Config) (t : Table) (h : ∀ o, (t o).src = 0) :
    livePairs cfg t = 0 := by
  unfold livePairs slotEntries
  apply Multiset.filter_eq_nil.2
  intro e he
  obtain ⟨a, _, rfl⟩ := Multiset.mem_map.1 he
  exact fun hne => hne (h _)

/-- C7 (as amended): `fbt_ccache_find` never changes the multiset of live `(src, dst)`
pairs of the table; and outside inlining mode, after any sequence of returning add and
find calls that starts on an empty table, the multiset of live pairs is the multiset of
the pairs that were added with a guest address other than `NULL`. -/
theorem live_pairs_stable {cfg : Config} (wf : cfg.WF) :
    (∀ (fuel : Nat) (tld tld1 : thread_local_data) (g v : Nat),
      fbt_ccache_find cfg fuel tld g = Outcome.ret (v, tld1) →
      livePairs cfg tld1.mappingtable = livePairs cfg tld.mappingtable) ∧
    (∀ (ops : List Call) (tld0 tld : thread_local_data),
      (∀ o, (tld0.mappingtable o).src = 0) → inlining cfg tld0 = false →
      run cfg ops tld0 = Outcome.ret tld →
      livePairs cfg tld.mappingtable = addedPairs ops) := by
  refine ⟨fun fuel tld tld1 g v h => (find_live wf fuel tld tld1 g v h).1, ?_⟩
  intro ops tld0 tld hempty hin hrun
  rw [run_live wf ops tld0 tld hrun, livePairs_of_empty cfg _ hempty, hin]
  simp

/-- C5 (as amended): in every state reached from an all-empty table by a sequence of
returning add and find calls with less add calls than the table has slots, at least
one slot has `src == 0`. -/
theorem table_has_empty_slot {cfg : Config} (wf : cfg.WF) (ops : List Call)
    (tld0 tld : thread_local_data) (hempty : ∀ o, (tld0.mappingtable o).src = 0)
    (hrun : run cfg ops tld0 = Outcome.ret tld)
    (hcount : Multiset.card (calledPairs ops) < nslots cfg) :
    HasEmpty cfg tld.mappingtable := by
  by_contra hfull
  have hall : ∀ e ∈ slotEntries cfg tld.mappingtable, e.src ≠ 0 := by
    intro e he
    obtain ⟨a, ha, rfl⟩ := Multiset.mem_map.1 he
    intro h0
    have hs := isSlot_of_index wf (Multiset.mem_range.1 ha)
    exact hfull ⟨_, hs.1, hs.2, h0⟩
  have hcard : Multiset.card (livePairs cfg tld.mappingtable) = nslots cfg := by
    unfold livePairs
    rw [Multiset.filter_eq_self.2 hall]
    simp [slotEntries]
  rw [run_live wf ops tld0 tld hrun, livePairs_of_empty cfg _ hempty, zero_add] at hcard
  have hle : Multiset.card (addedPairs ops) ≤ Multiset.card (calledPairs ops) :=
    Multiset.card_le_card (Multiset.filter_le _ _)
  cases hin : inlining cfg tld0 with
  | true =>
    rw [hin] at hcard
    simp at hcard
    omega
  | false =>
    rw [hin] at hcard
    simp at hcard
    omega

/-- The two colliding insertions and the lookup of the second key, on the example
constants. -/
theorem example_run :
    run exampleConfig [Call.add 32 0xC000, Call.add 64 0xC100, Call.find 64 32]
      ⟨Table.empty, 0⟩ = Outcome.ret ⟨twoTable.swap 0 8, 0⟩ := by
  have h1 : fbt_ccache_add_entry exampleConfig ⟨Table.empty, 0⟩ 32 0xC000
      = Outcome.ret ⟨Table.empty.write 0 { src := 32, dst := 0xC000 }, 0⟩ :=
    add_entry_found exampleConfig ⟨Table.empty, 0⟩ 32 0xC000 0 rfl (by decide) (by decide)
      (by decide)
  have h2 : fbt_ccache_add_entry exampleConfig
      ⟨Table.empty.write 0 { src := 32, dst := 0xC000 }, 0⟩ 64 0xC100
      = Outcome.ret ⟨twoTable, 0⟩ :=
    add_entry_found exampleConfig ⟨Table.empty.write 0 { src := 32, dst := 0xC000 }, 0⟩
      64 0xC100 1 rfl (by decide) (by decide) (by decide)
  have h3 : fbt_ccache_find exampleConfig 32 ⟨twoTable, 0⟩ 64
      = Outcome.ret (0xC100, ⟨twoTable.swap 0 8, 0⟩) :=
    find_hit_at exampleConfig 32 ⟨twoTable, 0⟩ 64 0xC100 1 (by decide) (by decide) (by decide)
      (by decide) (by decide)
  simp [run, h1, h2, h3]

/-- C7, witness: the live pairs after the two colliding insertions and the lookup that
exchanges them. -/
theorem live_pairs_stable_witness :
    livePairs exampleConfig (twoTable.swap 0 8)
      = addedPairs [Call.add 32 0xC000, Call.add 64 0xC100, Call.find 64 32] :=
  (live_pairs_stable exampleConfig_wf).2
    [Call.add 32 0xC000, Call.add 64 0xC100, Call.find 64 32] ⟨Table.empty, 0⟩
    ⟨twoTable.swap 0 8, 0⟩ (fun _ => rfl) rfl example_run

/-- C7, counterexample: after the returning call `fbt_ccache_add_entry(0, 0xC000)` on
the empty table no pair is live, while the pair `(0, 0xC000)` was added. -/
theorem live_pairs_stable_null_key :
    ∃ tld, run exampleConfig [Call.add 0 0xC000] ⟨Table.empty, 0⟩ = Outcome.ret tld ∧
      livePairs exampleConfig tld.mappingtable = 0 ∧
      calledPairs [Call.add 0 0xC000] = {{ src := 0, dst := 0xC000 }} ∧
      livePairs exampleConfig tld.mappingtable ≠ calledPairs [Call.add 0 0xC000] := by
  refine ⟨_, rfl, ?_⟩
  have h := run_live exampleConfig_wf [Call.add 0 0xC000] ⟨Table.empty, 0⟩ _ rfl
  have h0 : livePairs exampleConfig Table.empty = 0 :=
    livePairs_of_empty exampleConfig _ (fun _ => rfl)
  have ha : addedPairs [Call.add 0 0xC000] = 0 := by decide
  have hin : inlining exampleConfig ⟨Table.empty, 0⟩ = false := rfl
  rw [h0, hin, ha] at h
  simp only [Bool.false_eq_true, if_false, add_zero] at h
  refine ⟨h, rfl, ?_⟩
  rw [h]
  decide

/-- C5, witness: the two colliding insertions and the lookup of the second key leave
an empty slot. -/
theorem table_has_empty_slot_witness :
    (∀ o, (Table.empty o).src = 0) ∧
    Multiset.card (calledPairs [Call.add 32 0xC000, Call.add 64 0xC100, Call.find 64 32])
      < nslots exampleConfig ∧
    HasEmpty exampleConfig (twoTable.swap 0 8) :=
  ⟨fun _ => rfl, by decide,
    table_has_empty_slot exampleConfig_wf
      [Call.add 32 0xC000, Call.add 64 0xC100, Call.find 64 32] ⟨Table.empty, 0⟩
      ⟨twoTable.swap 0 8, 0⟩ (fun _ => rfl) example_run (by decide)⟩

set_option maxRecDepth 1000000 in
/-- C5, counterexample: the thirty-two insertions of `fillCalls` all return, each key
going to its home slot, and leave no slot of the thirty-two with `src == 0`. -/
theorem table_full_after_fillCalls :
    ∃ tld, run exampleConfig fillCalls ⟨Table.empty, 0⟩ = Outcome.ret tld ∧
      ¬ HasEmpty exampleConfig tld.mappingtable :=
  ⟨_, rfl, by decide⟩

/-! ## C3: the reverse lookup -/

/-- The scan of the reverse lookup from the slot with index `a`: it returns the key of
the first slot whose translation matches, or `NULL` when there is none. -/
theorem find_reverse_scan {cfg : Config} (wf : cfg.WF) (t : Table) (c : Nat) :
    ∀ n a fuel, a + n = nslots cfg → n < fuel →
      (∃ k, a ≤ k ∧ k < nslots cfg ∧ (t (cfg.sizeof_entry * k)).dst = c ∧
        find_reverse_loop cfg t c fuel (cfg.sizeof_entry * a)
          = Outcome.ret (t (cfg.sizeof_entry * k)).src) ∨
      ((∀ k, a ≤ k → k < nslots cfg → (t (cfg.sizeof_entry * k)).dst ≠ c) ∧
        find_reverse_loop cfg t c fuel (cfg.sizeof_entry * a) = Outcome.ret 0) := by
  intro n
  induction n with
  | zero =>
    intro a fuel ha hf
    right
    refine ⟨fun k h1 h2 => by omega, ?_⟩
    obtain ⟨f, rfl⟩ : ∃ f, fuel = f + 1 := ⟨fuel - 1, by omega⟩
    have hnot : ¬ cfg.sizeof_entry * a < cfg.MAPPINGTABLE_SIZE := by
      rw [size_eq_mul wf]
      have : a = nslots cfg := by omega
      rw [this]
      exact Nat.lt_irrefl _
    simp only [find_reverse_loop]
    rw [if_neg hnot]
  | succ m ih =>
    intro a fuel ha hf
    obtain ⟨f, rfl⟩ : ∃ f, fuel = f + 1 := ⟨fuel - 1, by omega⟩
    have haN : a < nslots cfg := by omega
    have hlt : cfg.sizeof_entry * a < cfg.MAPPINGTABLE_SIZE := (isSlot_of_index wf haN).1
    by_cases hdst : (t (cfg.sizeof_entry * a)).dst = c
    · left
      refine ⟨a, Nat.le_refl a, haN, hdst, ?_⟩
      simp only [find_reverse_loop]
      rw [if_pos hlt, if_pos hdst]
    · have hstep : find_reverse_loop cfg t c (f + 1) (cfg.sizeof_entry * a)
          = find_reverse_loop cfg t c f (cfg.sizeof_entry * (a + 1)) := by
        simp only [find_reverse_loop]
        rw [if_pos hlt, if_neg hdst, Nat.mul_succ]
      rw [hstep]
      rcases ih (a + 1) f (by omega) (by omega) with ⟨k, hk1, hk2, hk3, hk4⟩ | ⟨hall, hres⟩
      · exact Or.inl ⟨k, by omega, hk2, hk3, hk4⟩
      · right
        refine ⟨fun k h1 h2 => ?_, hres⟩
        by_cases hka : k = a
        · rw [hka]; exact hdst
        · exact hall k (by omega) h2

/-- The reverse lookup returns the key of a slot whose translation matches, or `NULL`
when no slot matches. -/
theorem find_reverse_spec {cfg : Config} (wf : cfg.WF) (tld : thread_local_data) (c : Nat) :
    (∃ p, IsSlot cfg p ∧ (tld.mappingtable p).dst = c ∧
      fbt_ccache_find_reverse cfg tld c = Outcome.ret (tld.mappingtable p).src) ∨
    ((∀ p, IsSlot cfg p → (tld.mappingtable p).dst ≠ c) ∧
      fbt_ccache_find_reverse cfg tld c = Outcome.ret 0) := by
  have hN : nslots cfg < cfg.MAPPINGTABLE_SIZE + 1 := by
    have h1 := size_eq_mul wf
    have h2 : nslots cfg ≤ cfg.sizeof_entry * nslots cfg :=
      Nat.le_mul_of_pos_left _ wf.entry_pos
    omega
  have h := find_reverse_scan wf tld.mappingtable c (nslots cfg) 0
    (cfg.MAPPINGTABLE_SIZE + 1) (by omega) hN
  rw [Nat.mul_zero] at h
  rcases h with ⟨k, _, hk2, hk3, hk4⟩ | ⟨hall, hres⟩
  · exact Or.inl ⟨_, isSlot_of_index wf hk2, hk3, hk4⟩
  · right
    refine ⟨fun p hp => ?_, hres⟩
    obtain ⟨b, hb, rfl⟩ := isSlot_index wf hp
    exact hall b (Nat.zero_le b) hb

theorem pairsInv_write {cfg : Config} (t : Table) (S : ccache_entry → Prop) (p : Nat)
    (hp : IsSlot cfg p) (hemp : (t p).src = 0) (e : ccache_entry) (h : PairsInv cfg t S) :
    PairsInv cfg (t.write p e) (fun x => S x ∨ x = e) := by
  constructor
  · intro q hq hd
    by_cases hqp : q = p
    · right; simp [Table.write, hqp]
    · left
      have hsame : t.write p e q = t q := by simp [Table.write, hqp]
      rw [hsame] at hd ⊢
      exact h.1 q hq hd
  · intro x hx hsrc
    rcases hx with hx | hx
    · obtain ⟨q, hq, hqe⟩ := h.2 x hx hsrc
      have hqp : q ≠ p := by
        intro e2
        rw [e2] at hqe
        rw [hqe] at hemp
        exact hsrc hemp
      exact ⟨q, hq, by simp [Table.write, hqp, hqe]⟩
    · exact ⟨p, hp, by simp [Table.write, hx]⟩

theorem pairsInv_swap {cfg : Config} (t : Table) (S : ccache_entry → Prop) (a b : Nat)
    (ha : IsSlot cfg a) (hb : IsSlot cfg b) (h : PairsInv cfg t S) :
    PairsInv cfg (t.swap a b) S := by
  constructor
  · intro q hq hd
    by_cases h1 : q = a
    · have hs : t.swap a b q = t b := by simp [Table.swap, h1]
      rw [hs] at hd ⊢
      exact h.1 b hb hd
    · by_cases h2 : q = b
      · have hs : t.swap a b q = t a := by
          subst h2
          simp [Table.swap, h1]
        rw [hs] at hd ⊢
        exact h.1 a ha hd
      · have hs : t.swap a b q = t q := by simp [Table.swap, h1, h2]
        rw [hs] at hd ⊢
        exact h.1 q hq hd
  · intro x hx hsrc
    obtain ⟨q, hq, hqe⟩ := h.2 x hx hsrc
    by_cases h1 : q = a
    · refine ⟨b, hb, ?_⟩
      by_cases hba : b = a
      · simp [Table.swap, hba, ← hqe, h1]
      · simp [Table.swap, hba, ← hqe, h1]
    · by_cases h2 : q = b
      · exact ⟨a, ha, by simp [Table.swap, ← hqe, h2]⟩
      · exact ⟨q, hq, by simp [Table.swap, h1, h2, hqe]⟩

theorem pairsInv_congr {cfg : Config} (t : Table) (S1 S2 : ccache_entry → Prop)
    (hS : ∀ e, S1 e ↔ S2 e) (h : PairsInv cfg t S1) : PairsInv cfg t S2 :=
  ⟨fun p hp hd => (hS _).1 (h.1 p hp hd), fun e he hsrc => h.2 e ((hS e).2 he) hsrc⟩

/-- The pairs in the table after a sequence of returning calls outside inlining mode. -/
theorem run_pairs {cfg : Config} (wf : cfg.WF) (ops : List Call) :
    ∀ (S : ccache_entry → Prop) (tld0 tld : thread_local_data),
      inlining cfg tld0 = false → PairsInv cfg tld0.mappingtable S →
      run cfg ops tld0 = Outcome.ret tld →
      PairsInv cfg tld.mappingtable (fun e => S e ∨ e ∈ calledPairs ops) := by
  induction ops with
  | nil =>
    intro S tld0 tld _ hinv h
    simp only [run] at h
    injection h with h
    subst h
    exact pairsInv_congr _ S _ (fun e => by simp [calledPairs]) hinv
  | cons op rest ih =>
    intro S tld0 tld hin hinv h
    cases op with
    | add g c =>
      cases hadd : fbt_ccache_add_entry cfg tld0 g c with
      | fatal => simp only [run, hadd] at h; cases h
      | nofuel => simp only [run, hadd] at h; cases h
      | ret tld1 =>
        simp only [run, hadd] at h
        obtain ⟨d, _, hemp, _, htld1⟩ := add_entry_inv cfg tld0 tld1 g c hadd hin
        have hin1 : inlining cfg tld1 = false := by rw [htld1]; exact hin
        have hp := probe_isSlot wf (wf.hash_slot g) d
        have h1 : PairsInv cfg tld1.mappingtable (fun x => S x ∨ x = { src := g, dst := c }) := by
          rw [htld1]
          exact pairsInv_write tld0.mappingtable S _ hp hemp { src := g, dst := c } hinv
        have h2 := ih _ tld1 tld hin1 h1 h
        refine pairsInv_congr _ _ _ (fun e => ?_) h2
        simp only [calledPairs, Multiset.mem_cons]
        tauto
    | find g fuel =>
      cases hfind : fbt_ccache_find cfg fuel tld0 g with
      | fatal => simp only [run, hfind] at h; cases h
      | nofuel => simp only [run, hfind] at h; cases h
      | ret r =>
        obtain ⟨v, tld1⟩ := r
        simp only [run, hfind] at h
        have h1 : PairsInv cfg tld1.mappingtable S ∧ inlining cfg tld1 = false := by
          obtain ⟨d, _, _, hres⟩ := find_inv cfg fuel tld0 tld1 g v hfind
          rcases hres with ⟨_, _, rfl⟩ | ⟨_, _, _, rfl⟩
          · exact ⟨hinv, hin⟩
          · refine ⟨?_, hin⟩
            by_cases hd : d = 0
            · simp only [hd, if_true]; exact hinv
            · simp only [hd, if_false]
              exact pairsInv_swap _ S _ _ (wf.hash_slot g)
                (probe_isSlot wf (wf.hash_slot g) d) hinv
        exact ih S tld1 tld h1.2 h1.1 h

/-- C3 (as amended): outside inlining mode, after any sequence of returning add and
find calls that starts on an empty table, and for every pair `(g, c)` that was inserted
with `c` not `NULL` and with no other guest address inserted for the same `c`,
`fbt_ccache_find_reverse(c)` returns `g`. -/
theorem fbt_ccache_find_reverse_roundtrip {cfg : Config} (wf : cfg.WF) (ops : List Call)
    (tld0 tld : thread_local_data) (g c : Nat)
    (hzero : ∀ o, tld0.mappingtable o = { src := 0, dst := 0 })
    (hin : inlining cfg tld0 = false) (hrun : run cfg ops tld0 = Outcome.ret tld)
    (hmem : ({ src := g, dst := c } : ccache_entry) ∈ calledPairs ops) (hc : c ≠ 0)
    (huniq : ∀ g1, ({ src := g1, dst := c } : ccache_entry) ∈ calledPairs ops → g1 = g) :
    fbt_ccache_find_reverse cfg tld c = Outcome.ret g := by
  have h0 : PairsInv cfg tld0.mappingtable (fun _ => False) :=
    ⟨fun p _ hd => absurd (by rw [hzero p]) hd, fun e he _ => absurd he id⟩
  have hinv := run_pairs wf ops _ tld0 tld hin h0 hrun
  rcases find_reverse_spec wf tld c with ⟨p, hp, hd, hres⟩ | ⟨hall, hres⟩
  · rw [hres]
    have hS := hinv.1 p hp (by rw [hd]; exact hc)
    rcases hS with hS | hS
    · exact absurd hS id
    · have he : tld.mappingtable p = { src := (tld.mappingtable p).src, dst := c } := by
        rw [← hd]
      rw [he] at hS
      rw [huniq _ hS]
  · rw [hres]
    by_cases hg : g = 0
    · rw [hg]
    · obtain ⟨p, hp, hpe⟩ := hinv.2 { src := g, dst := c } (Or.inr hmem) hg
      exact absurd (by rw [hpe]) (hall p hp)

/-- C3, witness: the reverse lookup of `0xC000` after the two colliding insertions and
the lookup that moved the pair `(32, 0xC000)` away from its home slot. -/
theorem fbt_ccache_find_reverse_roundtrip_witness :
    ({ src := 32, dst := 0xC000 } : ccache_entry)
      ∈ calledPairs [Call.add 32 0xC000, Call.add 64 0xC100, Call.find 64 32] ∧
    fbt_ccache_find_reverse exampleConfig ⟨twoTable.swap 0 8, 0⟩ 0xC000 = Outcome.ret 32 :=
  ⟨by decide,
    fbt_ccache_find_reverse_roundtrip exampleConfig_wf
      [Call.add 32 0xC000, Call.add 64 0xC100, Call.find 64 32] ⟨Table.empty, 0⟩
      ⟨twoTable.swap 0 8, 0⟩ 32 0xC000 (fun _ => rfl) rfl example_run (by decide) (by decide)
      (by
        intro g1 h
        simp [calledPairs] at h
        exact h)⟩

/-- C3, counterexample: the pairs `(2, 0xC000)` and `(1, 0xC000)` are inserted into the
empty table; the reverse lookup of `0xC000` returns `1`, the key of the lower slot, and
not `2`. -/
theorem fbt_ccache_find_reverse_same_dst :
    ∃ tld, run exampleConfig [Call.add 2 0xC000, Call.add 1 0xC000] ⟨Table.empty, 0⟩
        = Outcome.ret tld ∧
      ({ src := 2, dst := 0xC000 } : ccache_entry)
        ∈ calledPairs [Call.add 2 0xC000, Call.add 1 0xC000] ∧
      fbt_ccache_find_reverse exampleConfig tld 0xC000 = Outcome.ret 1 ∧
      fbt_ccache_find_reverse exampleConfig tld 0xC000 ≠ Outcome.ret 2 := by
  obtain ⟨tld, h1, h2, h3⟩ : ∃ tld,
      run exampleConfig [Call.add 2 0xC000, Call.add 1 0xC000] ⟨Table.empty, 0⟩
        = Outcome.ret tld ∧
      ({ src := 2, dst := 0xC000 } : ccache_entry)
        ∈ calledPairs [Call.add 2 0xC000, Call.add 1 0xC000] ∧
      fbt_ccache_find_reverse exampleConfig tld 0xC000 = Outcome.ret 1 :=
    ⟨_, rfl, by decide, rfl⟩
  refine ⟨tld, h1, h2, h3, ?_⟩
  rw [h3]
  intro e
  injection e with e
  exact absurd e (by decide)

/-! ## C11, C12: the copy action -/

/-- C11 (evaluation of the code): `action_copy` returns `NEUTRAL` for every opcode other
than `SWI`, but it leaves `ts->transl_instr` as it was: the write cursor is not advanced
by the size of the instruction, and a second call stores at the same cache position. -/
theorem action_copy_cursor_not_advanced (SWI : Nat) (ts : translate) (info code : Nat → Nat) :
    (info ts.cur_instr_info &&& 0x1FFF ≠ SWI →
      (action_copy SWI ts info code).1 = translation_state.NEUTRAL) ∧
    (action_copy SWI ts info code).2.1 = ts ∧
    (action_copy SWI ts info code).2.1.transl_instr = ts.transl_instr ∧
    (action_copy 15 exampleTranslate (fun _ => 4) (fun _ => 0xE0800001)).1
      = translation_state.NEUTRAL ∧
    (action_copy 15 exampleTranslate (fun _ => 4) (fun _ => 0xE0800001)).2.1.transl_instr
      = 0x2000 ∧
    (action_copy 15 exampleTranslate (fun _ => 4) (fun _ => 0xE0800001)).2.1.transl_instr
      ≠ 0x2000 + 4 := by
  refine ⟨fun h => ?_, ?_, ?_, by decide, by decide, by decide⟩
  · simp [action_copy, h]
  · unfold action_copy
    split <;> rfl
  · unfold action_copy
    split <;> rfl

/-- C12: for every translator state `action_copy` stores the instruction word found at
`ts->cur_instr` at the cache position `ts->transl_instr` and changes no other cell; it
returns `CLOSE_GLUE` if and only if the low 13 bits of the opcode flags equal `SWI`, and
`NEUTRAL` in every other case, so never `CLOSE`; `action_warn` returns what `action_copy`
returns. -/
theorem action_copy_verdict (SWI : Nat) (ts : translate) (info code : Nat → Nat) :
    (action_copy SWI ts info code).2.2 ts.transl_instr = code ts.cur_instr ∧
    (∀ a, a ≠ ts.transl_instr → (action_copy SWI ts info code).2.2 a = code a) ∧
    ((action_copy SWI ts info code).1 = translation_state.CLOSE_GLUE ↔
      info ts.cur_instr_info &&& 0x1FFF = SWI) ∧
    ((action_copy SWI ts info code).1 = translation_state.NEUTRAL ↔
      info ts.cur_instr_info &&& 0x1FFF ≠ SWI) ∧
    (action_copy SWI ts info code).1 ≠ translation_state.CLOSE ∧
    action_warn SWI ts info code = action_copy SWI ts info code := by
  by_cases h : info ts.cur_instr_info &&& 0x1FFF = SWI
  · refine ⟨?_, ?_, ?_, ?_, ?_, rfl⟩ <;> simp [action_copy, h]
    intro a ha
    simp [ha]
  · refine ⟨?_, ?_, ?_, ?_, ?_, rfl⟩ <;> simp [action_copy, h]
    intro a ha
    simp [ha]

/-! ## The memory manager: basic facts -/

theorem Result.bind_eq_ok {α β : Type} (r : Result α) (f : α → Result β) (b : β) :
    r.bind f = Result.ok b ↔ ∃ a, r = Result.ok a ∧ f a = Result.ok b := by
  cases r with
  | ok a => simp [Result.bind]
  | stop s => simp [Result.bind]
  | nofuel => simp [Result.bind]

theorem int32_eq (n : Int) (h0 : 0 ≤ n) (h1 : n < 2 ^ 31) : int32 n = n := by
  unfold int32
  have h2 : (n + 2 ^ 31) % 2 ^ 32 = n + 2 ^ 31 := Int.emod_eq_of_lt (by omega) (by omega)
  omega

theorem ulen_ofNat (n : Nat) : ulen (n : Int) = n := by
  unfold ulen
  rw [if_neg (by omega)]
  exact Int.toNat_ofNat n

theorem ulen_of_nonneg (n : Int) (h : 0 ≤ n) : ((ulen n : Nat) : Int) = n := by
  unfold ulen
  rw [if_neg (by omega)]
  exact Int.toNat_of_nonneg h

/-- What a successful `mmap` has done. -/
theorem mmap_inv (mc : MemConfig) (os os1 : OS) (size : Int) (flags a : Nat)
    (h : mmap mc os size flags = some (a, os1)) :
    0 < ulen size ∧ a ≠ 0 ∧ a % mc.PAGESIZE = 0 ∧
    (∀ x, x < a + ulen size → a ≤ x → os.prot x = none) ∧
    (∃ rest, os.oracle = some a :: rest ∧ os1.oracle = rest) ∧
    os1.prot = (fun x => if a ≤ x ∧ x < a + ulen size then some flags else os.prot x) ∧
    os1.mem = (fun x => if a ≤ x ∧ x < a + ulen size then 0 else os.mem x) ∧
    os1.munmap_log = os.munmap_log ∧ os1.bad_reads = os.bad_reads := by
  unfold mmap at h
  cases ho : os.oracle with
  | nil => rw [ho] at h; cases h
  | cons o rest =>
    cases o with
    | none => rw [ho] at h; cases h
    | some b =>
      rw [ho] at h
      simp only at h
      split at h
      · rename_i hc
        injection h with h
        injection h with h1 h2
        subst h1
        subst h2
        refine ⟨hc.1, hc.2.1, hc.2.2.1, ?_, ⟨rest, rfl, rfl⟩, rfl, rfl, rfl, rfl⟩
        intro x hx1 hx2
        have := hc.2.2.2 (x - b) (by omega)
        rw [Nat.add_sub_cancel' hx2] at this
        exact this
      · cases h

/-- The kernel maps the region when the oracle names an address that is page aligned and
not `NULL`, from which on as many bytes as asked for are free. -/
theorem mmap_ok (mc : MemConfig) (os : OS) (size : Int) (flags a : Nat)
    (rest : List (Option Nat)) (ho : os.oracle = some a :: rest) (h0 : 0 < ulen size)
    (ha : a ≠ 0) (hal : a % mc.PAGESIZE = 0)
    (hfree : ∀ i, i < ulen size → os.prot (a + i) = none) :
    ∃ os1, mmap mc os size flags = some (a, os1) := by
  unfold mmap
  rw [ho]
  simp only
  rw [if_pos ⟨h0, ha, hal, hfree⟩]
  exact ⟨_, rfl⟩

/-- A successful `mmap` changes neither the protection nor the content of an address
that was mapped. -/
theorem mmap_keeps (mc : MemConfig) (os os1 : OS) (size : Int) (flags a x : Nat)
    (h : mmap mc os size flags = some (a, os1)) (hx : os.prot x ≠ none) :
    os1.prot x = os.prot x ∧ os1.mem x = os.mem x := by
  obtain ⟨_, _, _, hfresh, _, hp, hm, _, _⟩ := mmap_inv mc os os1 size flags a h
  have hout : ¬ (a ≤ x ∧ x < a + ulen size) := fun hin => hx (hfresh x hin.2 hin.1)
  rw [hp, hm]
  simp [hout]

/-- The scratch allocator when the request fits the scratch region. -/
theorem smalloc_fuel_fits (mc : MemConfig) (fuel : Nat) (os : OS) (tld : mem_tld) (size : Int)
    (h0 : 0 < size) (h1 : size ≤ (mc.SMALLOC_MAX : Int)) (h2 : size ≤ tld.smalloc_size) :
    smalloc_fuel mc (fuel + 1) os tld size = Result.ok (tld.smalloc, os, { tld with
      smalloc := ((tld.smalloc : Int) + size).toNat
      smalloc_size := tld.smalloc_size - size }) := by
  simp only [smalloc_fuel]
  rw [if_neg (by omega), if_neg (by omega)]

/-- The scratch allocator when the request does not fit and `mmap` fails. -/
theorem smalloc_fuel_refill_fail (mc : MemConfig) (fuel : Nat) (os : OS) (tld : mem_tld)
    (size : Int) (h0 : 0 < size) (h1 : size ≤ (mc.SMALLOC_MAX : Int))
    (h2 : tld.smalloc_size < size)
    (hm : mmap mc os (scratch_size mc : Nat) (PROT_READ ||| PROT_WRITE) = none) :
    smalloc_fuel mc (fuel + 1) os tld size = Result.stop Stop.syscall := by
  simp only [smalloc_fuel]
  rw [if_neg (by omega), if_pos (by omega), hm]

/-- The scratch allocator when the request does not fit and `mmap` gives a new block:
the record of the block is its first allocation, the request the second. -/
theorem smalloc_fuel_refill (mc : MemConfig) (wf : mc.WF) (fuel : Nat) (os os1 : OS)
    (tld : mem_tld) (size : Int) (mem : Nat) (h0 : 0 < size)
    (h1 : size ≤ (mc.SMALLOC_MAX : Int)) (h2 : tld.smalloc_size < size)
    (hm : mmap mc os (scratch_size mc : Nat) (PROT_READ ||| PROT_WRITE) = some (mem, os1)) :
    smalloc_fuel mc (fuel + 2) os tld size = Result.ok (mem + mc.sizeof_mem_info, os1,
      { tld with
        chunk := { addr := mem, ptr := mem, size := scratch_size mc,
                   type := mem_type.MT_INTERNAL } :: tld.chunk
        smalloc := (((mem + mc.sizeof_mem_info : Nat) : Int) + size).toNat
        smalloc_size := (scratch_size mc : Int) - (mc.sizeof_mem_info : Int) - size }) := by
  have hb := wf.boot_fits
  have hp := wf.record_pos
  have hs := wf.record_small
  have hinner := smalloc_fuel_fits mc fuel os1
    { tld with smalloc_size := (scratch_size mc : Nat), smalloc := mem }
    (mc.sizeof_mem_info : Nat) (by omega) (by omega) (by simp only; omega)
  rw [smalloc_fuel]
  rw [if_neg (by omega)]
  simp only
  rw [if_pos (by omega), hm]
  simp only
  rw [hinner]
  rfl

/-- The outcomes of `fbt_smalloc`, for well-formed constants. -/
theorem fbt_smalloc_cases (mc : MemConfig) (wf : mc.WF) (os : OS) (tld : mem_tld)
    (size : Int) :
    ((size > (mc.SMALLOC_MAX : Int) ∨ size ≤ 0) ∧
      fbt_smalloc mc os tld size = Result.stop Stop.suicide) ∨
    (0 < size ∧ size ≤ (mc.SMALLOC_MAX : Int) ∧ size ≤ tld.smalloc_size ∧
      fbt_smalloc mc os tld size = Result.ok (tld.smalloc, os, bump tld size)) ∨
    (0 < size ∧ size ≤ (mc.SMALLOC_MAX : Int) ∧ tld.smalloc_size < size ∧
      mmap mc os (scratch_size mc : Nat) (PROT_READ ||| PROT_WRITE) = none ∧
      fbt_smalloc mc os tld size = Result.stop Stop.syscall) ∨
    (0 < size ∧ size ≤ (mc.SMALLOC_MAX : Int) ∧ tld.smalloc_size < size ∧
      ∃ mem os1, mmap mc os (scratch_size mc : Nat) (PROT_READ ||| PROT_WRITE)
          = some (mem, os1) ∧
        fbt_smalloc mc os tld size
          = Result.ok (mem + mc.sizeof_mem_info, os1, bump (refilled mc tld mem) size)) := by
  unfold fbt_smalloc
  by_cases hr : size > (mc.SMALLOC_MAX : Int) ∨ size ≤ 0
  · left
    refine ⟨hr, ?_⟩
    simp only [smalloc_fuel]
    rw [if_pos hr]
  · have h0 : 0 < size := by omega
    have h1 : size ≤ (mc.SMALLOC_MAX : Int) := by omega
    right
    by_cases hfit : size ≤ tld.smalloc_size
    · left
      exact ⟨h0, h1, hfit, smalloc_fuel_fits mc _ os tld size h0 h1 hfit⟩
    · right
      have hlt : tld.smalloc_size < size := by omega
      cases hm : mmap mc os (scratch_size mc : Nat) (PROT_READ ||| PROT_WRITE) with
      | none =>
        left
        exact ⟨h0, h1, hlt, rfl, smalloc_fuel_refill_fail mc _ os tld size h0 h1 hlt hm⟩
      | some r =>
        obtain ⟨mem, os1⟩ := r
        right
        refine ⟨h0, h1, hlt, mem, os1, rfl, ?_⟩
        obtain ⟨_, _, _, _, ⟨rest, ho, _⟩, _⟩ := mmap_inv mc os os1 _ _ mem hm
        rw [ho]
        exact smalloc_fuel_refill mc wf rest.length os os1 tld size mem h0 h1 hlt hm

/-! ## C13: teardown -/

theorem read_chunk_same (mc : MemConfig) (os : OS) (c : mem_info) :
    (read_chunk mc os c).prot = os.prot ∧ (read_chunk mc os c).mem = os.mem ∧
    (read_chunk mc os c).munmap_log = os.munmap_log ∧
    (read_chunk mc os c).oracle = os.oracle ∧ (read_chunk mc os c).tramp = os.tramp := by
  unfold read_chunk
  split <;> exact ⟨rfl, rfl, rfl, rfl, rfl⟩

/-- The walk of `fbt_mem_free` over the chunks `front` followed by the chunk `last`, when
the kernel accepts every `munmap` call. -/
theorem mem_free_loop_ok (mc : MemConfig) (last : mem_info) :
    ∀ (front : List mem_info) (os : OS), (∀ c ∈ front, munmap_valid mc c) →
      ∃ os1, mem_free_loop mc os (front ++ [last]) = Result.ok (os1, [last]) ∧
        os1.munmap_log = os.munmap_log ++ front.map (fun c => (c.ptr, c.size)) ∧
        (∀ x, (∀ c ∈ front, ¬ in_region c x) → os1.prot x = os.prot x) ∧
        (∀ x, (∃ c ∈ front, in_region c x) → os1.prot x = none) ∧
        os1.mem = os.mem ∧ os1.oracle = os.oracle ∧ os1.tramp = os.tramp := by
  intro front
  induction front with
  | nil =>
    intro os _
    obtain ⟨h1, h2, h3, h4, h5⟩ := read_chunk_same mc os last
    refine ⟨read_chunk mc os last, rfl, by simp [h3], fun x _ => by rw [h1], ?_, h2, h4, h5⟩
    rintro x ⟨c, hc, _⟩
    cases hc
  | cons c f ih =>
    intro os hv
    obtain ⟨c1, rest, hl⟩ : ∃ c1 rest, f ++ [last] = c1 :: rest := by
      cases f with
      | nil => exact ⟨last, [], rfl⟩
      | cons a b => exact ⟨a, b ++ [last], rfl⟩
    have hvc := hv c (List.mem_cons_self c f)
    obtain ⟨r1, r2, r3, r4, r5⟩ := read_chunk_same mc os c
    have hmun : munmap mc (read_chunk mc os c) c.ptr c.size
        = some { read_chunk mc os c with
            prot := fun x =>
              if c.ptr ≤ x ∧ x < c.ptr + ulen c.size then none else (read_chunk mc os c).prot x
            munmap_log := (read_chunk mc os c).munmap_log ++ [(c.ptr, c.size)] } := by
      unfold munmap
      rw [if_neg]
      intro h
      rcases h with h | h
      · exact h hvc.1
      · exact hvc.2 h
    obtain ⟨os1, e1, e2, e3, e4, e5, e6, e7⟩ := ih _ (fun d hd => hv d (List.mem_cons_of_mem c hd))
    refine ⟨os1, ?_, ?_, ?_, ?_, ?_, ?_, ?_⟩
    · rw [List.cons_append, hl]
      simp only [mem_free_loop]
      rw [hmun, ← hl]
      exact e1
    · rw [e2]
      simp [r3]
    · intro x hx
      rw [e3 x (fun d hd => hx d (List.mem_cons_of_mem c hd))]
      have hc := hx c (List.mem_cons_self c f)
      simp only [in_region] at hc
      simp only [r1]
      rw [if_neg hc]
    · rintro x ⟨d, hd, hdx⟩
      by_cases hin : ∃ d ∈ f, in_region d x
      · exact e4 x hin
      · rw [e3 x (fun d hd hdx => hin ⟨d, hd, hdx⟩)]
        rcases List.mem_cons.1 hd with rfl | hd
        · simp only [in_region] at hdx
          simp only [r1]
          rw [if_pos hdx]
        · exact absurd ⟨d, hd, hdx⟩ hin
    · rw [e5]; exact r2
    · rw [e6]; exact r4
    · rw [e7]; exact r5

/-- The walk of `fbt_mem_free` ends the process when the kernel rejects one of the
`munmap` calls. -/
theorem mem_free_loop_fail (mc : MemConfig) (last : mem_info) :
    ∀ (front : List mem_info) (os : OS), (∃ c ∈ front, ¬ munmap_valid mc c) →
      mem_free_loop mc os (front ++ [last]) = Result.stop Stop.syscall := by
  intro front
  induction front with
  | nil => rintro os ⟨c, hc, _⟩; cases hc
  | cons c f ih =>
    intro os hex
    obtain ⟨c1, rest, hl⟩ : ∃ c1 rest, f ++ [last] = c1 :: rest := by
      cases f with
      | nil => exact ⟨last, [], rfl⟩
      | cons a b => exact ⟨a, b ++ [last], rfl⟩
    rw [List.cons_append, hl]
    simp only [mem_free_loop]
    by_cases hvc : munmap_valid mc c
    · have hmun : ∃ os2, munmap mc (read_chunk mc os c) c.ptr c.size = some os2 := by
        unfold munmap
        rw [if_neg]
        · exact ⟨_, rfl⟩
        · intro h
          rcases h with h | h
          · exact h hvc.1
          · exact hvc.2 h
      obtain ⟨os2, hos2⟩ := hmun
      rw [hos2, ← hl]
      apply ih
      obtain ⟨d, hd, hdv⟩ := hex
      rcases List.mem_cons.1 hd with rfl | hd
      · exact absurd hvc hdv
      · exact ⟨d, hd, hdv⟩
    · have hmun : munmap mc (read_chunk mc os c) c.ptr c.size = none := by
        unfold munmap
        rw [if_pos]
        unfold munmap_valid at hvc
        by_cases h1 : c.ptr % mc.PAGESIZE = 0
        · right
          by_contra h2
          exact hvc ⟨h1, h2⟩
        · left; exact h1
      rw [hmun]

/-- C13: let the chunk list be non-empty, that is, some chunks `front` followed by its
last chunk. `fbt_mem_free` returns when the kernel accepts every `munmap` call it makes,
and ends the process otherwise. When it returns, the chunk list is the last chunk alone;
the `munmap` calls made are one for each chunk of `front`, with its `ptr` and `size`,
in the order of the list, and none for the last chunk; every address outside the
regions of `front` keeps its mapping, and every address inside one of them is unmapped. -/
theorem fbt_mem_free_leaves_tail (mc : MemConfig) (os : OS) (tld : mem_tld)
    (front : List mem_info) (last : mem_info) (hsplit : tld.chunk = front ++ [last]) :
    ((∀ c ∈ front, munmap_valid mc c) →
      ∃ os1, fbt_mem_free mc os tld = Result.ok (os1, { tld with chunk := [last] }) ∧
        os1.munmap_log = os.munmap_log ++ front.map (fun c => (c.ptr, c.size)) ∧
        (∀ x, (∀ c ∈ front, ¬ in_region c x) → os1.prot x = os.prot x) ∧
        (∀ x, (∃ c ∈ front, in_region c x) → os1.prot x = none)) ∧
    ((∃ c ∈ front, ¬ munmap_valid mc c) →
      fbt_mem_free mc os tld = Result.stop Stop.syscall) := by
  refine ⟨fun hv => ?_, fun hex => ?_⟩
  · obtain ⟨os1, e1, e2, e3, e4, _⟩ := mem_free_loop_ok mc last front os hv
    refine ⟨os1, ?_, e2, e3, e4⟩
    unfold fbt_mem_free
    rw [hsplit, e1]
    rfl
  · unfold fbt_mem_free
    rw [hsplit, mem_free_loop_fail mc last front os hex]
    rfl

/-- C13, witness: the teardown of a thread with a code cache, a mapping table and the
bootstrap block: two `munmap` calls, and the bootstrap block is what is left. -/
theorem fbt_mem_free_leaves_tail_witness :
    ∃ os1, fbt_mem_free exampleMem exampleOS exampleTld
        = Result.ok (os1, { exampleTld with
            chunk := [{ addr := 328, ptr := 256, size := 128, type := mem_type.MT_INTERNAL }] }) ∧
      os1.munmap_log = exampleOS.munmap_log ++ [(1024, 64), (512, 272)] ∧
      (∀ x, (∀ c ∈ [({ addr := 360, ptr := 1024, size := 64,
                        type := mem_type.MT_CODE_CACHE } : mem_info),
                     { addr := 344, ptr := 512, size := 272,
                       type := mem_type.MT_MAPPING_TABLE }],
            ¬ in_region c x) → os1.prot x = exampleOS.prot x) ∧
      (∀ x, (∃ c ∈ [({ addr := 360, ptr := 1024, size := 64,
                        type := mem_type.MT_CODE_CACHE } : mem_info),
                     { addr := 344, ptr := 512, size := 272,
                       type := mem_type.MT_MAPPING_TABLE }],
            in_region c x) → os1.prot x = none) :=
  (fbt_mem_free_leaves_tail exampleMem exampleOS exampleTld
    [{ addr := 360, ptr := 1024, size := 64, type := mem_type.MT_CODE_CACHE },
     { addr := 344, ptr := 512, size := 272, type := mem_type.MT_MAPPING_TABLE }]
    { addr := 328, ptr := 256, size := 128, type := mem_type.MT_INTERNAL } rfl).1
    (by decide)

/-! ## C15: allocation tracking -/

/-- What a returning `fbt_lalloc` has done. -/
theorem fbt_lalloc_inv (mc : MemConfig) (os os2 : OS) (tld tld2 : mem_tld) (pages : Int)
    (type : mem_type) (r : Nat)
    (h : fbt_lalloc mc os tld pages type = Result.ok (r, os2, tld2)) :
    0 < pages ∧ ∃ chunk os1 tld1,
      fbt_smalloc mc os tld (mc.sizeof_mem_info : Nat) = Result.ok (chunk, os1, tld1) ∧
      mmap mc os1 (int32 (pages * (mc.PAGESIZE : Nat))) (lalloc_flags mc type)
        = some (r, os2) ∧
      tld2 = (if track_chunk mc type then
          { tld1 with chunk := { addr := chunk, ptr := r,
                                 size := int32 (pages * (mc.PAGESIZE : Nat)),
                                 type := type } :: tld1.chunk }
        else tld1) := by
  unfold fbt_lalloc at h
  by_cases hp : pages ≤ 0
  · rw [if_pos hp] at h; cases h
  · rw [if_neg hp] at h
    refine ⟨by omega, ?_⟩
    obtain ⟨⟨chunk, os1, tld1⟩, hs, hrest⟩ := (Result.bind_eq_ok _ _ _).1 h
    refine ⟨chunk, os1, tld1, hs, ?_⟩
    simp only at hrest
    cases hm : mmap mc os1 (int32 (pages * (mc.PAGESIZE : Nat))) (lalloc_flags mc type) with
    | none => rw [hm] at hrest; cases hrest
    | some p =>
      obtain ⟨r1, os3⟩ := p
      rw [hm] at hrest
      simp only at hrest
      by_cases ht : track_chunk mc type = true
      · rw [if_pos ht] at hrest
        injection hrest with hrest
        injection hrest with e1 e2
        injection e2 with e2 e3
        subst e1; subst e2
        exact ⟨rfl, by rw [if_pos ht]; exact e3.symm⟩
      · rw [if_neg ht] at hrest
        injection hrest with hrest
        injection hrest with e1 e2
        injection e2 with e2 e3
        subst e1; subst e2
        exact ⟨rfl, by rw [if_neg ht]; exact e3.symm⟩

/-- What a returning `fbt_smalloc` has done, for well-formed constants. -/
theorem fbt_smalloc_inv (mc : MemConfig) (wf : mc.WF) (os os1 : OS) (tld tld1 : mem_tld)
    (size : Int) (p : Nat) (h : fbt_smalloc mc os tld size = Result.ok (p, os1, tld1)) :
    0 < size ∧ size ≤ (mc.SMALLOC_MAX : Int) ∧
    ((size ≤ tld.smalloc_size ∧ p = tld.smalloc ∧ os1 = os ∧ tld1 = bump tld size) ∨
     (tld.smalloc_size < size ∧ ∃ mem,
        mmap mc os (scratch_size mc : Nat) (PROT_READ ||| PROT_WRITE) = some (mem, os1) ∧
        p = mem + mc.sizeof_mem_info ∧ tld1 = bump (refilled mc tld mem) size)) := by
  rcases fbt_smalloc_cases mc wf os tld size with ⟨_, e⟩ | ⟨h0, h1, h2, e⟩ | ⟨_, _, _, _, e⟩ |
    ⟨h0, h1, h2, mem, os2, hm, e⟩
  · rw [e] at h; cases h
  · rw [e] at h
    injection h with h
    injection h with e1 e2
    injection e2 with e2 e3
    exact ⟨h0, h1, Or.inl ⟨h2, e1.symm, e2.symm, e3.symm⟩⟩
  · rw [e] at h; cases h
  · rw [e] at h
    injection h with h
    injection h with e1 e2
    injection e2 with e2 e3
    subst e2
    exact ⟨h0, h1, Or.inr ⟨h2, mem, hm, e1.symm, e3.symm⟩⟩

/-- The chunk list after a returning `fbt_smalloc` ends with the list before it. -/
theorem fbt_smalloc_suffix (mc : MemConfig) (wf : mc.WF) (os os1 : OS) (tld tld1 : mem_tld)
    (size : Int) (p : Nat) (h : fbt_smalloc mc os tld size = Result.ok (p, os1, tld1)) :
    tld.chunk <:+ tld1.chunk := by
  obtain ⟨_, _, hc⟩ := fbt_smalloc_inv mc wf os os1 tld tld1 size p h
  rcases hc with ⟨_, _, _, rfl⟩ | ⟨_, mem, _, _, rfl⟩
  · exact List.suffix_refl _
  · exact List.suffix_cons _ _

/-- C15 (as amended): `fbt_lalloc` is fatal when `pages <= 0`. When it returns the
pointer `r` for `pages > 0`, the chunk list before the call is a suffix of the new list.
For every type that the build tracks, which is every type other than shared data, and
every `pages` whose product `pages * PAGESIZE` is at most `INT_MAX`, the head of the new
list is a record stored at the address that `fbt_smalloc` has just handed out, with
`ptr = r`, the type given and `size = pages * PAGESIZE`. For the shared data type in a
`SHARED_DATA` build no record is added, and no record of the list has `ptr = r` when the
first byte of every chunk that was tracked before is mapped. -/
theorem fbt_lalloc_tracking (mc : MemConfig) (wf : mc.WF) (os : OS) (tld : mem_tld)
    (pages : Int) (type : mem_type) :
    (pages ≤ 0 → fbt_lalloc mc os tld pages type = Result.stop (Stop.assertion 253)) ∧
    (∀ r os2 tld2, fbt_lalloc mc os tld pages type = Result.ok (r, os2, tld2) →
      0 < pages ∧ tld.chunk <:+ tld2.chunk ∧
      (type ≠ mem_type.MT_SHARED_DATA ∨ mc.SHARED_DATA = false →
        pages * (mc.PAGESIZE : Nat) < 2 ^ 31 →
        ∃ record rest os1 tld1, tld2.chunk = record :: rest ∧
          fbt_smalloc mc os tld (mc.sizeof_mem_info : Nat)
            = Result.ok (record.addr, os1, tld1) ∧
          rest = tld1.chunk ∧
          record.ptr = r ∧ record.type = type ∧
          record.size = pages * (mc.PAGESIZE : Nat)) ∧
      (type = mem_type.MT_SHARED_DATA → mc.SHARED_DATA = true →
        (∃ chunk os1, fbt_smalloc mc os tld (mc.sizeof_mem_info : Nat)
            = Result.ok (chunk, os1, tld2)) ∧
        ((∀ c ∈ tld.chunk, os.prot c.ptr ≠ none) → ∀ c ∈ tld2.chunk, c.ptr ≠ r))) := by
  refine ⟨fun hp => by unfold fbt_lalloc; rw [if_pos hp], ?_⟩
  intro r os2 tld2 h
  obtain ⟨hp, chunk, os1, tld1, hs, hm, ht⟩ := fbt_lalloc_inv mc os os2 tld tld2 pages type r h
  have hsuf := fbt_smalloc_suffix mc wf os os1 tld tld1 _ chunk hs
  refine ⟨hp, ?_, ?_, ?_⟩
  · rw [ht]
    split
    · exact hsuf.trans (List.suffix_cons _ _)
    · exact hsuf
  · intro hty hlt
    have htr : track_chunk mc type = true := by
      rcases hty with hty | hty
      · cases type <;> first | rfl | exact absurd rfl hty
      · cases type <;> simp [track_chunk, hty]
    rw [if_pos htr] at ht
    refine ⟨_, tld1.chunk, os1, tld1, by rw [ht], hs, rfl, rfl, rfl, ?_⟩
    have hnn : 0 ≤ pages * (mc.PAGESIZE : Nat) :=
      Int.mul_nonneg (by omega) (Int.ofNat_nonneg _)
    exact int32_eq _ hnn hlt
  · intro hty hsd
    have htr : ¬ track_chunk mc type = true := by
      rw [hty]; simp [track_chunk, hsd]
    rw [if_neg htr] at ht
    subst ht
    refine ⟨⟨chunk, os1, hs⟩, ?_⟩
    intro hmapped c hc hcr
    obtain ⟨hsz, _, _, hfresh, _⟩ := mmap_inv mc os1 os2 _ _ r hm
    have hr : os1.prot r = none := hfresh r (by omega) (Nat.le_refl r)
    obtain ⟨_, _, hcases⟩ := fbt_smalloc_inv mc wf os os1 tld tld2 _ chunk hs
    rcases hcases with ⟨_, _, e1, e2⟩ | ⟨_, mem, hm1, _, e2⟩
    · subst e1
      rw [e2] at hc
      exact hmapped c hc (by rw [hcr]; exact hr)
    · rw [e2] at hc
      have hc2 : c ∈ { addr := mem, ptr := mem, size := scratch_size mc,
                       type := mem_type.MT_INTERNAL } :: tld.chunk := hc
      obtain ⟨hs0, _, _, _, _, hp1, _⟩ := mmap_inv mc os os1 _ _ mem hm1
      rcases List.mem_cons.1 hc2 with rfl | hc3
      · have : os1.prot mem = some (PROT_READ ||| PROT_WRITE) := by
          rw [hp1]
          simp only
          rw [if_pos ⟨Nat.le_refl mem, by omega⟩]
        simp only at hcr
        rw [hcr, hr] at this
        cases this
      · have h1 := hmapped c hc3
        have h2 := (mmap_keeps mc os os1 _ _ mem c.ptr hm1 h1).1
        exact h1 (h2.symm.trans (by rw [hcr]; exact hr))

theorem exampleMem_wf : exampleMem.WF where
  page_pos := by decide
  boot_fits := by decide
  record_pos := by decide
  record_small := by decide
  table_int := by decide
  pc_int := by decide
  cache_pos := by decide
  cache_int := by decide
  syscall_pages := by intro h; cases h
  long_pos := by decide
  long_dvd_size := by decide
  long_dvd_page := by decide

theorem exampleMemShared_wf : exampleMemShared.WF where
  page_pos := exampleMem_wf.page_pos
  boot_fits := exampleMem_wf.boot_fits
  record_pos := exampleMem_wf.record_pos
  record_small := exampleMem_wf.record_small
  table_int := exampleMem_wf.table_int
  pc_int := exampleMem_wf.pc_int
  cache_pos := exampleMem_wf.cache_pos
  cache_int := exampleMem_wf.cache_int
  syscall_pages := by intro h; cases h
  long_pos := exampleMem_wf.long_pos
  long_dvd_size := exampleMem_wf.long_dvd_size
  long_dvd_page := exampleMem_wf.long_dvd_page

set_option maxRecDepth 1000000 in
theorem exampleInit_eq : fbt_init_tls exampleMem exampleOS = Result.ok exampleInit := rfl

set_option maxRecDepth 1000000 in
/-- C15, witness: after `fbt_init_tls` a call `fbt_lalloc(tld, 2, MT_INTERNAL)` returns;
the head of the chunk list is the record of the two new pages, of 32 bytes. -/
theorem fbt_lalloc_tracking_witness :
    ∃ r os2 tld2,
      fbt_lalloc exampleMem exampleInit.1 exampleInit.2 2 mem_type.MT_INTERNAL
        = Result.ok (r, os2, tld2) ∧
      ∃ record rest os1 tld1, tld2.chunk = record :: rest ∧
        fbt_smalloc exampleMem exampleInit.1 exampleInit.2 (exampleMem.sizeof_mem_info : Nat)
          = Result.ok (record.addr, os1, tld1) ∧
        rest = tld1.chunk ∧
        record.ptr = r ∧ record.type = mem_type.MT_INTERNAL ∧
        record.size = 2 * (exampleMem.PAGESIZE : Nat) :=
  ⟨_, _, _, rfl,
    ((fbt_lalloc_tracking exampleMem exampleMem_wf exampleInit.1 exampleInit.2 2
      mem_type.MT_INTERNAL).2 _ _ _ rfl).2.2.1 (Or.inl (by decide)) (by decide)⟩

set_option maxRecDepth 1000000 in
/-- C15, counterexample: with pages of 16 bytes, `fbt_lalloc(tld, 268435457, MT_INTERNAL)`
returns with a record of size 16: the product `268435457 * 16` is `2^32 + 16`, and as an
`int` it is 16. -/
theorem fbt_lalloc_tracking_overflow :
    ∃ r os2 tld2 record rest,
      fbt_lalloc exampleMem exampleInit.1 exampleInit.2 268435457 mem_type.MT_INTERNAL
        = Result.ok (r, os2, tld2) ∧
      (0 : Int) < 268435457 ∧
      tld2.chunk = record :: rest ∧ record.ptr = r ∧ record.size = 16 ∧
      record.size ≠ 268435457 * (exampleMem.PAGESIZE : Nat) :=
  ⟨_, _, _, _, _, rfl, by decide, rfl, rfl, by decide, by decide⟩

/-- When `fbt_smalloc` returns the record and the kernel maps the region, `fbt_lalloc`
returns the pointer of the kernel, whatever the sign of `alloc_size`. -/
theorem fbt_lalloc_returns (mc : MemConfig) (os os1 os2 : OS) (tld tld1 : mem_tld)
    (pages : Int) (type : mem_type) (chunk r : Nat) (hp : 0 < pages)
    (hs : fbt_smalloc mc os tld (mc.sizeof_mem_info : Nat) = Result.ok (chunk, os1, tld1))
    (hm : mmap mc os1 (int32 (pages * (mc.PAGESIZE : Nat))) (lalloc_flags mc type)
      = some (r, os2)) :
    fbt_lalloc mc os tld pages type = Result.ok (r, os2,
      if track_chunk mc type then
        { tld1 with chunk := { addr := chunk, ptr := r,
                               size := int32 (pages * (mc.PAGESIZE : Nat)),
                               type := type } :: tld1.chunk }
      else tld1) := by
  unfold fbt_lalloc
  rw [if_neg (by omega), hs]
  simp only [Result.bind, hm]
  split <;> rfl

/-- A product that wraps to a negative `int`: with pages of 16 bytes,
`fbt_lalloc(tld, 134217728, MT_INTERNAL)` has `alloc_size = -2147483648`. The kernel is
asked for `2^31` bytes; when it maps them, here at `0x700`, the call returns, the region
is readable and writable, and the record keeps the negative size. -/
theorem fbt_lalloc_negative_size :
    ∃ os2 tld2,
      fbt_lalloc exampleMem trampOS trampTld 134217728 mem_type.MT_INTERNAL
        = Result.ok (0x700, os2, tld2) ∧
      tld2.chunk = [{ addr := 0x100, ptr := 0x700, size := -2147483648,
                      type := mem_type.MT_INTERNAL }] ∧
      ∀ x, 0x700 ≤ x → x < 0x700 + 2147483648 →
        os2.prot x = some (PROT_READ ||| PROT_WRITE) := by
  have hs : fbt_smalloc exampleMem trampOS trampTld (exampleMem.sizeof_mem_info : Nat)
      = Result.ok (0x100, trampOS, bump trampTld 16) := rfl
  have ha : int32 (134217728 * (exampleMem.PAGESIZE : Nat)) = -2147483648 := by decide
  have hu : ulen (-2147483648) = 2147483648 := by decide
  obtain ⟨os2, hm⟩ : ∃ os2, mmap exampleMem trampOS (int32 (134217728 * (exampleMem.PAGESIZE : Nat)))
      (lalloc_flags exampleMem mem_type.MT_INTERNAL) = some (0x700, os2) := by
    rw [ha]
    exact mmap_ok exampleMem trampOS _ _ 0x700 [] rfl (by rw [hu]; decide) (by decide)
      (by decide) (fun _ _ => rfl)
  have hprot := (mmap_inv exampleMem trampOS os2 _ _ 0x700 hm).2.2.2.2.2.1
  rw [ha, hu] at hprot
  refine ⟨os2, _, fbt_lalloc_returns exampleMem trampOS trampOS os2 trampTld _ _ _ 0x100 0x700
    (by decide) hs hm, ?_, ?_⟩
  · rw [ha]
    rfl
  · intro x h1 h2
    rw [hprot]
    simp only
    rw [if_pos ⟨h1, h2⟩]
    rfl

/-! ## C17, C18: the mapping table of a fresh or re-initialised thread -/

theorem MemExt.refl (os : OS) (tld : mem_tld) : MemExt os tld os tld :=
  ⟨fun _ _ => ⟨rfl, rfl⟩, List.suffix_refl _, rfl, rfl, rfl, rfl⟩

theorem MemExt.trans {os os1 os2 : OS} {tld tld1 tld2 : mem_tld}
    (h1 : MemExt os tld os1 tld1) (h2 : MemExt os1 tld1 os2 tld2) :
    MemExt os tld os2 tld2 := by
  obtain ⟨a1, a2, a3, a4, a5, a6⟩ := h1
  obtain ⟨b1, b2, b3, b4, b5, b6⟩ := h2
  refine ⟨fun x hx => ?_, a2.trans b2, b3.trans a3, b4.trans a4, b5.trans a5, b6.trans a6⟩
  have h := a1 x hx
  have hx1 : os1.prot x ≠ none := by rw [h.1]; exact hx
  have h' := b1 x hx1
  exact ⟨h'.1.trans h.1, h'.2.trans h.2⟩

theorem fbt_smalloc_ext (mc : MemConfig) (wf : mc.WF) (os os1 : OS) (tld tld1 : mem_tld)
    (size : Int) (p : Nat) (h : fbt_smalloc mc os tld size = Result.ok (p, os1, tld1)) :
    MemExt os tld os1 tld1 := by
  obtain ⟨_, _, hc⟩ := fbt_smalloc_inv mc wf os os1 tld tld1 size p h
  rcases hc with ⟨_, _, rfl, rfl⟩ | ⟨_, mem, hm, _, rfl⟩
  · exact ⟨fun _ _ => ⟨rfl, rfl⟩, List.suffix_refl _, rfl, rfl, rfl, rfl⟩
  · exact ⟨fun x hx => mmap_keeps mc os os1 _ _ mem x hm hx, List.suffix_cons _ _, rfl, rfl,
      rfl, rfl⟩

/-- A returning `fbt_lalloc` extends the state; the new region has the protection asked
for and is filled with zeros; a tracked allocation is the head of the chunk list. -/
theorem fbt_lalloc_ext (mc : MemConfig) (wf : mc.WF) (os os2 : OS) (tld tld2 : mem_tld)
    (pages : Int) (type : mem_type) (r : Nat)
    (h : fbt_lalloc mc os tld pages type = Result.ok (r, os2, tld2)) :
    MemExt os tld os2 tld2 ∧ 0 < ulen (int32 (pages * (mc.PAGESIZE : Nat))) ∧
    (∀ x, r ≤ x → x < r + ulen (int32 (pages * (mc.PAGESIZE : Nat))) →
      os2.prot x = some (lalloc_flags mc type) ∧ os2.mem x = 0 ∧ os.prot x = none) ∧
    (track_chunk mc type = true → ∃ addr rest, tld2.chunk =
      { addr := addr, ptr := r, size := int32 (pages * (mc.PAGESIZE : Nat)),
        type := type } :: rest) := by
  obtain ⟨_, chunk, os1, tld1, hs, hm, ht⟩ := fbt_lalloc_inv mc os os2 tld tld2 pages type r h
  have hext1 := fbt_smalloc_ext mc wf os os1 tld tld1 _ chunk hs
  obtain ⟨hpos, _, _, hfresh, _, hp, hmem, _, _⟩ := mmap_inv mc os1 os2 _ _ r hm
  have hext2 : MemExt os1 tld1 os2 tld2 := by
    refine ⟨fun x hx => mmap_keeps mc os1 os2 _ _ r x hm hx, ?_, ?_, ?_, ?_, ?_⟩ <;>
      (rw [ht]; split) <;> first | rfl | exact List.suffix_refl _ | exact List.suffix_cons _ _
  refine ⟨hext1.trans hext2, hpos, ?_, ?_⟩
  · intro x h1 h2
    rw [hp, hmem]
    simp only
    rw [if_pos ⟨h1, h2⟩, if_pos ⟨h1, h2⟩]
    refine ⟨rfl, rfl, ?_⟩
    by_contra hne
    have := (hext1.1 x hne).1
    rw [hfresh x h2 h1] at this
    exact hne this.symm
  · intro htr
    rw [if_pos htr] at ht
    exact ⟨chunk, tld1.chunk, by rw [ht]⟩

theorem pages_gt (size page : Nat) (hp : 0 < page) : size < (size / page + 1) * page := by
  have h1 := Nat.div_add_mod size page
  have h2 := Nat.mod_lt size hp
  have h3 : (size / page + 1) * page = page * (size / page) + page := by ring
  omega

theorem pages_guard (size page w : Nat) (hp : 0 < page) (h1 : w ∣ size)
    (h2 : w ∣ page) : size + w ≤ (size / page + 1) * page := by
  have e1 := Nat.div_add_mod size page
  have e2 := Nat.mod_lt size hp
  have e3 : (size / page + 1) * page = page * (size / page) + page := by ring
  have d1 : w ∣ size % page := (Nat.dvd_mod_iff h2).2 h1
  have d2 : w ∣ page - size % page := Nat.dvd_sub' h2 d1
  have e4 : w ≤ page - size % page := Nat.le_of_dvd (by omega) d2
  omega

/-- The size of the allocation of `pages` pages, when it fits an `int`. -/
theorem alloc_size_eq (mc : MemConfig) (pages : Nat) (h : pages * mc.PAGESIZE < 2 ^ 31) :
    int32 (((pages : Nat) : Int) * (mc.PAGESIZE : Nat)) = ((pages * mc.PAGESIZE : Nat) : Int) := by
  have e : ((pages : Nat) : Int) * (mc.PAGESIZE : Nat) = ((pages * mc.PAGESIZE : Nat) : Int) := by
    push_cast; rfl
  rw [e]
  exact int32_eq _ (Int.ofNat_nonneg _) (by exact_mod_cast h)

theorem store_long_inv (os os1 : OS) (addr v : Nat) (h : store_long os addr v = Result.ok os1) :
    os1.prot = os.prot ∧ os1.mem addr = v ∧ (∀ x, x ≠ addr → os1.mem x = os.mem x) ∧
    os1.oracle = os.oracle ∧ os1.munmap_log = os.munmap_log ∧ os1.bad_reads = os.bad_reads ∧
    os1.tramp = os.tramp := by
  unfold store_long at h
  cases hp : os.prot addr with
  | none => rw [hp] at h; cases h
  | some f =>
    rw [hp] at h
    simp only at h
    split at h
    · injection h with h
      subst h
      refine ⟨rfl, by simp, fun x hx => by simp [hx], rfl, rfl, rfl, rfl⟩
    · cases h

/-- Lines 107-114 of `fbt_reinit_tls`, when they return: the state is extended by the
mapping table, whose allocation is readable and writable, whose bytes below
`MAPPINGTABLE_SIZE` are zero, and whose word at the offset `MAPPINGTABLE_SIZE` is `1`. -/
theorem reinit_tables_spec (mc : MemConfig) (wf : mc.WF) (os os5 : OS) (tld tld4 : mem_tld)
    (h : reinit_tables mc os tld = Result.ok (os5, tld4)) :
    (∀ x, os.prot x ≠ none → os5.prot x = os.prot x ∧ os5.mem x = os.mem x) ∧
    tld.chunk <:+ tld4.chunk ∧ tld4.self = tld.self ∧ tld4.stack = tld.stack ∧
    tld4.trans.inline_call_RIP = tld.trans.inline_call_RIP ∧
    (∀ x, tld4.mappingtable ≤ x →
      x < tld4.mappingtable + (mc.ccache.MAPPINGTABLE_SIZE / mc.PAGESIZE + 1) * mc.PAGESIZE →
      os5.prot x = some (PROT_READ ||| PROT_WRITE)) ∧
    (∀ off, off < mc.ccache.MAPPINGTABLE_SIZE → os5.mem (tld4.mappingtable + off) = 0) ∧
    os5.mem (tld4.mappingtable + mc.ccache.MAPPINGTABLE_SIZE) = 1 ∧
    (∃ addr, ({ addr := addr, ptr := tld4.mappingtable,
                size := (((mc.ccache.MAPPINGTABLE_SIZE / mc.PAGESIZE + 1) * mc.PAGESIZE : Nat) : Int),
                type := mem_type.MT_MAPPING_TABLE } : mem_info) ∈ tld4.chunk) := by
  unfold reinit_tables at h
  obtain ⟨⟨mt, os2, tld2⟩, h1, h2⟩ := (Result.bind_eq_ok _ _ _).1 h
  simp only at h2
  obtain ⟨⟨os4, tld4a⟩, h3, h4⟩ := (Result.bind_eq_ok _ _ _).1 h2
  simp only at h4
  obtain ⟨os5a, h5, h6⟩ := (Result.bind_eq_ok _ _ _).1 h4
  injection h6 with h6
  injection h6 with e1 e2
  subst e1; subst e2
  obtain ⟨hext1, _, hreg, htr⟩ := fbt_lalloc_ext mc wf os os2 tld tld2 _ _ mt h1
  rw [alloc_size_eq mc _ wf.table_int] at hreg htr
  rw [ulen_ofNat] at hreg
  obtain ⟨addr, rest, hchunk⟩ := htr rfl
  have hext2 : MemExt os2 { tld2 with mappingtable := mt } os4 tld4a ∧ tld4a.mappingtable = mt := by
    cases harm : mc.arm with
    | false =>
      rw [harm] at h3
      simp only [Bool.false_eq_true, if_false] at h3
      injection h3 with h3
      injection h3 with e1 e2
      subst e1; subst e2
      exact ⟨MemExt.refl _ _, rfl⟩
    | true =>
      rw [harm] at h3
      simp only [if_true] at h3
      obtain ⟨⟨pc, os3, tld3⟩, h7, h8⟩ := (Result.bind_eq_ok _ _ _).1 h3
      simp only at h8
      injection h8 with h8
      injection h8 with e1 e2
      subst e1; subst e2
      obtain ⟨hext, _⟩ := fbt_lalloc_ext mc wf os2 os3 _ tld3 _ _ pc h7
      obtain ⟨a1, a2, a3, a4, a5, a6⟩ := hext
      exact ⟨⟨a1, a2, a3, a4, a5, a6⟩, a3⟩
  obtain ⟨⟨b1, b2, b3, b4, b5, b6⟩, hmt⟩ := hext2
  obtain ⟨a1, a2, a3, a4, a5, a6⟩ := hext1
  obtain ⟨s1, s2, s3, _⟩ := store_long_inv os4 os5a _ 1 h5
  have hsize := pages_gt mc.ccache.MAPPINGTABLE_SIZE mc.PAGESIZE wf.page_pos
  have hmapped2 : ∀ x, mt ≤ x →
      x < mt + (mc.ccache.MAPPINGTABLE_SIZE / mc.PAGESIZE + 1) * mc.PAGESIZE →
      os2.prot x ≠ none := by
    intro x hx1 hx2
    rw [(hreg x hx1 hx2).1]
    exact fun e => Option.noConfusion e
  refine ⟨?_, ?_, ?_, ?_, ?_, ?_, ?_, ?_, ?_⟩
  · intro x hx
    have c1 := a1 x hx
    have hx2 : os2.prot x ≠ none := by rw [c1.1]; exact hx
    have c2 := b1 x hx2
    have hne : x ≠ tld4a.mappingtable + mc.ccache.MAPPINGTABLE_SIZE := by
      intro e
      exact hx (hreg x (by omega) (by omega)).2.2
    exact ⟨by rw [s1, c2.1, c1.1], by rw [s3 x hne, c2.2, c1.2]⟩
  · exact a2.trans ((List.suffix_refl _).trans b2)
  · rw [b4]; exact a4
  · rw [b5]; exact a5
  · rw [b6]; exact a6
  · intro x hx1 hx2
    rw [hmt] at hx1 hx2
    rw [s1, (b1 x (hmapped2 x hx1 hx2)).1]
    exact (hreg x hx1 hx2).1
  · intro off hoff
    rw [hmt]
    have hx1 : mt ≤ mt + off := Nat.le_add_right _ _
    have hx2 : mt + off < mt + (mc.ccache.MAPPINGTABLE_SIZE / mc.PAGESIZE + 1) * mc.PAGESIZE := by
      omega
    rw [s3 _ (by rw [hmt]; omega), (b1 _ (hmapped2 _ hx1 hx2)).2]
    exact (hreg _ hx1 hx2).2.1
  · exact s2
  · refine ⟨addr, ?_⟩
    rw [hmt]
    apply b2.subset
    show _ ∈ tld2.chunk
    rw [hchunk]
    exact List.mem_cons_self _ _


/-- A returning `fbt_allocate_new_code_cache` extends the state. -/
theorem fbt_allocate_new_code_cache_ext (mc : MemConfig) (wf : mc.WF) (os os1 : OS)
    (tld tld1 : mem_tld) (h : fbt_allocate_new_code_cache mc os tld = Result.ok (os1, tld1)) :
    MemExt os tld os1 tld1 := by
  unfold fbt_allocate_new_code_cache at h
  obtain ⟨⟨mem, os2, tld2⟩, h1, h2⟩ := (Result.bind_eq_ok _ _ _).1 h
  simp only at h2
  injection h2 with h2
  injection h2 with e1 e2
  subst e1; subst e2
  obtain ⟨⟨a1, a2, a3, a4, a5, a6⟩, _⟩ := fbt_lalloc_ext mc wf os os2 tld tld2 _ _ mem h1
  exact ⟨a1, a2, a3, a4, a5, a6⟩

/-- Lines 123-151 of `fbt_reinit_tls`, when they return, extend the state. -/
theorem reinit_rest_ext (mc : MemConfig) (wf : mc.WF) (os os1 : OS) (tld tld1 : mem_tld)
    (h : reinit_rest mc os tld = Result.ok (os1, tld1)) : MemExt os tld os1 tld1 := by
  unfold reinit_rest at h
  simp only at h
  obtain ⟨⟨os7, tld7⟩, h1, h2⟩ := (Result.bind_eq_ok _ _ _).1 h
  simp only at h2
  have hcc := fbt_allocate_new_code_cache_ext mc wf os7 os1 tld7 tld1 h2
  refine MemExt.trans ?_ hcc
  cases hauth : mc.AUTHORIZE_SYSCALLS with
  | false =>
    rw [hauth] at h1
    simp only [Bool.false_eq_true, if_false] at h1
    injection h1 with h1
    injection h1 with e1 e2
    subst e1; subst e2
    exact ⟨fun _ _ => ⟨rfl, rfl⟩, List.suffix_refl _, rfl, rfl, rfl, rfl⟩
  | true =>
    rw [hauth] at h1
    simp only [if_true] at h1
    obtain ⟨⟨tbl, os6, tld6⟩, h3, h4⟩ := (Result.bind_eq_ok _ _ _).1 h1
    simp only at h4
    split at h4
    · injection h4 with h4
      injection h4 with e1 e2
      subst e1; subst e2
      obtain ⟨⟨a1, a2, a3, a4, a5, a6⟩, _⟩ := fbt_lalloc_ext mc wf os os6 _ tld6 _ _ tbl h3
      exact ⟨a1, a2, a3, a4, a5, a6⟩
    · cases h4

/-- The mapping table after a returning `fbt_reinit_tls`: its allocation of
`MAPPINGTABLE_SIZE / PAGESIZE + 1` pages is tracked, readable and writable, its bytes
below `MAPPINGTABLE_SIZE` are zero, and the word at `MAPPINGTABLE_SIZE` is `1`. -/
theorem reinit_body_table (mc : MemConfig) (wf : mc.WF) (os os1 : OS) (mem : Nat)
    (caller : Option Nat) (base tld1 : mem_tld)
    (h : reinit_body mc os mem caller base = Result.ok (os1, tld1)) :
    (∀ x, tld1.mappingtable ≤ x →
      x < tld1.mappingtable + (mc.ccache.MAPPINGTABLE_SIZE / mc.PAGESIZE + 1) * mc.PAGESIZE →
      os1.prot x = some (PROT_READ ||| PROT_WRITE)) ∧
    (∀ off, off < mc.ccache.MAPPINGTABLE_SIZE → os1.mem (tld1.mappingtable + off) = 0) ∧
    os1.mem (tld1.mappingtable + mc.ccache.MAPPINGTABLE_SIZE) = 1 ∧
    (∃ addr, ({ addr := addr, ptr := tld1.mappingtable,
                size := (((mc.ccache.MAPPINGTABLE_SIZE / mc.PAGESIZE + 1) * mc.PAGESIZE : Nat) : Int),
                type := mem_type.MT_MAPPING_TABLE } : mem_info) ∈ tld1.chunk) := by
  unfold reinit_body at h
  split at h
  · cases h
  split at h
  · cases h
  obtain ⟨⟨os5, tld4⟩, h1, h2⟩ := (Result.bind_eq_ok _ _ _).1 h
  simp only at h2
  obtain ⟨_, _, _, _, _, hprot, hzero, hguard, addr, hrec⟩ :=
    reinit_tables_spec mc wf os os5 _ tld4 h1
  obtain ⟨b1, b2, b3, _, _, _⟩ := reinit_rest_ext mc wf os5 os1 tld4 tld1 h2
  have hsize := pages_gt mc.ccache.MAPPINGTABLE_SIZE mc.PAGESIZE wf.page_pos
  have hkeep : ∀ x, tld4.mappingtable ≤ x →
      x < tld4.mappingtable + (mc.ccache.MAPPINGTABLE_SIZE / mc.PAGESIZE + 1) * mc.PAGESIZE →
      os1.prot x = os5.prot x ∧ os1.mem x = os5.mem x := by
    intro x hx1 hx2
    apply b1
    rw [hprot x hx1 hx2]
    exact fun e => Option.noConfusion e
  rw [b3]
  refine ⟨?_, ?_, ?_, ?_⟩
  · intro x hx1 hx2
    rw [(hkeep x hx1 hx2).1]
    exact hprot x hx1 hx2
  · intro off hoff
    rw [(hkeep _ (Nat.le_add_right _ _) (by omega)).2]
    exact hzero off hoff
  · rw [(hkeep _ (Nat.le_add_right _ _) (by omega)).2]
    exact hguard
  · exact ⟨addr, b2.subset hrec⟩

/-- The mapping table after a returning `fbt_reinit_tls`, for either kind of call. -/
theorem fbt_reinit_tls_table (mc : MemConfig) (wf : mc.WF) (os os1 : OS)
    (otld : Option mem_tld) (tld1 : mem_tld)
    (h : fbt_reinit_tls mc os otld = Result.ok (os1, tld1)) :
    (∀ x, tld1.mappingtable ≤ x →
      x < tld1.mappingtable + (mc.ccache.MAPPINGTABLE_SIZE / mc.PAGESIZE + 1) * mc.PAGESIZE →
      os1.prot x = some (PROT_READ ||| PROT_WRITE)) ∧
    (∀ off, off < mc.ccache.MAPPINGTABLE_SIZE → os1.mem (tld1.mappingtable + off) = 0) ∧
    os1.mem (tld1.mappingtable + mc.ccache.MAPPINGTABLE_SIZE) = 1 ∧
    (∃ addr, ({ addr := addr, ptr := tld1.mappingtable,
                size := (((mc.ccache.MAPPINGTABLE_SIZE / mc.PAGESIZE + 1) * mc.PAGESIZE : Nat) : Int),
                type := mem_type.MT_MAPPING_TABLE } : mem_info) ∈ tld1.chunk) := by
  unfold fbt_reinit_tls at h
  cases otld with
  | none =>
    simp only at h
    cases hm : mmap mc os (scratch_size mc : Nat) (PROT_READ ||| PROT_WRITE) with
    | none => rw [hm] at h; cases h
    | some p =>
      obtain ⟨mem, os2⟩ := p
      rw [hm] at h
      exact reinit_body_table mc wf os2 os1 mem none _ tld1 h
  | some t =>
    simp only at h
    obtain ⟨⟨os2, t1⟩, _, h2⟩ := (Result.bind_eq_ok _ _ _).1 h
    simp only at h2
    cases hc : t1.chunk with
    | nil => rw [hc] at h2; cases h2
    | cons c rest =>
      rw [hc] at h2
      exact reinit_body_table mc wf os2 os1 c.ptr _ _ tld1 h2

/-- A lookup or an insertion that returns changes no entry of the table at an offset
that is not a slot, that is, not a multiple of the entry size below `MAPPINGTABLE_SIZE`. -/
theorem run_outside {cfg : Config} (wf : cfg.WF) (ops : List Call) :
    ∀ (v v1 : thread_local_data), run cfg ops v = Outcome.ret v1 →
      ∀ o, ¬ IsSlot cfg o → v1.mappingtable o = v.mappingtable o := by
  induction ops with
  | nil =>
    intro v v1 h o _
    simp only [run] at h
    injection h with h
    rw [h]
  | cons op rest ih =>
    intro v v1 h o ho
    cases op with
    | add g c =>
      simp only [run] at h
      cases hadd : fbt_ccache_add_entry cfg v g c with
      | fatal => rw [hadd] at h; cases h
      | nofuel => rw [hadd] at h; cases h
      | ret v2 =>
        rw [hadd] at h
        rw [ih v2 v1 h o ho]
        cases hin : inlining cfg v with
        | true =>
          unfold fbt_ccache_add_entry at hadd
          rw [hin] at hadd
          simp only [if_true] at hadd
          injection hadd with hadd
          rw [hadd]
        | false =>
          obtain ⟨d, _, _, _, e⟩ := add_entry_inv cfg v v2 g c hadd hin
          rw [e]
          have hne : o ≠ probe cfg (cfg.C_MAPPING_FUNCTION g) d := by
            intro e1
            exact ho (e1 ▸ probe_isSlot wf (wf.hash_slot g) d)
          simp [Table.write, hne]
    | find g fuel =>
      simp only [run] at h
      cases hfind : fbt_ccache_find cfg fuel v g with
      | fatal => rw [hfind] at h; cases h
      | nofuel => rw [hfind] at h; cases h
      | ret r =>
        obtain ⟨w, v2⟩ := r
        rw [hfind] at h
        rw [ih v2 v1 h o ho]
        obtain ⟨d, _, _, hres⟩ := find_inv cfg fuel v v2 g w hfind
        rcases hres with ⟨_, _, e⟩ | ⟨_, _, _, e⟩
        · rw [e]
        · rw [e]
          by_cases hd : d = 0
          · simp [hd]
          · have hne1 : o ≠ cfg.C_MAPPING_FUNCTION g := by
              intro e1
              exact ho (e1 ▸ wf.hash_slot g)
            have hne2 : o ≠ probe cfg (cfg.C_MAPPING_FUNCTION g) d := by
              intro e1
              exact ho (e1 ▸ probe_isSlot wf (wf.hash_slot g) d)
            simp [hd, Table.swap, hne1, hne2]


/-- C17: let `fbt_reinit_tls` return, called with `NULL` (which is `fbt_init_tls`) or with
the data of a thread (the reinit step of a flush). Then every word of the mapping table
below `MAPPINGTABLE_SIZE` is zero, so every slot has `src == 0`; for every guest address
`g` whose hash is an offset of the table, `fbt_ccache_find(g)` returns `NULL` and changes
nothing, and `fbt_ccache_add_entry(g, c)` returns, outside inlining mode with `(g, c)` in
the home slot of `g`. -/
theorem fbt_reinit_tls_empty_table (mc : MemConfig) (wf : mc.WF) (os os1 : OS)
    (otld : Option mem_tld) (tld1 : mem_tld)
    (h : fbt_reinit_tls mc os otld = Result.ok (os1, tld1)) :
    (∀ off, off < mc.ccache.MAPPINGTABLE_SIZE →
      ((ccache_view mc os1 tld1).mappingtable off).src = 0) ∧
    (∀ g fuel, mc.ccache.C_MAPPING_FUNCTION g < mc.ccache.MAPPINGTABLE_SIZE →
      fbt_ccache_find mc.ccache (fuel + 1) (ccache_view mc os1 tld1) g
        = Outcome.ret (0, ccache_view mc os1 tld1)) ∧
    (∀ g c, mc.ccache.C_MAPPING_FUNCTION g < mc.ccache.MAPPINGTABLE_SIZE →
      ∃ v, fbt_ccache_add_entry mc.ccache (ccache_view mc os1 tld1) g c = Outcome.ret v ∧
        (inlining mc.ccache (ccache_view mc os1 tld1) = false →
          v.mappingtable (mc.ccache.C_MAPPING_FUNCTION g) = { src := g, dst := c })) := by
  obtain ⟨_, hzero, _, _⟩ := fbt_reinit_tls_table mc wf os os1 otld tld1 h
  have hsrc : ∀ off, off < mc.ccache.MAPPINGTABLE_SIZE →
      ((ccache_view mc os1 tld1).mappingtable off).src = 0 := fun off hoff => hzero off hoff
  refine ⟨hsrc, ?_, ?_⟩
  · intro g fuel hg
    unfold fbt_ccache_find
    rw [find_loop_miss mc.ccache g _ fuel _ 0 (hsrc _ hg)]
  · intro g c hg
    cases hin : inlining mc.ccache (ccache_view mc os1 tld1) with
    | true =>
      refine ⟨ccache_view mc os1 tld1, ?_, fun e => by cases e⟩
      unfold fbt_ccache_add_entry
      rw [hin]
      rfl
    | false =>
      refine ⟨_, add_entry_found mc.ccache _ g c 0 hin (fun j hj => by omega) (hsrc _ hg)
        (Or.inl rfl), fun _ => ?_⟩
      simp [Table.write, probe]

set_option maxRecDepth 1000000 in
/-- C17, witness: after `fbt_init_tls`, and after a following `fbt_reinit_tls`, the lookup
of `0xDEAD` returns `NULL`. -/
theorem fbt_reinit_tls_empty_table_witness :
    fbt_ccache_find exampleMem.ccache 1
        (ccache_view exampleMem exampleInit.1 exampleInit.2) 0xDEAD
      = Outcome.ret (0, ccache_view exampleMem exampleInit.1 exampleInit.2) ∧
    ∃ os2 tld2, fbt_reinit_tls exampleMem exampleInit.1 (some exampleInit.2)
        = Result.ok (os2, tld2) ∧
      fbt_ccache_find exampleMem.ccache 1 (ccache_view exampleMem os2 tld2) 0xDEAD
        = Outcome.ret (0, ccache_view exampleMem os2 tld2) :=
  ⟨(fbt_reinit_tls_empty_table exampleMem exampleMem_wf exampleOS exampleInit.1 none
      exampleInit.2 exampleInit_eq).2.1 0xDEAD 0 (by decide),
   _, _, rfl,
   (fbt_reinit_tls_empty_table exampleMem exampleMem_wf exampleInit.1 _ (some exampleInit.2)
      _ rfl).2.1 0xDEAD 0 (by decide)⟩


/-! ## C18: the guard word -/

/-- The entry at a slot ends at or before `MAPPINGTABLE_SIZE`. -/
theorem isSlot_entry_le {cfg : Config} (wf : cfg.WF) {o : Nat} (ho : IsSlot cfg o) :
    o + cfg.sizeof_entry ≤ cfg.MAPPINGTABLE_SIZE := by
  have d : cfg.sizeof_entry ∣ cfg.MAPPINGTABLE_SIZE - o := Nat.dvd_sub' wf.entry_dvd ho.2
  have := Nat.le_of_dvd (by have := ho.1; omega) d
  have := ho.1
  omega

theorem poke_mem (os : OS) (addr v x : Nat) :
    (poke os addr v).mem x = if x = addr then v else os.mem x := rfl

/-- The lookup on the memory stores only to the two words of entries at slots. -/
theorem find_loop_mem_frame (mc : MemConfig) (cwf : mc.ccache.WF) (tld : mem_tld) (g : Nat) :
    ∀ (fuel : Nat) (os : OS) (offset pos r : Nat) (os2 : OS), IsSlot mc.ccache offset →
      find_loop_mem mc tld g fuel os offset pos = Outcome.ret (r, os2) →
      ∀ x, (∀ o, IsSlot mc.ccache o →
          x ≠ tld.mappingtable + o ∧ x ≠ tld.mappingtable + o + mc.sizeof_ptr) →
        os2.mem x = os.mem x := by
  intro fuel
  induction fuel with
  | zero =>
    intro os offset pos r os2 _ h
    simp [find_loop_mem] at h
  | succ n ih =>
    intro os offset pos r os2 hoff h x hx
    simp only [find_loop_mem] at h
    split at h
    · split at h
      · split at h
        · cases h
        · split at h
          · injection h with h
            injection h with _ h
            rw [← h]
            have h1 := hx offset hoff
            have h2 := hx _ (cwf.hash_slot g)
            simp only [poke_mem]
            rw [if_neg h1.2, if_neg h2.2, if_neg h1.1, if_neg h2.1]
          · injection h with h
            injection h with _ h
            rw [h]
      · have hnext : IsSlot mc.ccache (next_offset mc.ccache offset) :=
          probe_isSlot cwf hoff 1
        exact ih os _ _ r os2 hnext h x hx
    · injection h with h
      injection h with _ h
      rw [h]

/-- The insertion on the memory stores only to the two words of an entry at a slot. -/
theorem add_entry_mem_frame (mc : MemConfig) (cwf : mc.ccache.WF) (tld : mem_tld)
    (g c : Nat) (os os2 : OS) (h : fbt_ccache_add_entry_mem mc os tld g c = Outcome.ret os2)
    (x : Nat) (hx : ∀ o, IsSlot mc.ccache o →
      x ≠ tld.mappingtable + o ∧ x ≠ tld.mappingtable + o + mc.sizeof_ptr) :
    os2.mem x = os.mem x := by
  unfold fbt_ccache_add_entry_mem at h
  split at h
  · injection h with h
    rw [h]
  · by_cases hall : ∀ j, j < max (mc.ccache.MAPPINGTABLE_MAXENTRIES / 10) 1 →
        (((ccache_view mc os tld).mappingtable
          (probe mc.ccache (mc.ccache.C_MAPPING_FUNCTION g) j)).src ≠ 0)
    · rw [add_loop_fatal mc.ccache _ _ hall] at h
      cases h
    · push_neg at hall
      obtain ⟨j, hj, hje⟩ := hall
      obtain ⟨d, hd, hde, hdmin⟩ := exists_first
        (fun j => ((ccache_view mc os tld).mappingtable
          (probe mc.ccache (mc.ccache.C_MAPPING_FUNCTION g) j)).src = 0) j hje
      rw [add_loop_found mc.ccache _ _ d hdmin hde (by omega)] at h
      simp only at h
      injection h with h
      rw [← h]
      have h1 := hx _ (probe_isSlot cwf (cwf.hash_slot g) d)
      simp only [poke_mem]
      rw [if_neg h1.2, if_neg h1.1]

/-- Lookups and insertions on the memory store only to the two words of entries at
slots. -/
theorem run_mem_frame (mc : MemConfig) (cwf : mc.ccache.WF) (tld : mem_tld)
    (calls : List Call) :
    ∀ (os os2 : OS), run_mem mc tld calls os = Outcome.ret os2 →
      ∀ x, (∀ o, IsSlot mc.ccache o →
          x ≠ tld.mappingtable + o ∧ x ≠ tld.mappingtable + o + mc.sizeof_ptr) →
        os2.mem x = os.mem x := by
  induction calls with
  | nil =>
    intro os os2 h x _
    simp only [run_mem] at h
    injection h with h
    rw [h]
  | cons call rest ih =>
    intro os os2 h x hx
    cases call with
    | add g c =>
      simp only [run_mem] at h
      cases hadd : fbt_ccache_add_entry_mem mc os tld g c with
      | fatal => rw [hadd] at h; cases h
      | nofuel => rw [hadd] at h; cases h
      | ret os1 =>
        rw [hadd] at h
        rw [ih os1 os2 h x hx]
        exact add_entry_mem_frame mc cwf tld g c os os1 hadd x hx
    | find g fuel =>
      simp only [run_mem] at h
      cases hfind : fbt_ccache_find_mem mc fuel os tld g with
      | fatal => rw [hfind] at h; cases h
      | nofuel => rw [hfind] at h; cases h
      | ret p =>
        obtain ⟨r, os1⟩ := p
        rw [hfind] at h
        rw [ih os1 os2 h x hx]
        exact find_loop_mem_frame mc cwf tld g fuel os _ 0 r os1 (cwf.hash_slot g) hfind x hx

/-- C18 (as amended): let `fbt_reinit_tls` return, called with `NULL` (`fbt_init_tls`)
or with the data of a thread. Then the word at the offset `MAPPINGTABLE_SIZE` from the
base of the mapping table is `1`, and it lies inside the tracked allocation of
`MAPPINGTABLE_SIZE / PAGESIZE + 1` pages of the table. If moreover the table size is a
power of two and a multiple of the entry size, the hash of every address is an
entry-aligned offset below `MAPPINGTABLE_SIZE`, and an entry holds more than one pointer,
then after any sequence of returning `fbt_ccache_add_entry` and `fbt_ccache_find` calls
the word is still `1`: every word whose content has changed is the `src` or the `dst` of
an entry at an entry-aligned offset below `MAPPINGTABLE_SIZE`. -/
theorem guard_word_invariant (mc : MemConfig) (wf : mc.WF) (os os1 : OS)
    (otld : Option mem_tld) (tld1 : mem_tld)
    (h : fbt_reinit_tls mc os otld = Result.ok (os1, tld1)) :
    os1.mem (tld1.mappingtable + mc.ccache.MAPPINGTABLE_SIZE) = 1 ∧
    (∃ addr, ({ addr := addr, ptr := tld1.mappingtable,
                size := (((mc.ccache.MAPPINGTABLE_SIZE / mc.PAGESIZE + 1) * mc.PAGESIZE : Nat) : Int),
                type := mem_type.MT_MAPPING_TABLE } : mem_info) ∈ tld1.chunk) ∧
    mc.ccache.MAPPINGTABLE_SIZE + mc.sizeof_long
      ≤ (mc.ccache.MAPPINGTABLE_SIZE / mc.PAGESIZE + 1) * mc.PAGESIZE ∧
    (mc.ccache.WF → mc.sizeof_ptr < mc.ccache.sizeof_entry →
      ∀ calls os2, run_mem mc tld1 calls os1 = Outcome.ret os2 →
        os2.mem (tld1.mappingtable + mc.ccache.MAPPINGTABLE_SIZE) = 1 ∧
        ∀ x, os2.mem x ≠ os1.mem x → ∃ o, IsSlot mc.ccache o ∧
          (x = tld1.mappingtable + o ∨ x = tld1.mappingtable + o + mc.sizeof_ptr)) := by
  obtain ⟨_, _, hguard, hrec⟩ := fbt_reinit_tls_table mc wf os os1 otld tld1 h
  refine ⟨hguard, hrec,
    pages_guard _ _ _ wf.page_pos wf.long_dvd_size wf.long_dvd_page, ?_⟩
  intro cwf hptr calls os2 hrun
  have hframe := run_mem_frame mc cwf tld1 calls os1 os2 hrun
  refine ⟨?_, ?_⟩
  · rw [hframe _ (fun o ho => ?_)]
    · exact hguard
    · have := isSlot_entry_le cwf ho
      constructor <;> omega
  · intro x hne
    by_contra hno
    push_neg at hno
    exact hne (hframe x (fun o ho => ⟨(hno o ho).1, (hno o ho).2⟩))

set_option maxRecDepth 1000000 in
/-- C18, witness: after `fbt_init_tls` the guard word is `1`, and it is `1` after an
insertion and a lookup. -/
theorem guard_word_invariant_witness :
    exampleInit.1.mem (exampleInit.2.mappingtable + exampleMem.ccache.MAPPINGTABLE_SIZE) = 1 ∧
    ∃ os2, run_mem exampleMem exampleInit.2 [Call.add 0xA000 0xC000, Call.find 0xA000 8]
        exampleInit.1 = Outcome.ret os2 ∧
      os2.mem (exampleInit.2.mappingtable + exampleMem.ccache.MAPPINGTABLE_SIZE) = 1 :=
  ⟨(guard_word_invariant exampleMem exampleMem_wf exampleOS exampleInit.1 none exampleInit.2
      exampleInit_eq).1,
   _, rfl,
   ((guard_word_invariant exampleMem exampleMem_wf exampleOS exampleInit.1 none exampleInit.2
      exampleInit_eq).2.2.2 exampleConfig_wf (by decide)
      [Call.add 0xA000 0xC000, Call.find 0xA000 8] _ rfl).1⟩

set_option maxRecDepth 1000000 in
/-- C18, counterexample: a table of `256 = 2^5 * 8` bytes with entries of 8 bytes and a
hash whose values are below 256, namely 252. After `fbt_init_tls` the guard word is `1`;
`fbt_ccache_add_entry(0xA000, 0xC000)` returns, its entry starts at the offset 252, and
its `dst` is the guard word, which is `0xC000` afterwards. -/
theorem guard_word_unaligned_hash :
    (∀ g, unalignedMem.ccache.C_MAPPING_FUNCTION g < unalignedMem.ccache.MAPPINGTABLE_SIZE) ∧
    unalignedMem.ccache.MAPPINGTABLE_SIZE = 2 ^ 5 * unalignedMem.ccache.sizeof_entry ∧
    ∃ os1 tld1 os2, fbt_init_tls unalignedMem exampleOS = Result.ok (os1, tld1) ∧
      os1.mem (tld1.mappingtable + unalignedMem.ccache.MAPPINGTABLE_SIZE) = 1 ∧
      run_mem unalignedMem tld1 [Call.add 0xA000 0xC000] os1 = Outcome.ret os2 ∧
      os2.mem (tld1.mappingtable + unalignedMem.ccache.MAPPINGTABLE_SIZE) = 0xC000 :=
  ⟨fun _ => (by decide : (252 : Nat) < 256), by decide, _, _, _, rfl, rfl, rfl, rfl⟩


/-! ## C19: the free list of trampolines -/

/-- The free list is read through the `next` fields only. -/
theorem isFreelist_congr (h h1 : Nat → trampoline) (hn : ∀ x, (h1 x).next = (h x).next) :
    ∀ (l : List Nat) (head : Nat), IsFreelist h head l → IsFreelist h1 head l := by
  intro l
  induction l with
  | nil => intro head hl; exact hl
  | cons t rest ih =>
    intro head hl
    obtain ⟨e, ht, hr⟩ := hl
    exact ⟨e, ht, by rw [hn t]; exact ih _ hr⟩

/-- The loop of `fbt_allocate_new_trampolines`: after `n` rounds from the trampoline `a`
the cursor is `n` trampolines further, each trampoline passed points to the one after
it, and nothing else has changed. -/
theorem link_trampolines_spec (mc : MemConfig) (hsz : 0 < mc.sizeof_trampoline) :
    ∀ (n : Nat) (h : Nat → trampoline) (a : Nat),
      (link_trampolines mc n h a).2 = a + n * mc.sizeof_trampoline ∧
      (∀ i, i < n → ((link_trampolines mc n h a).1 (a + i * mc.sizeof_trampoline)).next
        = a + (i + 1) * mc.sizeof_trampoline) ∧
      (∀ x, (∀ i, i < n → x ≠ a + i * mc.sizeof_trampoline) →
        (link_trampolines mc n h a).1 x = h x) := by
  intro n
  induction n with
  | zero =>
    intro h a
    refine ⟨by simp [link_trampolines], fun i hi => by omega, fun x _ => rfl⟩
  | succ n ih =>
    intro h a
    obtain ⟨e1, e2, e3⟩ := ih (set_next h a (a + mc.sizeof_trampoline))
      (a + mc.sizeof_trampoline)
    simp only [link_trampolines]
    refine ⟨?_, ?_, ?_⟩
    · rw [e1, Nat.add_mul, Nat.one_mul]; omega
    · intro i hi
      cases i with
      | zero =>
        rw [Nat.zero_mul, Nat.add_zero, e3 a]
        · simp [set_next]
        · intro j _
          have : 0 ≤ j * mc.sizeof_trampoline := Nat.zero_le _
          omega
      | succ j =>
        have hj := e2 j (by omega)
        have ea : a + (j + 1) * mc.sizeof_trampoline
            = a + mc.sizeof_trampoline + j * mc.sizeof_trampoline := by
          rw [Nat.add_mul, Nat.one_mul]; omega
        rw [ea, hj, Nat.add_mul (j + 1) 1, Nat.one_mul, Nat.add_mul, Nat.one_mul]
        omega
    · intro x hx
      rw [e3 x]
      · have h0 := hx 0 (by omega)
        rw [Nat.zero_mul, Nat.add_zero] at h0
        simp [set_next, h0]
      · intro j hj
        have := hx (j + 1) (by omega)
        rw [Nat.add_mul, Nat.one_mul] at this
        omega

/-- Consecutive trampolines that point to one another, the last one to the head of a
free list, are a free list. -/
theorem isFreelist_chain (mc : MemConfig) (h : Nat → trampoline) (t : Nat) (l : List Nat)
    (ht : IsFreelist h t l) :
    ∀ (n a : Nat), a ≠ 0 →
      (∀ i, i < n → (h (a + i * mc.sizeof_trampoline)).next
        = a + (i + 1) * mc.sizeof_trampoline) →
      (h (a + n * mc.sizeof_trampoline)).next = t →
      IsFreelist h a (consecutive mc a (n + 1) ++ l) := by
  have key : ∀ k, (k + 1) * mc.sizeof_trampoline
      = k * mc.sizeof_trampoline + mc.sizeof_trampoline :=
    fun k => by rw [Nat.add_mul, Nat.one_mul]
  have hlist : ∀ n a, consecutive mc a (n + 1)
      = a :: consecutive mc (a + mc.sizeof_trampoline) n := by
    intro n a
    unfold consecutive
    rw [List.range_succ_eq_map, List.map_cons, List.map_map]
    simp only [Nat.zero_mul, Nat.add_zero]
    congr 1
    apply List.map_congr_left
    intro i _
    simp only [Function.comp, Nat.succ_eq_add_one]
    rw [key]
    omega
  intro n
  induction n with
  | zero =>
    intro a ha _ hlast
    rw [Nat.zero_mul, Nat.add_zero] at hlast
    rw [hlist]
    show IsFreelist h a (a :: l)
    exact ⟨rfl, ha, by rw [hlast]; exact ht⟩
  | succ n ih =>
    intro a ha hlink hlast
    have h0 := hlink 0 (by omega)
    rw [Nat.zero_mul, Nat.add_zero, Nat.zero_add, Nat.one_mul] at h0
    have ea : ∀ i, a + mc.sizeof_trampoline + i * mc.sizeof_trampoline
        = a + (i + 1) * mc.sizeof_trampoline := by
      intro i
      rw [key]
      omega
    have hrec := ih (a + mc.sizeof_trampoline) (by omega)
      (fun i hi => by rw [ea, ea]; exact hlink (i + 1) (by omega))
      (by rw [ea]; exact hlast)
    rw [hlist, List.cons_append]
    exact ⟨rfl, ha, by rw [h0]; exact hrec⟩

/-- Consecutive trampolines of a positive size are pairwise distinct. -/
theorem consecutive_nodup (mc : MemConfig) (hsz : 0 < mc.sizeof_trampoline) (a n : Nat) :
    (consecutive mc a n).Nodup := by
  unfold consecutive
  apply List.Nodup.map _ (List.nodup_range n)
  intro i j hij
  simp only at hij
  have : i * mc.sizeof_trampoline = j * mc.sizeof_trampoline := by omega
  exact Nat.eq_of_mul_eq_mul_right hsz this

/-- A returning `fbt_lalloc` leaves the translator state, the stack pointer and the
trampoline pointers as they were. -/
theorem fbt_lalloc_trans (mc : MemConfig) (wf : mc.WF) (os os2 : OS) (tld tld2 : mem_tld)
    (pages : Int) (type : mem_type) (r : Nat)
    (h : fbt_lalloc mc os tld pages type = Result.ok (r, os2, tld2)) :
    tld2.trans = tld.trans ∧ tld2.stack = tld.stack ∧
    tld2.unmanaged_code_trampoline = tld.unmanaged_code_trampoline := by
  obtain ⟨_, chunk, os1, tld1, hs, _, ht⟩ := fbt_lalloc_inv mc os os2 tld tld2 pages type r h
  obtain ⟨_, _, hc⟩ := fbt_smalloc_inv mc wf os os1 tld tld1 _ chunk hs
  have h1 : tld1.trans = tld.trans ∧ tld1.stack = tld.stack ∧
      tld1.unmanaged_code_trampoline = tld.unmanaged_code_trampoline := by
    rcases hc with ⟨_, _, _, rfl⟩ | ⟨_, mem, _, _, rfl⟩ <;> exact ⟨rfl, rfl, rfl⟩
  rw [ht]
  split <;> exact h1


theorem consecutive_succ (mc : MemConfig) (a n : Nat) :
    consecutive mc a (n + 1) = a :: consecutive mc (a + mc.sizeof_trampoline) n := by
  unfold consecutive
  rw [List.range_succ_eq_map, List.map_cons, List.map_map]
  simp only [Nat.zero_mul, Nat.add_zero]
  congr 1
  apply List.map_congr_left
  intro i _
  simp only [Function.comp, Nat.succ_eq_add_one]
  rw [Nat.add_mul, Nat.one_mul]
  omega

/-- The refill of the free list: when the free list is empty and `fbt_lalloc` returns the
new pool `mem`, `fbt_allocate_new_trampolines` returns, and the free list is the
`ALLOC_TRAMPOLINES` consecutive trampolines of the pool. -/
theorem fbt_allocate_new_trampolines_spec (mc : MemConfig) (wf : mc.WF) (os os2 : OS)
    (tld tld2 : mem_tld) (mem : Nat) (hempty : tld.trans.trampos = 0)
    (hsz : 0 < mc.sizeof_trampoline) (hN : 1 ≤ mc.ALLOC_TRAMPOLINES)
    (hl : fbt_lalloc mc os tld
      (int32 (page_count mc (mc.ALLOC_TRAMPOLINES * mc.sizeof_trampoline) : Nat))
      mem_type.MT_TRAMPOLINE = Result.ok (mem, os2, tld2)) :
    ∃ os3 tld3, fbt_allocate_new_trampolines mc os tld = Result.ok (os3, tld3) ∧
      os3.prot = os2.prot ∧ tld3.chunk = tld2.chunk ∧ tld3.trans.trampos = mem ∧
      tld3.stack = tld.stack ∧
      tld3.unmanaged_code_trampoline = tld.unmanaged_code_trampoline ∧
      IsFreelist os3.tramp mem (consecutive mc mem mc.ALLOC_TRAMPOLINES) := by
  obtain ⟨htr, hst, hun⟩ := fbt_lalloc_trans mc wf os os2 tld tld2 _ _ mem hl
  obtain ⟨_, chunk, os1, tld1, _, hm, _⟩ := fbt_lalloc_inv mc os os2 tld tld2 _ _ mem hl
  have hmem : mem ≠ 0 := (mmap_inv mc os1 os2 _ _ mem hm).2.1
  have halloc : fbt_allocate_new_trampolines mc os tld = Result.ok
      ({ os2 with tramp :=
          (set_next (link_trampolines mc (mc.ALLOC_TRAMPOLINES - 1) os2.tramp mem).1
            (link_trampolines mc (mc.ALLOC_TRAMPOLINES - 1) os2.tramp mem).2
            tld2.trans.trampos) },
        { tld2 with trans := { tld2.trans with trampos := mem } }) := by
    unfold fbt_allocate_new_trampolines
    simp only
    rw [hl]
    rfl
  refine ⟨_, _, halloc, rfl, rfl, rfl, hst, hun, ?_⟩
  obtain ⟨e1, e2, e3⟩ := link_trampolines_spec mc hsz (mc.ALLOC_TRAMPOLINES - 1) os2.tramp mem
  have hN1 : mc.ALLOC_TRAMPOLINES = mc.ALLOC_TRAMPOLINES - 1 + 1 := by omega
  have hres := isFreelist_chain mc
    (set_next (link_trampolines mc (mc.ALLOC_TRAMPOLINES - 1) os2.tramp mem).1
      (link_trampolines mc (mc.ALLOC_TRAMPOLINES - 1) os2.tramp mem).2 tld2.trans.trampos)
    0 [] rfl (mc.ALLOC_TRAMPOLINES - 1) mem hmem
    (fun i hi => by
      have hne : mem + i * mc.sizeof_trampoline
          ≠ (link_trampolines mc (mc.ALLOC_TRAMPOLINES - 1) os2.tramp mem).2 := by
        rw [e1]
        intro e
        have : i * mc.sizeof_trampoline = (mc.ALLOC_TRAMPOLINES - 1) * mc.sizeof_trampoline := by
          omega
        have := Nat.eq_of_mul_eq_mul_right hsz this
        omega
      simp only [set_next, if_neg hne]
      exact e2 i hi)
    (by
      rw [← e1]
      simp only [set_next, if_true]
      rw [htr]
      exact hempty)
  rw [List.append_nil, ← hN1] at hres
  exact hres


theorem create_pop (mc : MemConfig) (os : OS) (tld : mem_tld)
    (call_target origin origin_t t : Nat) (rest : List Nat)
    (hl : IsFreelist os.tramp tld.trans.trampos (t :: rest)) :
      ∃ os1 tld1, fbt_create_trampoline mc os tld call_target origin origin_t
          = Result.ok (t, os1, tld1) ∧
        (os1.tramp t).target = call_target ∧ (os1.tramp t).origin = origin ∧
        (os1.tramp t).origin_t = origin_t ∧
        IsFreelist os1.tramp tld1.trans.trampos rest ∧
        IsFreelist (fbt_trampoline_free os1 tld1 t).1.tramp
          (fbt_trampoline_free os1 tld1 t).2.trans.trampos (t :: rest) := by
  obtain ⟨e, ht, hr⟩ := hl
  have hne : ¬ tld.trans.trampos = 0 := by rw [e]; exact ht
  have hcreate : fbt_create_trampoline mc os tld call_target origin origin_t
      = Result.ok (t,
        { os with tramp := fun x =>
            if x = t then
              { os.tramp t with
                target := call_target
                origin := origin
                origin_t := origin_t
                code := mc.trampoline_code tld.stack tld.unmanaged_code_trampoline }
            else os.tramp x },
        { tld with trans := { tld.trans with trampos := (os.tramp t).next } }) := by
    unfold fbt_create_trampoline
    rw [if_neg hne, ← e]
    rfl
  have hnext : ∀ x, ((fun x => if x = t then
              ({ os.tramp t with
                target := call_target
                origin := origin
                origin_t := origin_t
                code := mc.trampoline_code tld.stack tld.unmanaged_code_trampoline } : trampoline)
            else os.tramp x) x).next = (os.tramp x).next := by
    intro x
    by_cases hx : x = t
    · simp only [if_pos hx, hx]
      rfl
    · simp only [if_neg hx]
  refine ⟨_, _, hcreate, ?_, ?_, ?_, ?_, ?_⟩
  · simp only [↓reduceIte]
  · simp only [↓reduceIte]
  · simp only [↓reduceIte]
  · exact isFreelist_congr os.tramp _ hnext rest _ hr
  · refine ⟨rfl, ht, ?_⟩
    have hfree : IsFreelist
        (set_next (fun x => if x = t then
              ({ os.tramp t with
                target := call_target
                origin := origin
                origin_t := origin_t
                code := mc.trampoline_code tld.stack tld.unmanaged_code_trampoline } : trampoline)
            else os.tramp x) t (os.tramp t).next) (os.tramp t).next rest := by
      apply isFreelist_congr os.tramp _ _ rest _ hr
      intro x
      simp only [set_next]
      by_cases hx : x = t
      · simp only [if_pos hx, hx, ↓reduceIte]
      · simp only [if_neg hx]
    have hhead : (set_next (fun x => if x = t then
              ({ os.tramp t with
                target := call_target
                origin := origin
                origin_t := origin_t
                code := mc.trampoline_code tld.stack tld.unmanaged_code_trampoline } : trampoline)
            else os.tramp x) t (os.tramp t).next t).next = (os.tramp t).next := by
      simp only [set_next, ↓reduceIte]
    show IsFreelist (set_next _ t (os.tramp t).next) (set_next _ t (os.tramp t).next t).next rest
    rw [hhead]
    exact hfree

/-- The size of the pool of trampolines when it fits an `int`. -/
theorem trampo_size_eq (mc : MemConfig) (wf : mc.WF)
    (htp : page_count mc (mc.ALLOC_TRAMPOLINES * mc.sizeof_trampoline) * mc.PAGESIZE < 2 ^ 31) :
    int32 (int32 (page_count mc (mc.ALLOC_TRAMPOLINES * mc.sizeof_trampoline) : Nat)
      * (mc.PAGESIZE : Nat))
      = ((page_count mc (mc.ALLOC_TRAMPOLINES * mc.sizeof_trampoline) * mc.PAGESIZE : Nat)
          : Int) := by
  have hpc : (page_count mc (mc.ALLOC_TRAMPOLINES * mc.sizeof_trampoline)) < 2 ^ 31 := by
    have := wf.page_pos
    calc page_count mc (mc.ALLOC_TRAMPOLINES * mc.sizeof_trampoline)
        ≤ page_count mc (mc.ALLOC_TRAMPOLINES * mc.sizeof_trampoline) * mc.PAGESIZE :=
          Nat.le_mul_of_pos_right _ this
      _ < 2 ^ 31 := htp
  rw [int32_eq _ (Int.ofNat_nonneg _) (by exact_mod_cast hpc), alloc_size_eq mc _ htp]

theorem create_refill (mc : MemConfig) (wf : mc.WF) (os : OS) (tld : mem_tld)
    (call_target origin origin_t : Nat)
    (hempty : tld.trans.trampos = 0) (hsz : 0 < mc.sizeof_trampoline)
    (hN : 1 ≤ mc.ALLOC_TRAMPOLINES)
    (mem : Nat) (os2 : OS) (tld2 : mem_tld)
    (hl : fbt_lalloc mc os tld
          (int32 (page_count mc (mc.ALLOC_TRAMPOLINES * mc.sizeof_trampoline) : Nat))
          mem_type.MT_TRAMPOLINE = Result.ok (mem, os2, tld2)) :
    ∃ os1 tld1, fbt_create_trampoline mc os tld call_target origin origin_t
        = Result.ok (mem, os1, tld1) ∧
      os1.prot = os2.prot ∧ tld1.chunk = tld2.chunk ∧
      (os1.tramp mem).target = call_target ∧ (os1.tramp mem).origin = origin ∧
      (os1.tramp mem).origin_t = origin_t ∧
      IsFreelist os1.tramp tld1.trans.trampos
        (consecutive mc (mem + mc.sizeof_trampoline) (mc.ALLOC_TRAMPOLINES - 1)) := by
  obtain ⟨os3, tld3, halloc, hprot, hchunk, htrampos, _, _, hfree⟩ :=
    fbt_allocate_new_trampolines_spec mc wf os os2 tld tld2 mem hempty hsz hN hl
  have hN1 : mc.ALLOC_TRAMPOLINES = mc.ALLOC_TRAMPOLINES - 1 + 1 := by omega
  have hcons : consecutive mc mem mc.ALLOC_TRAMPOLINES
      = mem :: consecutive mc (mem + mc.sizeof_trampoline) (mc.ALLOC_TRAMPOLINES - 1) := by
    rw [← consecutive_succ, ← hN1]
  rw [hcons] at hfree
  have hl3 : IsFreelist os3.tramp tld3.trans.trampos
      (mem :: consecutive mc (mem + mc.sizeof_trampoline) (mc.ALLOC_TRAMPOLINES - 1)) := by
    rw [htrampos]; exact hfree
  obtain ⟨os1, tld1, hc, h1, h2, h3, h4, _⟩ :=
    create_pop mc os3 tld3 call_target origin origin_t mem _ hl3
  have hbind : fbt_create_trampoline mc os tld call_target origin origin_t
      = fbt_create_trampoline mc os3 tld3 call_target origin origin_t := by
    have hne : ¬ tld3.trans.trampos = 0 := by rw [htrampos]; exact hfree.2.1
    unfold fbt_create_trampoline
    rw [if_pos hempty, halloc, if_neg hne]
  have hc1 := hc
  unfold fbt_create_trampoline at hc1
  have hne : ¬ tld3.trans.trampos = 0 := by rw [htrampos]; exact hfree.2.1
  rw [if_neg hne] at hc1
  simp only [Result.bind] at hc1
  injection hc1 with hc1
  injection hc1 with _ hc1
  injection hc1 with hos htld
  refine ⟨os1, tld1, hbind.trans hc, ?_, ?_, h1, h2, h3, h4⟩
  · rw [← hos]; exact hprot
  · rw [← htld]; exact hchunk

/-- C19: let `t :: rest` be the free list of trampolines. `fbt_create_trampoline` returns
`t`, with `target`, `origin` and `origin_t` set to the arguments, and leaves the free list
`rest`; `fbt_trampoline_free(t)` after it makes the free list `t :: rest` again. Let the
free list be empty, with trampolines of a positive size, `ALLOC_TRAMPOLINES >= 1`, and a
pool whose size in bytes covers them and fits an `int`: when the `fbt_lalloc` call for
the pool returns `mem`, `fbt_create_trampoline` returns `mem`, the first of the
`ALLOC_TRAMPOLINES` consecutive, pairwise distinct trampolines that lie in the region of
the new chunk of the type `MT_TRAMPOLINE` at the head of the chunk list, a region that was
not mapped before; the other `ALLOC_TRAMPOLINES - 1`, in their order, are the free
list. -/
theorem trampoline_freelist (mc : MemConfig) (wf : mc.WF) (os : OS) (tld : mem_tld)
    (call_target origin origin_t : Nat) :
    (∀ t rest, IsFreelist os.tramp tld.trans.trampos (t :: rest) →
      ∃ os1 tld1, fbt_create_trampoline mc os tld call_target origin origin_t
          = Result.ok (t, os1, tld1) ∧
        (os1.tramp t).target = call_target ∧ (os1.tramp t).origin = origin ∧
        (os1.tramp t).origin_t = origin_t ∧
        IsFreelist os1.tramp tld1.trans.trampos rest ∧
        IsFreelist (fbt_trampoline_free os1 tld1 t).1.tramp
          (fbt_trampoline_free os1 tld1 t).2.trans.trampos (t :: rest)) ∧
    (IsFreelist os.tramp tld.trans.trampos [] → 0 < mc.sizeof_trampoline →
      1 ≤ mc.ALLOC_TRAMPOLINES →
      page_count mc (mc.ALLOC_TRAMPOLINES * mc.sizeof_trampoline) * mc.PAGESIZE < 2 ^ 31 →
      mc.ALLOC_TRAMPOLINES * mc.sizeof_trampoline
        ≤ page_count mc (mc.ALLOC_TRAMPOLINES * mc.sizeof_trampoline) * mc.PAGESIZE →
      ∀ mem os2 tld2, fbt_lalloc mc os tld
          (int32 (page_count mc (mc.ALLOC_TRAMPOLINES * mc.sizeof_trampoline) : Nat))
          mem_type.MT_TRAMPOLINE = Result.ok (mem, os2, tld2) →
        ∃ os1 tld1, fbt_create_trampoline mc os tld call_target origin origin_t
            = Result.ok (mem, os1, tld1) ∧
          (∃ addr restc, tld1.chunk =
            { addr := addr, ptr := mem,
              size := page_count mc (mc.ALLOC_TRAMPOLINES * mc.sizeof_trampoline) * mc.PAGESIZE,
              type := mem_type.MT_TRAMPOLINE } :: restc) ∧
          (∀ x, mem ≤ x →
            x < mem + page_count mc (mc.ALLOC_TRAMPOLINES * mc.sizeof_trampoline) * mc.PAGESIZE →
            os.prot x = none ∧
            os1.prot x = some (PROT_READ ||| PROT_WRITE ||| PROT_EXEC)) ∧
          (consecutive mc mem mc.ALLOC_TRAMPOLINES).Nodup ∧
          (∀ a ∈ consecutive mc mem mc.ALLOC_TRAMPOLINES, mem ≤ a ∧
            a + mc.sizeof_trampoline ≤ mem
              + page_count mc (mc.ALLOC_TRAMPOLINES * mc.sizeof_trampoline) * mc.PAGESIZE) ∧
          consecutive mc mem mc.ALLOC_TRAMPOLINES
            = mem :: consecutive mc (mem + mc.sizeof_trampoline) (mc.ALLOC_TRAMPOLINES - 1) ∧
          (os1.tramp mem).target = call_target ∧ (os1.tramp mem).origin = origin ∧
          (os1.tramp mem).origin_t = origin_t ∧
          IsFreelist os1.tramp tld1.trans.trampos
            (consecutive mc (mem + mc.sizeof_trampoline) (mc.ALLOC_TRAMPOLINES - 1))) := by
  refine ⟨fun t rest hl => create_pop mc os tld call_target origin origin_t t rest hl, ?_⟩
  intro hempty hsz hN htp hfit mem os2 tld2 hl
  obtain ⟨os1, tld1, hc, hprot, hchunk, h1, h2, h3, hfree⟩ :=
    create_refill mc wf os tld call_target origin origin_t hempty hsz hN mem os2 tld2 hl
  have hN1 : mc.ALLOC_TRAMPOLINES = mc.ALLOC_TRAMPOLINES - 1 + 1 := by omega
  have hcons : consecutive mc mem mc.ALLOC_TRAMPOLINES
      = mem :: consecutive mc (mem + mc.sizeof_trampoline) (mc.ALLOC_TRAMPOLINES - 1) := by
    rw [← consecutive_succ, ← hN1]
  obtain ⟨_, _, hreg, htrack⟩ := fbt_lalloc_ext mc wf os os2 tld tld2 _ _ mem hl
  rw [trampo_size_eq mc wf htp] at hreg htrack
  rw [ulen_ofNat] at hreg
  rw [Nat.cast_mul] at htrack
  obtain ⟨addr, restc, hc2⟩ := htrack rfl
  refine ⟨os1, tld1, hc, ⟨addr, restc, hchunk.trans hc2⟩, ?_, consecutive_nodup mc hsz _ _, ?_,
    hcons, h1, h2, h3, hfree⟩
  · intro x hx1 hx2
    have := hreg x hx1 hx2
    exact ⟨this.2.2, by rw [hprot]; exact this.1⟩
  · intro a ha
    unfold consecutive at ha
    obtain ⟨i, hi, rfl⟩ := List.mem_map.1 ha
    have hi2 : i < mc.ALLOC_TRAMPOLINES := List.mem_range.1 hi
    have h4 : (i + 1) * mc.sizeof_trampoline
        ≤ mc.ALLOC_TRAMPOLINES * mc.sizeof_trampoline :=
      Nat.mul_le_mul_right _ (by omega)
    rw [Nat.add_mul, Nat.one_mul] at h4
    omega

set_option maxRecDepth 1000000 in
/-- C19, witness: a thread with the free list `1800, 1808, 1816`:
`fbt_create_trampoline` returns `1800` and leaves `1808, 1816`, and
`fbt_trampoline_free(1800)` makes the free list `1800, 1808, 1816` again. A thread with
an empty free list: `fbt_create_trampoline` takes a pool of 4 trampolines of 8 bytes at
`1792`, returns the first and leaves the free list `1800, 1808, 1816`. -/
theorem trampoline_freelist_witness :
    (∃ os1 tld1, fbt_create_trampoline exampleMem listOS listTld 0xA1 0xB1 2
        = Result.ok (1800, os1, tld1) ∧
      (os1.tramp 1800).target = 0xA1 ∧
      IsFreelist os1.tramp tld1.trans.trampos [1808, 1816] ∧
      IsFreelist (fbt_trampoline_free os1 tld1 1800).1.tramp
        (fbt_trampoline_free os1 tld1 1800).2.trans.trampos [1800, 1808, 1816]) ∧
    (∃ os1 tld1, fbt_create_trampoline exampleMem trampOS trampTld 0xA0 0xB0 1
        = Result.ok (1792, os1, tld1) ∧
      (os1.tramp 1792).target = 0xA0 ∧
      IsFreelist os1.tramp tld1.trans.trampos [1800, 1808, 1816]) :=
  ⟨match (trampoline_freelist exampleMem exampleMem_wf listOS listTld
        0xA1 0xB1 2).1 1800 [1808, 1816] (by decide) with
    | ⟨os1, tld1, hc, ht, _, _, hf, hb⟩ => ⟨os1, tld1, hc, ht, hf, hb⟩,
   match (trampoline_freelist exampleMem exampleMem_wf trampOS trampTld
        0xA0 0xB0 1).2 (by decide) (by decide) (by decide) (by decide) (by decide)
        1792 _ _ rfl with
    | ⟨os1, tld1, hc, _, _, _, _, _, ht, _, _, hf⟩ => ⟨os1, tld1, hc, ht, hf⟩⟩


/-! ## C23: termination of the probe loops -/

/-- The loop of the lookup ends, with a result or at its assertion, when the probe chain
reaches the key or an empty slot within the fuel. -/
theorem find_loop_ends (cfg : Config) (g : Nat) (t : Table) (h d fuel pos : Nat)
    (hd : (t (probe cfg h d)).src = g ∨ (t (probe cfg h d)).src = 0) (hf : d < fuel) :
    find_loop cfg g t fuel h pos ≠ Outcome.nofuel := by
  obtain ⟨d0, hd0, hP, hmin⟩ := exists_first
    (fun j => (t (probe cfg h j)).src = g ∨ (t (probe cfg h j)).src = 0) d hd
  have hskip : ∀ j, j < d0 → (t (probe cfg h j)).src ≠ 0 ∧ (t (probe cfg h j)).src ≠ g := by
    intro j hj
    have := hmin j hj
    push_neg at this
    exact ⟨this.2, this.1⟩
  have hfuel : fuel = (fuel - d0 - 1 + 1) + d0 := by omega
  rw [hfuel, find_loop_skip cfg g t d0 _ h pos hskip]
  simp only [find_loop]
  split_ifs with h1 h2 h3 h4
  · exact fun e => Outcome.noConfusion e
  · exact fun e => Outcome.noConfusion e
  · exact fun e => Outcome.noConfusion e
  · exfalso
    rcases hP with hP | hP
    · exact h2 hP.symm
    · exact h1 hP
  · exact fun e => Outcome.noConfusion e

/-- The search loop of the insertion ends within `max (MAPPINGTABLE_MAXENTRIES/10) 1`
evaluations of its condition. -/
theorem add_loop_ends (cfg : Config) (t : Table) (h : Nat) :
    add_loop cfg t (max (cfg.MAPPINGTABLE_MAXENTRIES / 10) 1) h 0 ≠ Outcome.nofuel := by
  by_cases hall : ∀ j, j < max (cfg.MAPPINGTABLE_MAXENTRIES / 10) 1 →
      (t (probe cfg h j)).src ≠ 0
  · have hf : max (cfg.MAPPINGTABLE_MAXENTRIES / 10) 1
        = 1 + (max (cfg.MAPPINGTABLE_MAXENTRIES / 10) 1 - 1) := by omega
    rw [hf, add_loop_skip cfg t _ _ h 0 (fun j hj => hall j (by omega)) (by omega)]
    have h1 := hall (max (cfg.MAPPINGTABLE_MAXENTRIES / 10) 1 - 1) (by omega)
    simp only [add_loop]
    rw [if_pos h1, if_pos (by omega)]
    exact fun e => Outcome.noConfusion e
  · push_neg at hall
    obtain ⟨j, hj, hje⟩ := hall
    obtain ⟨d, hd, hde, hdmin⟩ := exists_first
      (fun j => (t (probe cfg h j)).src = 0) j hje
    have hf : max (cfg.MAPPINGTABLE_MAXENTRIES / 10) 1
        = (max (cfg.MAPPINGTABLE_MAXENTRIES / 10) 1 - d - 1 + 1) + d := by omega
    rw [hf, add_loop_skip cfg t d _ h 0 hdmin (by omega)]
    simp only [add_loop]
    rw [if_neg (by rw [hde]; exact fun e => e rfl)]
    exact fun e => Outcome.noConfusion e

/-- C23: `fbt_ccache_find(g)` ends, by returning or at its assertion, whenever the probe
chain from `hash(g)` has a slot with `src == g` or an empty slot at a displacement below
the fuel; in particular, for a table size that is a power of two and a multiple of the
entry size and entry-aligned hash values, on every table with an empty slot, within as
many probes as the table has slots. `fbt_ccache_add_entry` ends on every table, by
returning or by the fatal exit; its search loop evaluates its condition at most
`max (MAPPINGTABLE_MAXENTRIES / 10) 1` times, which for `MAPPINGTABLE_MAXENTRIES >= 10`
is at most `MAPPINGTABLE_MAXENTRIES / 10` probe steps. -/
theorem probe_loops_terminate (cfg : Config) (tld : thread_local_data) (g c : Nat) :
    (∀ d fuel, ((tld.mappingtable (probe cfg (cfg.C_MAPPING_FUNCTION g) d)).src = g ∨
        (tld.mappingtable (probe cfg (cfg.C_MAPPING_FUNCTION g) d)).src = 0) → d < fuel →
      fbt_ccache_find cfg fuel tld g ≠ Outcome.nofuel) ∧
    (cfg.WF → HasEmpty cfg tld.mappingtable → ∀ fuel, nslots cfg ≤ fuel →
      fbt_ccache_find cfg fuel tld g ≠ Outcome.nofuel) ∧
    fbt_ccache_add_entry cfg tld g c ≠ Outcome.nofuel ∧
    add_loop cfg tld.mappingtable (max (cfg.MAPPINGTABLE_MAXENTRIES / 10) 1)
      (cfg.C_MAPPING_FUNCTION g) 0 ≠ Outcome.nofuel ∧
    (10 ≤ cfg.MAPPINGTABLE_MAXENTRIES →
      add_loop cfg tld.mappingtable (cfg.MAPPINGTABLE_MAXENTRIES / 10)
        (cfg.C_MAPPING_FUNCTION g) 0 ≠ Outcome.nofuel) := by
  have hfind : ∀ d fuel, ((tld.mappingtable (probe cfg (cfg.C_MAPPING_FUNCTION g) d)).src = g ∨
        (tld.mappingtable (probe cfg (cfg.C_MAPPING_FUNCTION g) d)).src = 0) → d < fuel →
      fbt_ccache_find cfg fuel tld g ≠ Outcome.nofuel := by
    intro d fuel hd hf
    have := find_loop_ends cfg g tld.mappingtable _ d fuel 0 hd hf
    unfold fbt_ccache_find
    cases hloop : find_loop cfg g tld.mappingtable fuel (cfg.C_MAPPING_FUNCTION g) 0 with
    | ret r => exact fun e => Outcome.noConfusion e
    | fatal => exact fun e => Outcome.noConfusion e
    | nofuel => exact absurd hloop this
  refine ⟨hfind, ?_, ?_, add_loop_ends cfg _ _, ?_⟩
  · intro wf hempty fuel hfuel
    obtain ⟨e, he1, he2, he3⟩ := hempty
    obtain ⟨i, hi, hie⟩ := probe_cover wf (wf.hash_slot g) ⟨he1, he2⟩
    exact hfind i fuel (Or.inr (by rw [hie]; exact he3)) (by omega)
  · unfold fbt_ccache_add_entry
    split
    · exact fun e => Outcome.noConfusion e
    · by_cases hall : ∀ j, j < max (cfg.MAPPINGTABLE_MAXENTRIES / 10) 1 →
          (tld.mappingtable (probe cfg (cfg.C_MAPPING_FUNCTION g) j)).src ≠ 0
      · rw [add_loop_fatal cfg _ _ hall]
        exact fun e => Outcome.noConfusion e
      · push_neg at hall
        obtain ⟨j, hj, hje⟩ := hall
        obtain ⟨d, hd, hde, hdmin⟩ := exists_first
          (fun j => (tld.mappingtable (probe cfg (cfg.C_MAPPING_FUNCTION g) j)).src = 0) j hje
        rw [add_loop_found cfg _ _ d hdmin hde (by omega)]
        exact fun e => Outcome.noConfusion e
  · intro hM
    have hmax : max (cfg.MAPPINGTABLE_MAXENTRIES / 10) 1 = cfg.MAPPINGTABLE_MAXENTRIES / 10 := by
      have : 1 ≤ cfg.MAPPINGTABLE_MAXENTRIES / 10 := by omega
      omega
    rw [← hmax]
    exact add_loop_ends cfg _ _


/-! ## C22: an insertion does not overwrite a key -/

/-- After a lookup that hits, the home slot of the key holds the key and its translation. -/
theorem find_hit_home (cfg : Config) (fuel : Nat) (tld tld1 : thread_local_data) (g c0 : Nat)
    (hfind : fbt_ccache_find cfg fuel tld g = Outcome.ret (c0, tld1)) (hc0 : c0 ≠ 0) :
    g ≠ 0 ∧ tld1.mappingtable (cfg.C_MAPPING_FUNCTION g) = { src := g, dst := c0 } := by
  obtain ⟨d, _, _, hres⟩ := find_inv cfg fuel tld tld1 g c0 hfind
  rcases hres with ⟨_, h0, _⟩ | ⟨hg, _, hit, e⟩
  · exact absurd h0 hc0
  · refine ⟨hg, ?_⟩
    rw [e]
    by_cases hd : d = 0
    · rw [if_pos hd]
      rw [hd] at hit
      exact hit
    · rw [if_neg hd]
      simp only [Table.swap, if_true]
      exact hit

/-- C22 (as amended): let `fbt_ccache_find(g)` return the translation `c0`, not `NULL`,
and let `fbt_ccache_add_entry(g, c1)` after it return outside inlining mode. Then the
insertion has written `(g, c1)` to a slot that was empty and is not the home slot of `g`,
it has changed no other slot, the home slot still holds `(g, c0)`, and
`fbt_ccache_find(g)` returns `c0` again and changes nothing. -/
theorem fbt_ccache_add_entry_keeps_key (cfg : Config) (fuel : Nat)
    (tld tld1 tld2 : thread_local_data) (g c0 c1 : Nat)
    (hfind : fbt_ccache_find cfg fuel tld g = Outcome.ret (c0, tld1)) (hc0 : c0 ≠ 0)
    (hin : inlining cfg tld1 = false)
    (hadd : fbt_ccache_add_entry cfg tld1 g c1 = Outcome.ret tld2) :
    (∃ p, p ≠ cfg.C_MAPPING_FUNCTION g ∧ (tld1.mappingtable p).src = 0 ∧
      tld2.mappingtable p = { src := g, dst := c1 } ∧
      ∀ o, o ≠ p → tld2.mappingtable o = tld1.mappingtable o) ∧
    tld2.mappingtable (cfg.C_MAPPING_FUNCTION g) = { src := g, dst := c0 } ∧
    ∀ fuel2, fbt_ccache_find cfg (fuel2 + 1) tld2 g = Outcome.ret (c0, tld2) := by
  obtain ⟨hg, hhome⟩ := find_hit_home cfg fuel tld tld1 g c0 hfind hc0
  obtain ⟨d, _, hemp, _, e⟩ := add_entry_inv cfg tld1 tld2 g c1 hadd hin
  have hne : probe cfg (cfg.C_MAPPING_FUNCTION g) d ≠ cfg.C_MAPPING_FUNCTION g := by
    intro e1
    rw [e1, hhome] at hemp
    exact hg hemp
  have hhome2 : tld2.mappingtable (cfg.C_MAPPING_FUNCTION g) = { src := g, dst := c0 } := by
    rw [e]
    simp only [Table.write, if_neg (Ne.symm hne)]
    exact hhome
  refine ⟨⟨_, hne, hemp, ?_, ?_⟩, hhome2, fun fuel2 => find_home_hit cfg tld2 g c0 fuel2 hg hc0 hhome2⟩
  · rw [e]
    simp only [Table.write, if_true]
  · intro o ho
    rw [e]
    simp only [Table.write, if_neg ho]

/-- C22, witness: the table with `(0xA000, 0xC000)`: the lookup of `0xA000` returns
`0xC000`, the insertion of `(0xA000, 0xD000)` returns, and the lookup of `0xA000` still
returns `0xC000`. -/
theorem fbt_ccache_add_entry_keeps_key_witness :
    ∃ tld2, fbt_ccache_add_entry exampleConfig ⟨singleTable, 0⟩ 0xA000 0xD000
        = Outcome.ret tld2 ∧
      (∃ p, p ≠ exampleConfig.C_MAPPING_FUNCTION 0xA000 ∧
        tld2.mappingtable p = { src := 0xA000, dst := 0xD000 }) ∧
      fbt_ccache_find exampleConfig 1 tld2 0xA000 = Outcome.ret (0xC000, tld2) :=
  ⟨_, rfl,
    match (fbt_ccache_add_entry_keeps_key exampleConfig 1 ⟨singleTable, 0⟩ ⟨singleTable, 0⟩ _
        0xA000 0xC000 0xD000 rfl (by decide) rfl rfl).1 with
    | ⟨p, h1, _, h2, _⟩ => ⟨p, h1, h2⟩,
    (fbt_ccache_add_entry_keeps_key exampleConfig 1 ⟨singleTable, 0⟩ ⟨singleTable, 0⟩ _
        0xA000 0xC000 0xD000 rfl (by decide) rfl rfl).2.2 0⟩

set_option maxRecDepth 100000 in
/-- C22, counterexample: in an `INLINE_CALLS` build with `inline_call_RIP` set, the lookup
of `0xA000` in the table with `(0xA000, 0xC000)` returns `0xC000`, the insertion of
`(0xA000, 0xD000)` returns, and no slot holds `(0xA000, 0xD000)`: the table is unchanged
and has one slot with the key `0xA000`. -/
theorem fbt_ccache_add_entry_keeps_key_inlining :
    NoHoles exampleConfigInline singleTable ∧
    fbt_ccache_find exampleConfigInline 1 ⟨singleTable, 1⟩ 0xA000
      = Outcome.ret (0xC000, ⟨singleTable, 1⟩) ∧
    (0xD000 : Nat) ≠ 0xC000 ∧
    fbt_ccache_add_entry exampleConfigInline ⟨singleTable, 1⟩ 0xA000 0xD000
      = Outcome.ret ⟨singleTable, 1⟩ ∧
    ∀ p, p < exampleConfigInline.MAPPINGTABLE_SIZE → exampleConfigInline.sizeof_entry ∣ p →
      (singleTable p).src = 0xA000 → p = 0 := by
  refine ⟨by decide, rfl, by decide, rfl, by decide⟩


/-! ## C21: lookups are observationally read-only -/

theorem returned_find (cfg : Config) (fuel : Nat) (tld : thread_local_data) (k : Nat) :
    returned (fbt_ccache_find cfg fuel tld k)
      = returned (find_loop cfg k tld.mappingtable fuel (cfg.C_MAPPING_FUNCTION k) 0) := by
  unfold fbt_ccache_find
  cases find_loop cfg k tld.mappingtable fuel (cfg.C_MAPPING_FUNCTION k) 0 with
  | ret r => rfl
  | fatal => rfl
  | nofuel => rfl

/-- The loop of the lookup on a table with an empty slot, when no occupied slot holds the
key. -/
theorem find_loop_absent_occ {cfg : Config} (wf : cfg.WF) (t : Table) (g fuel : Nat)
    (hempty : HasEmpty cfg t) (hfuel : nslots cfg ≤ fuel)
    (habs : ∀ p, IsSlot cfg p → (t p).src ≠ 0 → (t p).src ≠ g) :
    find_loop cfg g t fuel (cfg.C_MAPPING_FUNCTION g) 0 = Outcome.ret (0, t) := by
  obtain ⟨e, he1, he2, he3⟩ := hempty
  obtain ⟨i, hi, hie⟩ := probe_cover wf (wf.hash_slot g) ⟨he1, he2⟩
  obtain ⟨d, hd, hde, hdmin⟩ := exists_first
    (fun j => (t (probe cfg (cfg.C_MAPPING_FUNCTION g) j)).src = 0) i
    (by show (t (probe cfg (cfg.C_MAPPING_FUNCTION g) i)).src = 0; rw [hie]; exact he3)
  have hskip : ∀ j, j < d → (t (probe cfg (cfg.C_MAPPING_FUNCTION g) j)).src ≠ 0 ∧
      (t (probe cfg (cfg.C_MAPPING_FUNCTION g) j)).src ≠ g :=
    fun j hj => ⟨hdmin j hj, habs _ (probe_isSlot wf (wf.hash_slot g) j) (hdmin j hj)⟩
  have hf : fuel = (fuel - d - 1 + 1) + d := by omega
  rw [hf, find_loop_skip cfg g t d _ _ 0 hskip]
  exact find_loop_miss cfg g t _ _ _ hde

/-- The outcome of the lookup of a key that a slot holds: its translation, or the
assertion when the translation is `NULL`. -/
theorem find_loop_value {cfg : Config} (wf : cfg.WF) (t : Table) (g p fuel : Nat)
    (hnh : NoHoles cfg t) (hdk : DistinctKeys cfg t)
    (hg : g ≠ 0) (hfuel : nslots cfg ≤ fuel) (hp : IsSlot cfg p) (hpg : (t p).src = g) :
    returned (find_loop cfg g t fuel (cfg.C_MAPPING_FUNCTION g) 0)
      = if (t p).dst = 0 then Outcome.fatal else Outcome.ret (t p).dst := by
  obtain ⟨i, hi, hip⟩ := probe_cover wf (wf.hash_slot g) hp
  have hocc : (t p).src ≠ 0 := by rw [hpg]; exact hg
  have hchain := hnh p hp.1 hp.2 hocc i hi (by rw [hpg]; exact hip)
  rw [hpg] at hchain
  have hskip : ∀ j, j < i → (t (probe cfg (cfg.C_MAPPING_FUNCTION g) j)).src ≠ 0 ∧
      (t (probe cfg (cfg.C_MAPPING_FUNCTION g) j)).src ≠ g := by
    intro j hj
    refine ⟨hchain j (by omega), fun e => ?_⟩
    have hs := probe_isSlot wf (wf.hash_slot g) j
    have := hdk p hp.1 hp.2 hocc _ hs.1 hs.2 (by rw [hpg, e])
    rw [← hip] at this
    have := probe_inj wf (wf.hash_slot g) hi (by omega) this
    omega
  have hf : fuel = (fuel - i - 1 + 1) + i := by omega
  rw [hf, find_loop_skip cfg g t i _ _ 0 hskip, hip]
  by_cases hc : (t p).dst = 0
  · have hentry : t p = { src := g, dst := 0 } := by rw [← hpg, ← hc]
    rw [find_loop_null_dst cfg g t _ p _ hg hentry, if_pos hc]
    rfl
  · have hentry : t p = { src := g, dst := (t p).dst } := by rw [← hpg]
    rw [find_loop_hit cfg g (t p).dst t _ p _ hg hc hentry, if_neg hc]
    rfl

theorem swap_eq (t : Table) (a b o : Nat) : t.swap a b o = t (swap_index a b o) := by
  unfold Table.swap swap_index
  split
  · rfl
  · split <;> rfl

theorem swap_index_invol (a b o : Nat) : swap_index a b (swap_index a b o) = o := by
  unfold swap_index
  by_cases h1 : o = a
  · by_cases h2 : b = a
    · simp [h1, h2]
    · simp [h1, h2]
  · by_cases h2 : o = b
    · simp [h1, h2]
    · simp [h1, h2]

theorem swap_index_slot {cfg : Config} {a b o : Nat} (ha : IsSlot cfg a) (hb : IsSlot cfg b)
    (ho : IsSlot cfg o) : IsSlot cfg (swap_index a b o) := by
  unfold swap_index
  split
  · exact hb
  · split
    · exact ha
    · exact ho

theorem distinctKeys_swap {cfg : Config} (t : Table) {a b : Nat} (ha : IsSlot cfg a)
    (hb : IsSlot cfg b) (hdk : DistinctKeys cfg t) : DistinctKeys cfg (t.swap a b) := by
  intro p hp1 hp2 hocc q hq1 hq2 heq
  rw [swap_eq] at hocc heq
  rw [swap_eq] at heq
  have hp := swap_index_slot ha hb (⟨hp1, hp2⟩ : IsSlot cfg p)
  have hq := swap_index_slot ha hb (⟨hq1, hq2⟩ : IsSlot cfg q)
  have := hdk _ hp.1 hp.2 hocc _ hq.1 hq.2 heq
  have h2 := congrArg (swap_index a b) this
  rw [swap_index_invol, swap_index_invol] at h2
  exact h2

theorem hasEmpty_swap {cfg : Config} (t : Table) {a b : Nat} (ha : IsSlot cfg a)
    (hb : IsSlot cfg b) (he : HasEmpty cfg t) : HasEmpty cfg (t.swap a b) := by
  obtain ⟨e, he1, he2, he3⟩ := he
  have hs := swap_index_slot ha hb (⟨he1, he2⟩ : IsSlot cfg e)
  refine ⟨swap_index a b e, hs.1, hs.2, ?_⟩
  rw [swap_eq, swap_index_invol]
  exact he3

/-- The outcome of a lookup on a table with the invariants depends on the entries that
the slots hold, not on where they are. -/
theorem find_loop_value_perm {cfg : Config} (wf : cfg.WF) (t t1 : Table) (k fuel : Nat)
    (hnh : NoHoles cfg t) (hdk : DistinctKeys cfg t) (he : HasEmpty cfg t)
    (hnh1 : NoHoles cfg t1) (hdk1 : DistinctKeys cfg t1) (he1 : HasEmpty cfg t1)
    (hfuel : nslots cfg ≤ fuel)
    (h12 : ∀ p, IsSlot cfg p → ∃ q, IsSlot cfg q ∧ t1 q = t p)
    (h21 : ∀ q, IsSlot cfg q → ∃ p, IsSlot cfg p ∧ t p = t1 q) :
    returned (find_loop cfg k t1 fuel (cfg.C_MAPPING_FUNCTION k) 0)
      = returned (find_loop cfg k t fuel (cfg.C_MAPPING_FUNCTION k) 0) := by
  by_cases hk : ∃ p, IsSlot cfg p ∧ (t p).src = k ∧ k ≠ 0
  · obtain ⟨p, hp, hpk, hk0⟩ := hk
    obtain ⟨q, hq, hqp⟩ := h12 p hp
    rw [find_loop_value wf t k p fuel hnh hdk hk0 hfuel hp hpk,
      find_loop_value wf t1 k q fuel hnh1 hdk1 hk0 hfuel hq (by rw [hqp]; exact hpk), hqp]
  · push_neg at hk
    have habs : ∀ p, IsSlot cfg p → (t p).src ≠ 0 → (t p).src ≠ k := by
      intro p hp hocc e
      exact hocc (e.trans (hk p hp e))
    have habs1 : ∀ q, IsSlot cfg q → (t1 q).src ≠ 0 → (t1 q).src ≠ k := by
      intro q hq hocc e
      obtain ⟨p, hp, hpq⟩ := h21 q hq
      exact habs p hp (by rw [hpq]; exact hocc) (by rw [hpq]; exact e)
    rw [find_loop_absent_occ wf t k fuel he hfuel habs,
      find_loop_absent_occ wf t1 k fuel he1 hfuel habs1]
    rfl


/-- C21: let the table satisfy the no-holes invariant, with pairwise distinct keys in its
occupied slots and an empty slot, and let `fbt_ccache_find(g)` return. Then for every
guest address `k` the call `fbt_ccache_find(k)` made afterwards gives what it would have
given before: the same value, or the same failed assertion for a key stored with the
translation `NULL`; and it does end. The state after the lookup of `g` satisfies the
three conditions again. -/
theorem fbt_ccache_find_read_only {cfg : Config} (wf : cfg.WF) (tld tld1 : thread_local_data)
    (g v fuel1 : Nat) (hnh : NoHoles cfg tld.mappingtable)
    (hdk : DistinctKeys cfg tld.mappingtable) (hempty : HasEmpty cfg tld.mappingtable)
    (hfind : fbt_ccache_find cfg fuel1 tld g = Outcome.ret (v, tld1)) :
    (NoHoles cfg tld1.mappingtable ∧ DistinctKeys cfg tld1.mappingtable ∧
      HasEmpty cfg tld1.mappingtable) ∧
    ∀ k fuel, nslots cfg ≤ fuel →
      returned (fbt_ccache_find cfg fuel tld1 k) = returned (fbt_ccache_find cfg fuel tld k) ∧
      returned (fbt_ccache_find cfg fuel tld k) ≠ Outcome.nofuel := by
  have hends : ∀ k fuel, nslots cfg ≤ fuel →
      returned (fbt_ccache_find cfg fuel tld k) ≠ Outcome.nofuel := by
    intro k fuel hfuel
    obtain ⟨e, he1, he2, he3⟩ := hempty
    obtain ⟨i, hi, hie⟩ := probe_cover wf (wf.hash_slot k) ⟨he1, he2⟩
    have := find_loop_ends cfg k tld.mappingtable (cfg.C_MAPPING_FUNCTION k) i fuel 0
      (Or.inr (by rw [hie]; exact he3)) (by omega)
    rw [returned_find]
    cases hloop : find_loop cfg k tld.mappingtable fuel (cfg.C_MAPPING_FUNCTION k) 0 with
    | ret r => exact fun e => Outcome.noConfusion e
    | fatal => exact fun e => Outcome.noConfusion e
    | nofuel => exact absurd hloop this
  obtain ⟨d, _, hchain, hres⟩ := find_inv cfg fuel1 tld tld1 g v hfind
  rcases hres with ⟨_, _, e⟩ | ⟨hg, _, hit, e⟩
  · rw [e]
    exact ⟨⟨hnh, hdk, hempty⟩, fun k fuel hfuel => ⟨rfl, hends k fuel hfuel⟩⟩
  · by_cases hd : d = 0
    · rw [if_pos hd] at e
      have ht : tld1.mappingtable = tld.mappingtable := by rw [e]
      rw [ht]
      refine ⟨⟨hnh, hdk, hempty⟩, fun k fuel hfuel => ⟨?_, hends k fuel hfuel⟩⟩
      rw [returned_find, returned_find, ht]
    · rw [if_neg hd] at e
      have ha : IsSlot cfg (cfg.C_MAPPING_FUNCTION g) := wf.hash_slot g
      have hb : IsSlot cfg (probe cfg (cfg.C_MAPPING_FUNCTION g) d) := probe_isSlot wf ha d
      have ht : tld1.mappingtable = tld.mappingtable.swap (cfg.C_MAPPING_FUNCTION g)
          (probe cfg (cfg.C_MAPPING_FUNCTION g) d) := by rw [e]
      have hnh1 := noHoles_swap wf tld.mappingtable g v d hg hd hnh hchain hit
      have hdk1 := distinctKeys_swap tld.mappingtable ha hb hdk
      have he1 := hasEmpty_swap tld.mappingtable ha hb hempty
      rw [ht]
      refine ⟨⟨hnh1, hdk1, he1⟩, fun k fuel hfuel => ⟨?_, hends k fuel hfuel⟩⟩
      rw [returned_find, returned_find, ht]
      apply find_loop_value_perm wf _ _ k fuel hnh hdk hempty hnh1 hdk1 he1 hfuel
      · intro p hp
        refine ⟨swap_index _ _ p, swap_index_slot ha hb hp, ?_⟩
        rw [swap_eq, swap_index_invol]
      · intro q hq
        exact ⟨swap_index _ _ q, swap_index_slot ha hb hq, (swap_eq _ _ _ _).symm⟩

set_option maxRecDepth 100000 in
/-- C21, witness: the table with the keys `32` and `64`, which both hash to the slot `0`.
The lookup of `64` exchanges the two entries; the lookup of `32` returns `0xC000` before
and after it. -/
theorem fbt_ccache_find_read_only_witness :
    fbt_ccache_find exampleConfig 32 ⟨twoTable, 0⟩ 64
      = Outcome.ret (0xC100, ⟨twoTable.swap 0 8, 0⟩) ∧
    returned (fbt_ccache_find exampleConfig 32 ⟨twoTable, 0⟩ 32) = Outcome.ret 0xC000 ∧
    returned (fbt_ccache_find exampleConfig 32 ⟨twoTable.swap 0 8, 0⟩ 32)
      = returned (fbt_ccache_find exampleConfig 32 ⟨twoTable, 0⟩ 32) :=
  have hfind : fbt_ccache_find exampleConfig 32 ⟨twoTable, 0⟩ 64
      = Outcome.ret (0xC100, ⟨twoTable.swap 0 8, 0⟩) :=
    find_hit_at exampleConfig 32 ⟨twoTable, 0⟩ 64 0xC100 1 (by decide) (by decide) (by decide)
      (by decide) (by decide)
  ⟨hfind, rfl,
    ((fbt_ccache_find_read_only exampleConfig_wf ⟨twoTable, 0⟩ ⟨twoTable.swap 0 8, 0⟩ 64 0xC100
      32 (by decide) (by decide) (by decide) hfind).2 32 32 (by decide)).1⟩


/-! ## The invariant of the memory manager -/

/-- Every record of a list with `Stored` lies in the region of an internal chunk of the
list. -/
theorem Stored.mem (mc : MemConfig) : ∀ (l : List mem_info), Stored mc l → ∀ c ∈ l,
    ∃ d ∈ l, d.type = mem_type.MT_INTERNAL ∧ d.ptr ≤ c.addr ∧
      c.addr + mc.sizeof_mem_info ≤ d.ptr + ulen d.size := by
  intro l
  induction l with
  | nil => intro _ c hc; cases hc
  | cons a rest ih =>
    intro hs c hc
    obtain ⟨h1, h2⟩ := hs
    rcases List.mem_cons.1 hc with rfl | hc
    · exact h1
    · obtain ⟨d, hd, hdr⟩ := ih h2 c hc
      exact ⟨d, List.mem_cons_of_mem _ hd, hdr⟩

/-- The addresses of the scratch memory not handed out are mapped. -/
theorem MemInvCore.free_mapped {mc : MemConfig} {prot : Nat → Option Nat}
    {chunk : List mem_info} {self stack smalloc : Nat} {smalloc_size : Int}
    (hinv : MemInvCore mc prot chunk self stack smalloc smalloc_size) (x : Nat)
    (hx : in_free smalloc smalloc_size x) : prot x ≠ none := by
  obtain ⟨d, hd, _, h1, h2⟩ := hinv.scratch
  have hin : in_region d x := by
    unfold in_region
    unfold in_free at hx
    constructor
    · omega
    · have := hx.2
      rw [h2] at this
      exact_mod_cast this
  rw [hinv.mapped d hd x hin]
  exact fun e => Option.noConfusion e

/-- The records, the stack and the thread data are mapped. -/
theorem MemInvCore.record_mapped {mc : MemConfig} {prot : Nat → Option Nat}
    {chunk : List mem_info} {self stack smalloc : Nat} {smalloc_size : Int}
    (hinv : MemInvCore mc prot chunk self stack smalloc smalloc_size)
    (hrec : 2 * mc.sizeof_mem_info ≤ scratch_size mc) (c : mem_info) (hc : c ∈ chunk) (x : Nat)
    (h1 : c.addr ≤ x) (h2 : x < c.addr + mc.sizeof_mem_info) : prot x ≠ none := by
  obtain ⟨d, hd, _, e1, e2⟩ := Stored.mem mc chunk (hinv.stored hrec) c hc
  rw [hinv.mapped d hd x ⟨by omega, by omega⟩]
  exact fun e => Option.noConfusion e

theorem MemInvCore.tld_mapped {mc : MemConfig} (wf : mc.WF) {prot : Nat → Option Nat}
    {chunk : List mem_info} {self stack smalloc : Nat} {smalloc_size : Int}
    (hinv : MemInvCore mc prot chunk self stack smalloc smalloc_size) (x : Nat)
    (h1 : self ≤ x + stack_size mc) (h2 : x < self + mc.sizeof_tld) : prot x ≠ none := by
  obtain ⟨front, mem, hch, hself, _⟩ := hinv.boot
  have hb : boot_record mc mem ∈ chunk := by rw [hch]; simp
  have hfit := wf.boot_fits
  rw [hinv.mapped _ hb x (by unfold in_region boot_record; simp only [ulen_ofNat]; omega)]
  exact fun e => Option.noConfusion e

/-- The invariant after a new region has been mapped and its record put at the head of
the chunk list. -/
theorem MemInvCore.add_chunk {mc : MemConfig} {prot prot1 : Nat → Option Nat}
    {chunk : List mem_info} {self stack smalloc : Nat} {smalloc_size : Int}
    (hinv : MemInvCore mc prot chunk self stack smalloc smalloc_size) (c : mem_info)
    (hfresh : ∀ x, in_region c x → prot x = none)
    (hprot : ∀ x, prot1 x = if in_region c x then some (lalloc_flags mc c.type) else prot x)
    (hvalid : munmap_valid mc c)
    (hst : 2 * mc.sizeof_mem_info ≤ scratch_size mc →
      ∃ d ∈ c :: chunk, d.type = mem_type.MT_INTERNAL ∧ d.ptr ≤ c.addr ∧
        c.addr + mc.sizeof_mem_info ≤ d.ptr + ulen d.size)
    (hus : 2 * mc.sizeof_mem_info ≤ scratch_size mc →
      ∀ x, c.addr ≤ x → x < c.addr + mc.sizeof_mem_info → ¬ in_free smalloc smalloc_size x) :
    MemInvCore mc prot1 (c :: chunk) self stack smalloc smalloc_size := by
  have hold : ∀ d ∈ chunk, ∀ x, in_region d x → ¬ in_region c x := by
    intro d hd x hx hc
    have := hinv.mapped d hd x hx
    rw [hfresh x hc] at this
    exact Option.noConfusion this
  refine ⟨?_, ?_, ?_, ?_, ?_, ?_, ?_, hinv.nonneg⟩
  · obtain ⟨front, mem, hch, hself, hstack⟩ := hinv.boot
    exact ⟨c :: front, mem, by rw [hch]; rfl, hself, hstack⟩
  · intro d hd
    rcases List.mem_cons.1 hd with rfl | hd
    · exact hvalid
    · exact hinv.valid d hd
  · intro d hd x hx
    rcases List.mem_cons.1 hd with rfl | hd
    · rw [hprot, if_pos hx]
    · rw [hprot, if_neg (hold d hd x hx)]
      exact hinv.mapped d hd x hx
  · exact List.pairwise_cons.2 ⟨fun d hd x hx hdx => hold d hd x hdx hx, hinv.disj⟩
  · obtain ⟨d, hd, h⟩ := hinv.scratch
    exact ⟨d, List.mem_cons_of_mem _ hd, h⟩
  · intro hrec
    exact ⟨hst hrec, hinv.stored hrec⟩
  · intro hrec
    refine ⟨?_, (hinv.used hrec).2⟩
    intro d hd
    rcases List.mem_cons.1 hd with rfl | hd
    · exact hus hrec
    · exact (hinv.used hrec).1 d hd

/-- The invariant after a new region has been mapped without a record. -/
theorem MemInvCore.add_mapping {mc : MemConfig} {prot prot1 : Nat → Option Nat}
    {chunk : List mem_info} {self stack smalloc : Nat} {smalloc_size : Int}
    (hinv : MemInvCore mc prot chunk self stack smalloc smalloc_size)
    (hkeep : ∀ x, prot x ≠ none → prot1 x = prot x) :
    MemInvCore mc prot1 chunk self stack smalloc smalloc_size := by
  refine ⟨hinv.boot, hinv.valid, ?_, hinv.disj, hinv.scratch, hinv.stored, hinv.used,
    hinv.nonneg⟩
  intro d hd x hx
  have := hinv.mapped d hd x hx
  rw [hkeep x (by rw [this]; exact fun e => Option.noConfusion e)]
  exact this

/-- The invariant after the scratch pointer and size have been set. -/
theorem MemInvCore.switch {mc : MemConfig} {prot : Nat → Option Nat}
    {chunk : List mem_info} {self stack smalloc smalloc1 : Nat} {smalloc_size ssz1 : Int}
    (hinv : MemInvCore mc prot chunk self stack smalloc smalloc_size)
    (hscratch : ∃ d ∈ chunk, d.type = mem_type.MT_INTERNAL ∧ d.ptr ≤ smalloc1 ∧
      (smalloc1 : Int) + ssz1 = ((d.ptr + ulen d.size : Nat) : Int))
    (hused : 2 * mc.sizeof_mem_info ≤ scratch_size mc →
      ∀ x, in_free smalloc1 ssz1 x → in_free smalloc smalloc_size x ∨
        ((∀ c ∈ chunk, ¬ (c.addr ≤ x ∧ x < c.addr + mc.sizeof_mem_info)) ∧
          ¬ (self ≤ x + stack_size mc ∧ x < self + mc.sizeof_tld)))
    (hnonneg : mc.SMALLOC_MAX + mc.sizeof_mem_info ≤ scratch_size mc → 0 ≤ ssz1) :
    MemInvCore mc prot chunk self stack smalloc1 ssz1 := by
  refine ⟨hinv.boot, hinv.valid, hinv.mapped, hinv.disj, hscratch, hinv.stored, ?_, hnonneg⟩
  intro hrec
  refine ⟨fun c hc x h1 h2 hf => ?_, fun x h1 h2 hf => ?_⟩
  · rcases hused hrec x hf with h | h
    · exact (hinv.used hrec).1 c hc x h1 h2 h
    · exact h.1 c hc ⟨h1, h2⟩
  · rcases hused hrec x hf with h | h
    · exact (hinv.used hrec).2 x h1 h2 h
    · exact h.2 ⟨h1, h2⟩


/-- What `fbt_smalloc` does to the invariant: it holds afterwards; the scratch memory not
handed out afterwards was so before, or was not mapped; the block returned is not part of
it; and when a scratch block holds a record and the request, the block returned lies in
an internal chunk and was scratch memory not handed out, or not mapped. -/
theorem fbt_smalloc_MemInv (mc : MemConfig) (wf : mc.WF) (os os1 : OS) (tld tld1 : mem_tld)
    (size : Int) (p : Nat) (hinv : MemInv mc os tld)
    (h : fbt_smalloc mc os tld size = Result.ok (p, os1, tld1)) :
    MemInv mc os1 tld1 ∧
    (∀ x, in_free tld1.smalloc tld1.smalloc_size x →
      in_free tld.smalloc tld.smalloc_size x ∨ os.prot x = none) ∧
    (∀ x, p ≤ x → x < p + size.toNat → ¬ in_free tld1.smalloc tld1.smalloc_size x) ∧
    (mc.sizeof_mem_info + size.toNat ≤ scratch_size mc →
      (∃ d ∈ tld1.chunk, d.type = mem_type.MT_INTERNAL ∧ d.ptr ≤ p ∧
        p + size.toNat ≤ d.ptr + ulen d.size) ∧
      (∀ x, p ≤ x → x < p + size.toNat →
        in_free tld.smalloc tld.smalloc_size x ∨ os.prot x = none)) ∧
    (tld1.chunk = tld.chunk ∨
      ∃ mem, tld1.chunk = scratch_record mc mem :: tld.chunk ∧
        p = mem + mc.sizeof_mem_info) := by
  have hcore : MemInvCore mc os.prot tld.chunk tld.self tld.stack tld.smalloc
      tld.smalloc_size := hinv
  obtain ⟨h0, h1, hc⟩ := fbt_smalloc_inv mc wf os os1 tld tld1 size p h
  rcases hc with ⟨hfit, hp, hos, htld⟩ | ⟨hlt, mem, hm, hp, htld⟩
  · rw [hos]
    subst htld
    subst hp
    have hsm : ((((tld.smalloc : Int) + size).toNat : Nat) : Int) = (tld.smalloc : Int) + size :=
      Int.toNat_of_nonneg (by omega)
    have hsub : ∀ x, in_free ((tld.smalloc : Int) + size).toNat (tld.smalloc_size - size) x →
        in_free tld.smalloc tld.smalloc_size x := by
      intro x hx
      unfold in_free at hx ⊢
      obtain ⟨a, b⟩ := hx
      have a2 : ((((tld.smalloc : Int) + size).toNat : Nat) : Int) ≤ (x : Int) := by
        exact_mod_cast a
      rw [hsm] at a2 b
      constructor
      · omega
      · omega
    obtain ⟨d, hd, hty, hd1, hd2⟩ := hcore.scratch
    refine ⟨?_, fun x hx => Or.inl (hsub x hx), ?_, fun _ => ⟨⟨d, hd, hty, hd1, ?_⟩, ?_⟩,
      Or.inl rfl⟩
    · show MemInvCore mc os.prot tld.chunk tld.self tld.stack
        ((tld.smalloc : Int) + size).toNat (tld.smalloc_size - size)
      refine hcore.switch ⟨d, hd, hty, ?_, ?_⟩ (fun _ x hx => Or.inl (hsub x hx))
        (fun _ => by omega)
      · omega
      · rw [hsm, ← hd2]; ring
    · intro x hx1 hx2 hf
      have a : ((((tld.smalloc : Int) + size).toNat : Nat) : Int) ≤ (x : Int) := by
        exact_mod_cast hf.1
      rw [hsm] at a
      omega
    · have : ((tld.smalloc + size.toNat : Nat) : Int) ≤ ((d.ptr + ulen d.size : Nat) : Int) := by
        rw [← hd2]
        push_cast
        omega
      exact_mod_cast this
    · intro x hx1 hx2
      left
      exact ⟨hx1, by omega⟩
  · obtain ⟨hpos, _, hal, hfresh, _, hprot, _⟩ := mmap_inv mc os os1 _ _ mem hm
    rw [ulen_ofNat] at hfresh hprot
    subst htld
    subst hp
    have hbf := wf.boot_fits
    have hrp := wf.record_pos
    have hreg : ∀ x, in_region (scratch_record mc mem) x ↔
        (mem ≤ x ∧ x < mem + scratch_size mc) := fun x => Iff.rfl
    have hadd : MemInvCore mc os1.prot
        (scratch_record mc mem :: tld.chunk)
        tld.self tld.stack tld.smalloc tld.smalloc_size := by
      apply hcore.add_chunk
      · intro x hx
        exact hfresh x ((hreg x).1 hx).2 ((hreg x).1 hx).1
      · intro x
        rw [hprot]
        rfl
      · exact ⟨hal, by show scratch_size mc ≠ 0; omega⟩
      · intro hrec
        exact ⟨_, List.mem_cons_self _ _, rfl, Nat.le_refl _,
          by show mem + mc.sizeof_mem_info ≤ mem + scratch_size mc; omega⟩
      · intro hrec x hx1 hx2 hf
        have hx1a : mem ≤ x := hx1
        have hx2a : x < mem + mc.sizeof_mem_info := hx2
        exact hcore.free_mapped x hf (hfresh x (by omega) hx1a)
    have hsm : (((((mem + mc.sizeof_mem_info : Nat) : Int) + size).toNat : Nat) : Int)
        = ((mem + mc.sizeof_mem_info : Nat) : Int) + size :=
      Int.toNat_of_nonneg (by omega)
    have hfree : ∀ x, in_free (((mem + mc.sizeof_mem_info : Nat) : Int) + size).toNat
        ((scratch_size mc : Int) - (mc.sizeof_mem_info : Int) - size) x →
        mem + mc.sizeof_mem_info ≤ x ∧ x < mem + scratch_size mc ∧
        ((mem + mc.sizeof_mem_info : Nat) : Int) + size ≤ x := by
      intro x hx
      unfold in_free at hx
      obtain ⟨a, b⟩ := hx
      have a2 : (((((mem + mc.sizeof_mem_info : Nat) : Int) + size).toNat : Nat) : Int)
          ≤ (x : Int) := by exact_mod_cast a
      rw [hsm] at a2 b
      push_cast at a2 b
      refine ⟨by omega, by omega, by push_cast; omega⟩
    refine ⟨?_, ?_, ?_, fun hsz => ⟨⟨_, List.mem_cons_self _ _, rfl, ?_, ?_⟩, ?_⟩,
      Or.inr ⟨mem, rfl, rfl⟩⟩
    · show MemInvCore mc os1.prot
        (scratch_record mc mem :: tld.chunk)
        tld.self tld.stack ((((mem + mc.sizeof_mem_info : Nat) : Int) + size).toNat)
        ((scratch_size mc : Int) - (mc.sizeof_mem_info : Int) - size)
      refine hadd.switch ⟨_, List.mem_cons_self _ _, rfl, ?_, ?_⟩ ?_ (fun hmax => by omega)
      · show mem ≤ _
        omega
      · show (((((mem + mc.sizeof_mem_info : Nat) : Int) + size).toNat : Nat) : Int)
            + ((scratch_size mc : Int) - (mc.sizeof_mem_info : Int) - size)
          = ((mem + scratch_size mc : Nat) : Int)
        rw [hsm]
        push_cast
        ring
      · intro hrec x hx
        right
        obtain ⟨f1, f2, f3⟩ := hfree x hx
        have hnone : os.prot x = none := hfresh x f2 (by omega)
        refine ⟨?_, ?_⟩
        · intro c hc hcx
          rcases List.mem_cons.1 hc with rfl | hc
          · have hcxa : mem ≤ x ∧ x < mem + mc.sizeof_mem_info := hcx
            push_cast at f3
            omega
          · exact hcore.record_mapped hrec c hc x hcx.1 hcx.2 hnone
        · intro hx2
          exact hcore.tld_mapped wf x hx2.1 hx2.2 hnone
    · intro x hx
      obtain ⟨f1, f2, _⟩ := hfree x hx
      exact Or.inr (hfresh x f2 (by omega))
    · intro x hx1 hx2 hf
      obtain ⟨_, _, f3⟩ := hfree x hf
      push_cast at f3
      omega
    · show mem ≤ mem + mc.sizeof_mem_info
      omega
    · show mem + mc.sizeof_mem_info + size.toNat ≤ mem + scratch_size mc
      omega
    · intro x hx1 hx2
      exact Or.inr (hfresh x (by omega) (by omega))


/-- An address in use stays in use over a returning `fbt_smalloc`. -/
theorem fbt_smalloc_InUse (mc : MemConfig) (wf : mc.WF) (os os1 : OS) (tld tld1 : mem_tld)
    (size : Int) (p : Nat) (hinv : MemInv mc os tld)
    (h : fbt_smalloc mc os tld size = Result.ok (p, os1, tld1)) (x : Nat)
    (hx : InUse os tld x) : InUse os1 tld1 x := by
  obtain ⟨_, hfree, _⟩ := fbt_smalloc_MemInv mc wf os os1 tld tld1 size p hinv h
  obtain ⟨hkeep, _⟩ := fbt_smalloc_ext mc wf os os1 tld tld1 size p h
  refine ⟨by rw [(hkeep x hx.1).1]; exact hx.1, fun hf => ?_⟩
  rcases hfree x hf with h1 | h1
  · exact hx.2 h1
  · exact hx.1 h1

/-- What `fbt_lalloc` does to the invariant: it holds afterwards, and an address in use
stays in use. -/
theorem fbt_lalloc_MemInv (mc : MemConfig) (wf : mc.WF) (os os2 : OS) (tld tld2 : mem_tld)
    (pages : Int) (type : mem_type) (r : Nat) (hinv : MemInv mc os tld)
    (h : fbt_lalloc mc os tld pages type = Result.ok (r, os2, tld2)) :
    MemInv mc os2 tld2 ∧ ∀ x, InUse os tld x → InUse os2 tld2 x := by
  obtain ⟨_, chunk, os1, tld1, hs, hm, ht⟩ := fbt_lalloc_inv mc os os2 tld tld2 pages type r h
  obtain ⟨hinv1, _, hblock, hin, _⟩ :=
    fbt_smalloc_MemInv mc wf os os1 tld tld1 _ chunk hinv hs
  have hcore1 : MemInvCore mc os1.prot tld1.chunk tld1.self tld1.stack tld1.smalloc
      tld1.smalloc_size := hinv1
  rw [Int.toNat_ofNat] at hblock hin
  obtain ⟨hpos, _, hal, hfresh, _, hprot, _⟩ := mmap_inv mc os1 os2 _ _ r hm
  have huse : ∀ x, InUse os1 tld1 x → os2.prot x ≠ none := by
    intro x hx
    rw [(mmap_keeps mc os1 os2 _ _ r x hm hx.1).1]
    exact hx.1
  have hsm : tld2.smalloc = tld1.smalloc ∧ tld2.smalloc_size = tld1.smalloc_size := by
    rw [ht]
    split <;> exact ⟨rfl, rfl⟩
  refine ⟨?_, ?_⟩
  · rw [ht]
    split
    · show MemInvCore mc os2.prot
        ({ addr := chunk, ptr := r, size := int32 (pages * (mc.PAGESIZE : Nat)),
           type := type } :: tld1.chunk) tld1.self tld1.stack tld1.smalloc tld1.smalloc_size
      apply hcore1.add_chunk
      · intro x hx
        exact hfresh x hx.2 hx.1
      · intro x
        rw [hprot]
        rfl
      · exact ⟨hal, by show ulen (int32 (pages * (mc.PAGESIZE : Nat))) ≠ 0; omega⟩
      · intro hrec
        obtain ⟨d, hd, h1, h2, h3⟩ := (hin (by omega)).1
        exact ⟨d, List.mem_cons_of_mem _ hd, h1, h2, h3⟩
      · intro hrec x hx1 hx2
        exact hblock x hx1 hx2
    · exact hcore1.add_mapping (fun x hx => (mmap_keeps mc os1 os2 _ _ r x hm hx).1)
  · intro x hx
    have hx1 := fbt_smalloc_InUse mc wf os os1 tld tld1 _ chunk hinv hs x hx
    refine ⟨huse x hx1, ?_⟩
    rw [hsm.1, hsm.2]
    exact hx1.2

/-- What `fbt_allocate_new_code_cache` does to the invariant. -/
theorem fbt_allocate_new_code_cache_MemInv (mc : MemConfig) (wf : mc.WF) (os os1 : OS)
    (tld tld1 : mem_tld) (hinv : MemInv mc os tld)
    (h : fbt_allocate_new_code_cache mc os tld = Result.ok (os1, tld1)) :
    MemInv mc os1 tld1 ∧ ∀ x, InUse os tld x → InUse os1 tld1 x := by
  unfold fbt_allocate_new_code_cache at h
  obtain ⟨⟨mem, os2, tld2⟩, h1, h2⟩ := (Result.bind_eq_ok _ _ _).1 h
  simp only at h2
  injection h2 with h2
  injection h2 with e1 e2
  subst e1; subst e2
  exact fbt_lalloc_MemInv mc wf os os2 tld tld2 _ _ mem hinv h1

/-- What `fbt_allocate_new_trampolines` does to the invariant. -/
theorem fbt_allocate_new_trampolines_MemInv (mc : MemConfig) (wf : mc.WF) (os os1 : OS)
    (tld tld1 : mem_tld) (hinv : MemInv mc os tld)
    (h : fbt_allocate_new_trampolines mc os tld = Result.ok (os1, tld1)) :
    MemInv mc os1 tld1 ∧ ∀ x, InUse os tld x → InUse os1 tld1 x := by
  unfold fbt_allocate_new_trampolines at h
  simp only at h
  obtain ⟨⟨mem, os2, tld2⟩, h1, h2⟩ := (Result.bind_eq_ok _ _ _).1 h
  simp only at h2
  injection h2 with h2
  injection h2 with e1 e2
  subst e1; subst e2
  exact fbt_lalloc_MemInv mc wf os os2 tld tld2 _ _ mem hinv h1

/-- What `fbt_create_trampoline` does to the invariant. -/
theorem fbt_create_trampoline_MemInv (mc : MemConfig) (wf : mc.WF) (os os1 : OS)
    (tld tld1 : mem_tld) (call_target origin origin_t r : Nat) (hinv : MemInv mc os tld)
    (h : fbt_create_trampoline mc os tld call_target origin origin_t
      = Result.ok (r, os1, tld1)) :
    MemInv mc os1 tld1 ∧ ∀ x, InUse os tld x → InUse os1 tld1 x := by
  unfold fbt_create_trampoline at h
  obtain ⟨⟨os2, tld2⟩, h1, h2⟩ := (Result.bind_eq_ok _ _ _).1 h
  simp only at h2
  injection h2 with h2
  injection h2 with _ h2
  injection h2 with e1 e2
  subst e1; subst e2
  have h12 : MemInv mc os2 tld2 ∧ ∀ x, InUse os tld x → InUse os2 tld2 x := by
    split at h1
    · exact fbt_allocate_new_trampolines_MemInv mc wf os os2 tld tld2 hinv h1
    · injection h1 with h1
      injection h1 with e1 e2
      subst e1; subst e2
      exact ⟨hinv, fun _ hx => hx⟩
  exact h12


/-- The invariant of the thread data that lines 73-97 of `fbt_reinit_tls` set up in the
bootstrap block `mem`, when the block is mapped readable and writable. -/
theorem reinit_reset_MemInv (mc : MemConfig) (wf : mc.WF) (os : OS) (mem : Nat)
    (base : mem_tld) (hal : mem % mc.PAGESIZE = 0)
    (hmap : ∀ x, mem ≤ x → x < mem + scratch_size mc →
      os.prot x = some (PROT_READ ||| PROT_WRITE)) :
    MemInv mc os (reinit_reset mc mem base) := by
  have hbf := wf.boot_fits
  have hrp := wf.record_pos
  show MemInvCore mc os.prot [boot_record mc mem] (mem + stack_size mc) (mem + stack_size mc)
    (mem + stack_size mc + mc.sizeof_tld + mc.sizeof_mem_info)
    ((scratch_size mc : Int) -
      (((mem + stack_size mc + mc.sizeof_tld + mc.sizeof_mem_info : Nat) : Int) - (mem : Int)))
  have hin : ∀ x, in_region (boot_record mc mem) x ↔ (mem ≤ x ∧ x < mem + scratch_size mc) :=
    fun x => Iff.rfl
  have hfree : ∀ x, in_free (mem + stack_size mc + mc.sizeof_tld + mc.sizeof_mem_info)
      ((scratch_size mc : Int) -
        (((mem + stack_size mc + mc.sizeof_tld + mc.sizeof_mem_info : Nat) : Int) - (mem : Int)))
      x → mem + stack_size mc + mc.sizeof_tld + mc.sizeof_mem_info ≤ x := fun x hx => hx.1
  refine ⟨⟨[], mem, rfl, rfl, rfl⟩, ?_, ?_, List.pairwise_singleton _ _,
    ⟨_, List.mem_singleton_self _, rfl, ?_, ?_⟩, fun _ => ⟨⟨_, List.mem_singleton_self _, rfl,
      ?_, ?_⟩, trivial⟩, fun _ => ⟨?_, ?_⟩, fun _ => ?_⟩
  · intro c hc
    rw [List.mem_singleton.1 hc]
    exact ⟨hal, by show scratch_size mc ≠ 0; omega⟩
  · intro c hc x hx
    rw [List.mem_singleton.1 hc] at hx ⊢
    exact hmap x ((hin x).1 hx).1 ((hin x).1 hx).2
  · show mem ≤ _
    omega
  · show _ = ((mem + scratch_size mc : Nat) : Int)
    push_cast
    ring
  · show mem ≤ mem + stack_size mc + mc.sizeof_tld
    omega
  · show mem + stack_size mc + mc.sizeof_tld + mc.sizeof_mem_info ≤ mem + scratch_size mc
    omega
  · intro c hc x hx1 hx2 hf
    rw [List.mem_singleton.1 hc] at hx2
    have := hfree x hf
    have hx2a : x < mem + stack_size mc + mc.sizeof_tld + mc.sizeof_mem_info := hx2
    omega
  · intro x hx1 hx2 hf
    have := hfree x hf
    omega
  · push_cast
    omega

/-- The invariant is about the protection of the addresses, the chunk list, the address
of the thread data, the stack pointer and the scratch memory only. -/
theorem MemInv.congr {mc : MemConfig} {os os1 : OS} {tld tld1 : mem_tld}
    (hinv : MemInv mc os tld) (e0 : os1.prot = os.prot) (e1 : tld1.chunk = tld.chunk)
    (e2 : tld1.self = tld.self) (e3 : tld1.stack = tld.stack)
    (e4 : tld1.smalloc = tld.smalloc) (e5 : tld1.smalloc_size = tld.smalloc_size) :
    MemInv mc os1 tld1 := by
  unfold MemInv
  rw [e0, e1, e2, e3, e4, e5]
  exact hinv

/-- Lines 107-114 of `fbt_reinit_tls` keep the invariant. -/
theorem reinit_tables_MemInv (mc : MemConfig) (wf : mc.WF) (os os5 : OS) (tld tld4 : mem_tld)
    (hinv : MemInv mc os tld) (h : reinit_tables mc os tld = Result.ok (os5, tld4)) :
    MemInv mc os5 tld4 := by
  unfold reinit_tables at h
  obtain ⟨⟨mt, os2, tld2⟩, h1, h2⟩ := (Result.bind_eq_ok _ _ _).1 h
  simp only at h2
  obtain ⟨⟨os4, tld4a⟩, h3, h4⟩ := (Result.bind_eq_ok _ _ _).1 h2
  simp only at h4
  obtain ⟨os5a, h5, h6⟩ := (Result.bind_eq_ok _ _ _).1 h4
  injection h6 with h6
  injection h6 with e1 e2
  subst e1; subst e2
  have hinv2 := (fbt_lalloc_MemInv mc wf os os2 tld tld2 _ _ mt hinv h1).1
  have hinv4 : MemInv mc os4 tld4a := by
    split at h3
    · obtain ⟨⟨pc, os3, tld3⟩, h7, h8⟩ := (Result.bind_eq_ok _ _ _).1 h3
      simp only at h8
      injection h8 with h8
      injection h8 with e1 e2
      subst e1; subst e2
      have hinv2a : MemInv mc os2 { tld2 with mappingtable := mt } := hinv2
      exact (fbt_lalloc_MemInv mc wf os2 os3 _ tld3 _ _ pc hinv2a h7).1
    · injection h3 with h3
      injection h3 with e1 e2
      subst e1; subst e2
      exact hinv2
  obtain ⟨s1, _⟩ := store_long_inv os4 os5a _ 1 h5
  show MemInvCore mc os5a.prot _ _ _ _ _
  rw [s1]
  exact hinv4

/-- Lines 123-151 of `fbt_reinit_tls` keep the invariant. -/
theorem reinit_rest_MemInv (mc : MemConfig) (wf : mc.WF) (os os1 : OS) (tld tld1 : mem_tld)
    (hinv : MemInv mc os tld) (h : reinit_rest mc os tld = Result.ok (os1, tld1)) :
    MemInv mc os1 tld1 := by
  unfold reinit_rest at h
  simp only at h
  obtain ⟨⟨os7, tld7⟩, h1, h2⟩ := (Result.bind_eq_ok _ _ _).1 h
  simp only at h2
  refine (fbt_allocate_new_code_cache_MemInv mc wf os7 os1 tld7 tld1 ?_ h2).1
  split at h1
  · obtain ⟨⟨tbl, os6, tld6⟩, h3, h4⟩ := (Result.bind_eq_ok _ _ _).1 h1
    simp only at h4
    split at h4
    · injection h4 with h4
      injection h4 with e1 e2
      subst e1; subst e2
      have key : ∀ t pages ty, fbt_lalloc mc os t pages ty = Result.ok (tbl, os6, tld6) →
          MemInv mc os t → MemInv mc os6 tld6 :=
        fun t pages ty h hi => (fbt_lalloc_MemInv mc wf os os6 t tld6 pages ty tbl hi h).1
      have hinv6 := key _ _ _ h3 (hinv.congr rfl rfl rfl rfl rfl rfl)
      exact hinv6.congr rfl rfl rfl rfl rfl rfl
    · cases h4
  · injection h1 with h1
    injection h1 with e1 e2
    subst e1; subst e2
    exact hinv

/-- Lines 69-153 of `fbt_reinit_tls` establish the invariant when the bootstrap block is
mapped readable and writable; the thread data are at the end of the stack in the block. -/
theorem reinit_body_MemInv (mc : MemConfig) (wf : mc.WF) (os os1 : OS) (mem : Nat)
    (caller : Option Nat) (base tld1 : mem_tld) (hal : mem % mc.PAGESIZE = 0)
    (hmap : ∀ x, mem ≤ x → x < mem + scratch_size mc →
      os.prot x = some (PROT_READ ||| PROT_WRITE))
    (h : reinit_body mc os mem caller base = Result.ok (os1, tld1)) :
    MemInv mc os1 tld1 ∧ tld1.self = mem + stack_size mc := by
  unfold reinit_body at h
  split at h
  · cases h
  split at h
  · cases h
  obtain ⟨⟨os5, tld4⟩, h1, h2⟩ := (Result.bind_eq_ok _ _ _).1 h
  simp only at h2
  have hinv0 := reinit_reset_MemInv mc wf os mem base hal hmap
  have hinv4 := reinit_tables_MemInv mc wf os os5 _ tld4 hinv0 h1
  obtain ⟨_, _, hs4, _⟩ := reinit_tables_spec mc wf os os5 _ tld4 h1
  obtain ⟨_, _, _, hs1, _⟩ := reinit_rest_ext mc wf os5 os1 tld4 tld1 h2
  exact ⟨reinit_rest_MemInv mc wf os5 os1 tld4 tld1 hinv4 h2, by rw [hs1, hs4]; rfl⟩


/-- The state that `fbt_init_tls` returns satisfies the invariant. -/
theorem fbt_init_tls_MemInv (mc : MemConfig) (wf : mc.WF) (os os1 : OS) (tld1 : mem_tld)
    (h : fbt_init_tls mc os = Result.ok (os1, tld1)) : MemInv mc os1 tld1 := by
  unfold fbt_init_tls fbt_reinit_tls at h
  simp only at h
  cases hm : mmap mc os (scratch_size mc : Nat) (PROT_READ ||| PROT_WRITE) with
  | none => rw [hm] at h; cases h
  | some p =>
    obtain ⟨mem, os2⟩ := p
    rw [hm] at h
    simp only at h
    obtain ⟨_, _, hal, _, _, hprot, _⟩ := mmap_inv mc os os2 _ _ mem hm
    rw [ulen_ofNat] at hprot
    refine (reinit_body_MemInv mc wf os2 os1 mem none _ tld1 hal ?_ h).1
    intro x hx1 hx2
    rw [hprot]
    simp only
    rw [if_pos ⟨hx1, hx2⟩]

/-- What `fbt_mem_free` does in a state with the invariant: it returns, the chunk list is
the record of the bootstrap block, the block is still mapped readable and writable, and
no record was read after its memory was unmapped. -/
theorem fbt_mem_free_MemInv (mc : MemConfig) (os : OS) (tld : mem_tld)
    (hinv : MemInv mc os tld) :
    ∃ os1 mem, fbt_mem_free mc os tld
        = Result.ok (os1, { tld with chunk := [boot_record mc mem] }) ∧
      tld.self = mem + stack_size mc ∧ mem % mc.PAGESIZE = 0 ∧
      (∀ x, mem ≤ x → x < mem + scratch_size mc →
        os1.prot x = some (PROT_READ ||| PROT_WRITE)) := by
  have hcore : MemInvCore mc os.prot tld.chunk tld.self tld.stack tld.smalloc
      tld.smalloc_size := hinv
  obtain ⟨front, mem, hch, hself, _⟩ := hcore.boot
  have hvalid : ∀ c ∈ front, munmap_valid mc c := fun c hc =>
    hcore.valid c (by rw [hch]; exact List.mem_append_left _ hc)
  obtain ⟨os1, e1, _, e3, _⟩ := mem_free_loop_ok mc (boot_record mc mem) front os hvalid
  have hb : boot_record mc mem ∈ tld.chunk := by rw [hch]; simp
  refine ⟨os1, mem, ?_, hself, (hcore.valid _ hb).1, ?_⟩
  · unfold fbt_mem_free
    rw [hch, e1]
    rfl
  · intro x hx1 hx2
    have hdisj := hcore.disj
    rw [hch] at hdisj
    have hd := (List.pairwise_append.1 hdisj).2.2
    have hin : in_region (boot_record mc mem) x := ⟨hx1, hx2⟩
    rw [e3 x (fun c hc hcx => hd c hc _ (List.mem_singleton_self _) x hcx hin)]
    exact hcore.mapped _ hb x hin

/-- A returning `fbt_reinit_tls(tld)` in a state with the invariant gives a state with
the invariant, and the thread data are where they were. -/
theorem fbt_reinit_tls_MemInv (mc : MemConfig) (wf : mc.WF) (os os1 : OS) (tld tld1 : mem_tld)
    (hinv : MemInv mc os tld)
    (h : fbt_reinit_tls mc os (some tld) = Result.ok (os1, tld1)) :
    MemInv mc os1 tld1 ∧ tld1.self = tld.self := by
  obtain ⟨os2, mem, hfree, hself, hal, hmap⟩ := fbt_mem_free_MemInv mc os tld hinv
  unfold fbt_reinit_tls at h
  simp only at h
  rw [hfree] at h
  simp only [Result.bind] at h
  have hb := reinit_body_MemInv mc wf os2 os1 mem (some tld.self) _ tld1 hal hmap h
  exact ⟨hb.1, by rw [hb.2, hself]⟩

/-- Every call keeps the invariant, and every call other than `fbt_reinit_tls` keeps the
addresses in use in use. -/
theorem mem_step_MemInv (mc : MemConfig) (wf : mc.WF) (os os1 : OS) (tld tld1 : mem_tld)
    (call : MemCall) (hinv : MemInv mc os tld)
    (h : mem_step mc os tld call = Result.ok (os1, tld1)) :
    MemInv mc os1 tld1 ∧ (call.keeps → ∀ x, InUse os tld x → InUse os1 tld1 x) := by
  cases call with
  | lalloc pages type =>
    simp only [mem_step] at h
    obtain ⟨⟨r, os2, tld2⟩, h1, h2⟩ := (Result.bind_eq_ok _ _ _).1 h
    simp only at h2
    injection h2 with h2
    injection h2 with e1 e2
    subst e1; subst e2
    have := fbt_lalloc_MemInv mc wf os os2 tld tld2 pages type r hinv h1
    exact ⟨this.1, fun _ => this.2⟩
  | smalloc size =>
    simp only [mem_step] at h
    obtain ⟨⟨r, os2, tld2⟩, h1, h2⟩ := (Result.bind_eq_ok _ _ _).1 h
    simp only at h2
    injection h2 with h2
    injection h2 with e1 e2
    subst e1; subst e2
    exact ⟨(fbt_smalloc_MemInv mc wf os os2 tld tld2 size r hinv h1).1,
      fun _ => fbt_smalloc_InUse mc wf os os2 tld tld2 size r hinv h1⟩
  | new_code_cache =>
    simp only [mem_step] at h
    have := fbt_allocate_new_code_cache_MemInv mc wf os os1 tld tld1 hinv h
    exact ⟨this.1, fun _ => this.2⟩
  | create_trampoline call_target origin origin_t =>
    simp only [mem_step] at h
    obtain ⟨⟨r, os2, tld2⟩, h1, h2⟩ := (Result.bind_eq_ok _ _ _).1 h
    simp only at h2
    injection h2 with h2
    injection h2 with e1 e2
    subst e1; subst e2
    have := fbt_create_trampoline_MemInv mc wf os os2 tld tld2 _ _ _ r hinv h1
    exact ⟨this.1, fun _ => this.2⟩
  | trampoline_free trampo =>
    simp only [mem_step] at h
    injection h with h
    injection h with e1 e2
    subst e1; subst e2
    exact ⟨hinv.congr rfl rfl rfl rfl rfl rfl, fun _ x hx => hx⟩
  | reinit =>
    simp only [mem_step] at h
    exact ⟨(fbt_reinit_tls_MemInv mc wf os os1 tld tld1 hinv h).1, fun hk => absurd hk id⟩

/-- A sequence of returning calls keeps the invariant and the address of the thread data;
without `fbt_reinit_tls` among the calls it keeps the addresses in use in use. -/
theorem mem_run_MemInv (mc : MemConfig) (wf : mc.WF) (calls : List MemCall) :
    ∀ (os os1 : OS) (tld tld1 : mem_tld), MemInv mc os tld →
      mem_run mc calls os tld = Result.ok (os1, tld1) →
      MemInv mc os1 tld1 ∧
      ((∀ call ∈ calls, call.keeps) → ∀ x, InUse os tld x → InUse os1 tld1 x) := by
  induction calls with
  | nil =>
    intro os os1 tld tld1 hinv h
    simp only [mem_run] at h
    injection h with h
    injection h with e1 e2
    subst e1; subst e2
    exact ⟨hinv, fun _ x hx => hx⟩
  | cons call rest ih =>
    intro os os1 tld tld1 hinv h
    simp only [mem_run] at h
    obtain ⟨⟨os2, tld2⟩, h1, h2⟩ := (Result.bind_eq_ok _ _ _).1 h
    simp only at h2
    obtain ⟨hinv2, hk2⟩ := mem_step_MemInv mc wf os os2 tld tld2 call hinv h1
    obtain ⟨hinv1, hk1⟩ := ih os2 os1 tld2 tld1 hinv2 h2
    refine ⟨hinv1, fun hall x hx => ?_⟩
    exact hk1 (fun c hc => hall c (List.mem_cons_of_mem _ hc)) x
      (hk2 (hall call (List.mem_cons_self _ _)) x hx)

/-- Every state of a thread satisfies the invariant. -/
theorem reachable_MemInv (mc : MemConfig) (wf : mc.WF) (os : OS) (tld : mem_tld)
    (hr : Reachable mc os tld) : MemInv mc os tld := by
  obtain ⟨os0, calls, os1, tld1, hinit, hrun⟩ := hr
  exact (mem_run_MemInv mc wf calls os1 os tld1 tld
    (fbt_init_tls_MemInv mc wf os0 os1 tld1 hinit) hrun).1


/-! ## C16: data pages are not executable -/

theorem lalloc_flags_cases (mc : MemConfig) (type : mem_type) :
    (lalloc_flags mc type = PROT_READ ||| PROT_WRITE ||| PROT_EXEC ∧
      (type = mem_type.MT_CODE_CACHE ∨ type = mem_type.MT_TRAMPOLINE)) ∨
    ((lalloc_flags mc type = PROT_READ ||| PROT_WRITE ∨ lalloc_flags mc type = 0) ∧
      type ≠ mem_type.MT_CODE_CACHE ∧ type ≠ mem_type.MT_TRAMPOLINE) := by
  cases type
  case MT_CODE_CACHE => exact Or.inl ⟨rfl, Or.inl rfl⟩
  case MT_TRAMPOLINE => exact Or.inl ⟨rfl, Or.inr rfl⟩
  case MT_INTERNAL => exact Or.inr ⟨Or.inl rfl, by decide, by decide⟩
  case MT_MAPPING_TABLE => exact Or.inr ⟨Or.inl rfl, by decide, by decide⟩
  case MT_PC_MAPPING_TABLE =>
    refine Or.inr ⟨?_, by decide, by decide⟩
    cases h : mc.arm <;> simp [lalloc_flags, h]
  case MT_SHARED_DATA =>
    refine Or.inr ⟨?_, by decide, by decide⟩
    cases h : mc.SHARED_DATA <;> simp [lalloc_flags, h]
  case MT_SYSCALL_TABLE =>
    refine Or.inr ⟨?_, by decide, by decide⟩
    cases h : mc.AUTHORIZE_SYSCALLS <;> simp [lalloc_flags, h]
  case MT_ICF_PREDICT =>
    refine Or.inr ⟨?_, by decide, by decide⟩
    cases h : mc.ICF_PREDICT <;> simp [lalloc_flags, h]

/-- C16 (as amended): `fbt_lalloc` asks for `PROT_EXEC` if and only if the type is the
code cache or the trampoline pool, for which it asks for read, write and execute; for
every other type it asks for read and write when the `case` label of the type is
compiled in, as it always is for `MT_INTERNAL` and `MT_MAPPING_TABLE`, and for no access
at all (`flags = 0`) when the build leaves the label out. The bootstrap block that `fbt_init_tls` maps and the scratch block that
`fbt_smalloc` maps are readable and writable and not executable. Hence in every state of
a thread every address of a tracked chunk whose type is not the code cache or the
trampoline pool is mapped without `PROT_EXEC`. -/
theorem data_pages_not_executable (mc : MemConfig) (wf : mc.WF) :
    (∀ type, lalloc_flags mc type &&& PROT_EXEC ≠ 0 ↔
      (type = mem_type.MT_CODE_CACHE ∨ type = mem_type.MT_TRAMPOLINE)) ∧
    (∀ type, (type = mem_type.MT_CODE_CACHE ∨ type = mem_type.MT_TRAMPOLINE) →
      lalloc_flags mc type = PROT_READ ||| PROT_WRITE ||| PROT_EXEC) ∧
    (∀ type, type ≠ mem_type.MT_CODE_CACHE → type ≠ mem_type.MT_TRAMPOLINE →
      lalloc_flags mc type = PROT_READ ||| PROT_WRITE ∨ lalloc_flags mc type = 0) ∧
    (lalloc_flags mc mem_type.MT_INTERNAL = PROT_READ ||| PROT_WRITE ∧
      lalloc_flags mc mem_type.MT_MAPPING_TABLE = PROT_READ ||| PROT_WRITE ∧
      (mc.arm = true →
        lalloc_flags mc mem_type.MT_PC_MAPPING_TABLE = PROT_READ ||| PROT_WRITE) ∧
      (mc.SHARED_DATA = true →
        lalloc_flags mc mem_type.MT_SHARED_DATA = PROT_READ ||| PROT_WRITE) ∧
      (mc.AUTHORIZE_SYSCALLS = true →
        lalloc_flags mc mem_type.MT_SYSCALL_TABLE = PROT_READ ||| PROT_WRITE) ∧
      (mc.ICF_PREDICT = true →
        lalloc_flags mc mem_type.MT_ICF_PREDICT = PROT_READ ||| PROT_WRITE) ∧
      (mc.arm = false → lalloc_flags mc mem_type.MT_PC_MAPPING_TABLE = 0) ∧
      (mc.SHARED_DATA = false → lalloc_flags mc mem_type.MT_SHARED_DATA = 0) ∧
      (mc.AUTHORIZE_SYSCALLS = false → lalloc_flags mc mem_type.MT_SYSCALL_TABLE = 0) ∧
      (mc.ICF_PREDICT = false → lalloc_flags mc mem_type.MT_ICF_PREDICT = 0)) ∧
    (PROT_READ ||| PROT_WRITE) &&& PROT_EXEC = 0 ∧
    (∀ os os1 tld1, fbt_init_tls mc os = Result.ok (os1, tld1) →
      ∃ mem, tld1.self = mem + stack_size mc ∧ boot_record mc mem ∈ tld1.chunk ∧
        ∀ x, mem ≤ x → x < mem + scratch_size mc →
          os1.prot x = some (PROT_READ ||| PROT_WRITE)) ∧
    (∀ os os1 tld tld1 size p, fbt_smalloc mc os tld size = Result.ok (p, os1, tld1) →
      tld.smalloc_size < size →
      ∃ mem, p = mem + mc.sizeof_mem_info ∧
        tld1.chunk = scratch_record mc mem :: tld.chunk ∧
        ∀ x, mem ≤ x → x < mem + scratch_size mc →
          os.prot x = none ∧ os1.prot x = some (PROT_READ ||| PROT_WRITE)) ∧
    (∀ os tld, Reachable mc os tld → ∀ c ∈ tld.chunk,
      c.type ≠ mem_type.MT_CODE_CACHE → c.type ≠ mem_type.MT_TRAMPOLINE →
      ∀ x, in_region c x → ∃ f, os.prot x = some f ∧ f &&& PROT_EXEC = 0) := by
  have hdata : ∀ type, type ≠ mem_type.MT_CODE_CACHE → type ≠ mem_type.MT_TRAMPOLINE →
      lalloc_flags mc type = PROT_READ ||| PROT_WRITE ∨ lalloc_flags mc type = 0 := by
    intro type h1 h2
    rcases lalloc_flags_cases mc type with ⟨_, h | h⟩ | ⟨h, _⟩
    · exact absurd h h1
    · exact absurd h h2
    · exact h
  have hnx : ∀ type, type ≠ mem_type.MT_CODE_CACHE → type ≠ mem_type.MT_TRAMPOLINE →
      lalloc_flags mc type &&& PROT_EXEC = 0 := by
    intro type h1 h2
    rcases hdata type h1 h2 with h | h <;> rw [h] <;> decide
  refine ⟨?_, ?_, hdata, ⟨rfl, rfl, ?_, ?_, ?_, ?_, ?_, ?_, ?_, ?_⟩, by decide, ?_, ?_, ?_⟩
  · intro type
    constructor
    · intro h
      by_contra hno
      push_neg at hno
      exact h (hnx type hno.1 hno.2)
    · intro h
      rcases h with h | h <;> rw [h] <;>
        (show (PROT_READ ||| PROT_WRITE ||| PROT_EXEC) &&& PROT_EXEC ≠ 0; decide)
  · intro type h
    rcases h with h | h <;> rw [h] <;> rfl
  · intro h; simp [lalloc_flags, h]
  · intro h; simp [lalloc_flags, h]
  · intro h; simp [lalloc_flags, h]
  · intro h; simp [lalloc_flags, h]
  · intro h; simp [lalloc_flags, h]
  · intro h; simp [lalloc_flags, h]
  · intro h; simp [lalloc_flags, h]
  · intro h; simp [lalloc_flags, h]
  · intro os os1 tld1 h
    have hinv : MemInvCore mc os1.prot tld1.chunk tld1.self tld1.stack tld1.smalloc
        tld1.smalloc_size := fbt_init_tls_MemInv mc wf os os1 tld1 h
    obtain ⟨front, mem, hch, hself, _⟩ := hinv.boot
    have hb : boot_record mc mem ∈ tld1.chunk := by rw [hch]; simp
    exact ⟨mem, hself, hb, fun x h1 h2 => hinv.mapped _ hb x ⟨h1, h2⟩⟩
  · intro os os1 tld tld1 size p h hlt
    obtain ⟨_, _, hc⟩ := fbt_smalloc_inv mc wf os os1 tld tld1 size p h
    rcases hc with ⟨hfit, _⟩ | ⟨_, mem, hm, hp, htld⟩
    · omega
    · obtain ⟨_, _, _, hfresh, _, hprot, _⟩ := mmap_inv mc os os1 _ _ mem hm
      rw [ulen_ofNat] at hfresh hprot
      refine ⟨mem, hp, by rw [htld]; rfl, fun x h1 h2 => ⟨hfresh x h2 h1, ?_⟩⟩
      rw [hprot]
      simp only
      rw [if_pos ⟨h1, h2⟩]
  · intro os tld hr c hc h1 h2 x hx
    have hinv : MemInvCore mc os.prot tld.chunk tld.self tld.stack tld.smalloc
        tld.smalloc_size := reachable_MemInv mc wf os tld hr
    exact ⟨_, hinv.mapped c hc x hx, hnx c.type h1 h2⟩

set_option maxRecDepth 1000000 in
/-- C16, witness: after `fbt_init_tls` the address `512` of the mapping table is mapped
without `PROT_EXEC`. -/
theorem data_pages_not_executable_witness :
    ∃ f, exampleInit.1.prot 512 = some f ∧ f &&& PROT_EXEC = 0 :=
  (data_pages_not_executable exampleMem exampleMem_wf).2.2.2.2.2.2.2 exampleInit.1
    exampleInit.2 ⟨exampleOS, [], exampleInit.1, exampleInit.2, exampleInit_eq, rfl⟩
    { addr := 344, ptr := 512, size := 272, type := mem_type.MT_MAPPING_TABLE }
    (List.mem_cons_of_mem _ (List.mem_cons_self _ _)) (by decide) (by decide) 512
    (by decide)

set_option maxRecDepth 1000000 in
/-- C16, counterexample: in a build without `SHARED_DATA` the first `switch` of
`fbt_lalloc` has no label for `MT_SHARED_DATA` and `flags` stays `0`: the page that
`fbt_lalloc(tld, 1, MT_SHARED_DATA)` returns after `fbt_init_tls` is mapped with no
access at all, not for reading and writing. -/
theorem data_pages_shared_no_access :
    exampleMem.SHARED_DATA = false ∧
    mem_type.MT_SHARED_DATA ≠ mem_type.MT_CODE_CACHE ∧
    mem_type.MT_SHARED_DATA ≠ mem_type.MT_TRAMPOLINE ∧
    lalloc_flags exampleMem mem_type.MT_SHARED_DATA = 0 ∧
    lalloc_flags exampleMem mem_type.MT_SHARED_DATA ≠ PROT_READ ||| PROT_WRITE ∧
    ∃ r os2 tld2,
      fbt_lalloc exampleMem exampleInit.1 exampleInit.2 1 mem_type.MT_SHARED_DATA
        = Result.ok (r, os2, tld2) ∧
      os2.prot r = some 0 :=
  ⟨rfl, by decide, by decide, rfl, by decide, _, _, _, rfl, rfl⟩

/-! ## C20: the walk of `fbt_mem_free` reads mapped records only -/

/-- The walk of `fbt_mem_free` over a chunk list whose regions are valid for `munmap` and
pairwise disjoint, whose records are stored in internal chunks that are not earlier in
the list, and whose internal chunks are mapped readable: it returns, and no record is
read from unmapped memory. -/
theorem mem_free_loop_reads (mc : MemConfig) :
    ∀ (l : List mem_info) (os : OS), l ≠ [] → (∀ c ∈ l, munmap_valid mc c) →
      l.Pairwise (fun c d => ∀ x, in_region c x → ¬ in_region d x) → Stored mc l →
      (∀ d ∈ l, d.type = mem_type.MT_INTERNAL → ∀ x, in_region d x →
        ∃ f, os.prot x = some f ∧ f &&& PROT_READ ≠ 0) →
      ∃ os1 rest, mem_free_loop mc os l = Result.ok (os1, rest) ∧
        os1.bad_reads = os.bad_reads := by
  intro l
  induction l with
  | nil => intro os h; exact absurd rfl h
  | cons c rest ih =>
    intro os _ hvalid hdisj hstored hread
    have hrd : record_readable mc os c.addr := by
      obtain ⟨d, hd, hty, h1, h2⟩ := hstored.1
      intro i hi
      exact hread d hd hty (c.addr + i) ⟨by omega, by omega⟩
    have hrc : read_chunk mc os c = os := by
      unfold read_chunk
      rw [if_pos hrd]
    cases rest with
    | nil => exact ⟨os, [c], by simp only [mem_free_loop]; rw [hrc], rfl⟩
    | cons c1 rest1 =>
      have hvc := hvalid c (List.mem_cons_self _ _)
      have hmun : munmap mc os c.ptr c.size
          = some { os with
              prot := fun x => if c.ptr ≤ x ∧ x < c.ptr + ulen c.size then none else os.prot x
              munmap_log := os.munmap_log ++ [(c.ptr, c.size)] } := by
        unfold munmap
        rw [if_neg]
        intro h
        rcases h with h | h
        · exact h hvc.1
        · exact hvc.2 h
      obtain ⟨hhead, htail⟩ := List.pairwise_cons.1 hdisj
      obtain ⟨os1, rest2, e1, e2⟩ := ih
        { os with
          prot := fun x => if c.ptr ≤ x ∧ x < c.ptr + ulen c.size then none else os.prot x
          munmap_log := os.munmap_log ++ [(c.ptr, c.size)] }
        (List.cons_ne_nil _ _) (fun d hd => hvalid d (List.mem_cons_of_mem _ hd)) htail
        hstored.2
        (fun d hd hty x hx => by
          have hnc : ¬ (c.ptr ≤ x ∧ x < c.ptr + ulen c.size) := fun hc => hhead d hd x hc hx
          simp only [if_neg hnc]
          exact hread d (List.mem_cons_of_mem _ hd) hty x hx)
      refine ⟨os1, rest2, ?_, e2⟩
      simp only [mem_free_loop]
      rw [hrc, hmun]
      exact e1

/-- C20: let a scratch block hold two chunk records. In every state of a thread every
chunk record is stored in the region of a chunk of the type `MT_INTERNAL` that is the
record's own chunk or comes later in the chunk list, and that region is mapped readable;
`fbt_mem_free` returns, and it reads no record from unmapped memory: a record is read
before the `munmap` call of its round, and the regions unmapped in the rounds before are
disjoint from the internal chunk that holds it. -/
theorem fbt_mem_free_reads_mapped (mc : MemConfig) (wf : mc.WF)
    (hrec : 2 * mc.sizeof_mem_info ≤ scratch_size mc) (os : OS) (tld : mem_tld)
    (hr : Reachable mc os tld) :
    Stored mc tld.chunk ∧ (∀ c ∈ tld.chunk, record_readable mc os c.addr) ∧
    ∃ os1 tld1, fbt_mem_free mc os tld = Result.ok (os1, tld1) ∧
      os1.bad_reads = os.bad_reads := by
  have hinv : MemInvCore mc os.prot tld.chunk tld.self tld.stack tld.smalloc
      tld.smalloc_size := reachable_MemInv mc wf os tld hr
  have hread : ∀ d ∈ tld.chunk, d.type = mem_type.MT_INTERNAL → ∀ x, in_region d x →
      ∃ f, os.prot x = some f ∧ f &&& PROT_READ ≠ 0 := by
    intro d hd hty x hx
    refine ⟨_, hinv.mapped d hd x hx, ?_⟩
    rw [hty]
    show (PROT_READ ||| PROT_WRITE) &&& PROT_READ ≠ 0
    decide
  have hne : tld.chunk ≠ [] := by
    obtain ⟨front, mem, hch, _⟩ := hinv.boot
    rw [hch]
    simp
  refine ⟨hinv.stored hrec, ?_, ?_⟩
  · intro c hc i hi
    obtain ⟨d, hd, hty, h1, h2⟩ := Stored.mem mc tld.chunk (hinv.stored hrec) c hc
    exact hread d hd hty (c.addr + i) ⟨by omega, by omega⟩
  · obtain ⟨os1, rest, e1, e2⟩ := mem_free_loop_reads mc tld.chunk os hne hinv.valid hinv.disj
      (hinv.stored hrec) hread
    refine ⟨os1, { tld with chunk := rest }, ?_, e2⟩
    unfold fbt_mem_free
    rw [e1]
    rfl

set_option maxRecDepth 100000 in
/-- C20, witness: the state after `fbt_init_tls`, with the chunks of the code cache, the
mapping table and the bootstrap block: every record is stored in the bootstrap block, and
`fbt_mem_free` returns without a read of unmapped memory. -/
theorem fbt_mem_free_reads_mapped_witness :
    Stored exampleMem exampleInit.2.chunk ∧
    (∀ c ∈ exampleInit.2.chunk, record_readable exampleMem exampleInit.1 c.addr) ∧
    ∃ os1 tld1, fbt_mem_free exampleMem exampleInit.1 exampleInit.2 = Result.ok (os1, tld1) ∧
      os1.bad_reads = exampleInit.1.bad_reads :=
  fbt_mem_free_reads_mapped exampleMem exampleMem_wf (by decide) exampleInit.1 exampleInit.2
    ⟨exampleOS, [], exampleInit.1, exampleInit.2, exampleInit_eq, rfl⟩


/-! ## C14: the address of the thread data -/

theorem OkOrSyscall.bind {α β : Type} (r : Result α) (f : α → Result β)
    (hr : OkOrSyscall r) (hf : ∀ a, r = Result.ok a → OkOrSyscall (f a)) :
    OkOrSyscall (r.bind f) := by
  rcases hr with ⟨a, ha⟩ | hs
  · rw [ha]
    exact hf a ha
  · rw [hs]
    exact Or.inr rfl

/-- A call of `fbt_lalloc` with `pages > 0` returns unless the kernel refuses a mapping. -/
theorem fbt_lalloc_total (mc : MemConfig) (wf : mc.WF) (os : OS) (tld : mem_tld)
    (pages : Int) (type : mem_type) (hp : 0 < pages) :
    OkOrSyscall (fbt_lalloc mc os tld pages type) := by
  unfold fbt_lalloc
  rw [if_neg (by omega)]
  have hrp := wf.record_pos
  have hrs := wf.record_small
  apply OkOrSyscall.bind
  · rcases fbt_smalloc_cases mc wf os tld (mc.sizeof_mem_info : Nat) with
      ⟨h, _⟩ | ⟨_, _, _, e⟩ | ⟨_, _, _, _, e⟩ | ⟨_, _, _, mem, os1, _, e⟩
    · omega
    · exact Or.inl ⟨_, e⟩
    · exact Or.inr e
    · exact Or.inl ⟨_, e⟩
  · rintro ⟨chunk, os1, tld1⟩ _
    simp only
    cases mmap mc os1 (int32 (pages * (mc.PAGESIZE : Nat))) (lalloc_flags mc type) with
    | none => exact Or.inr rfl
    | some q =>
      obtain ⟨r, os2⟩ := q
      simp only
      split
      · exact Or.inl ⟨_, rfl⟩
      · exact Or.inl ⟨_, rfl⟩

/-- The allocation of the PC mapping table extends the state and keeps the mapping
table. -/
theorem reinit_pc_ext (mc : MemConfig) (wf : mc.WF) (os2 os4 : OS) (tld2 tld4 : mem_tld)
    (mt : Nat)
    (h3 : (if mc.arm then
        (fbt_lalloc mc os2 { tld2 with mappingtable := mt }
          ((mc.PC_MAPPINGTABLE_SIZE / mc.PAGESIZE + 1 : Nat) : Int)
          mem_type.MT_PC_MAPPING_TABLE).bind fun (pc, os3, tld3) =>
            Result.ok (os3, { tld3 with pc_mappingtable := pc })
       else Result.ok (os2, { tld2 with mappingtable := mt })) = Result.ok (os4, tld4)) :
    (∀ x, os2.prot x ≠ none → os4.prot x = os2.prot x) ∧ tld4.mappingtable = mt := by
  cases harm : mc.arm with
  | false =>
    rw [harm] at h3
    simp only [Bool.false_eq_true, if_false] at h3
    injection h3 with h3
    injection h3 with e1 e2
    subst e1; subst e2
    exact ⟨fun _ _ => rfl, rfl⟩
  | true =>
    rw [harm] at h3
    simp only [if_true] at h3
    obtain ⟨⟨pc, os3, tld3⟩, h7, h8⟩ := (Result.bind_eq_ok _ _ _).1 h3
    simp only at h8
    injection h8 with h8
    injection h8 with e1 e2
    subst e1; subst e2
    obtain ⟨hext, _⟩ := fbt_lalloc_ext mc wf os2 os3 _ tld3 _ _ pc h7
    obtain ⟨a1, _, a3, _⟩ := hext
    exact ⟨fun x hx => (a1 x hx).1, a3⟩

/-- Lines 107-114 of `fbt_reinit_tls` return unless the kernel refuses a mapping. -/
theorem reinit_tables_total (mc : MemConfig) (wf : mc.WF) (os : OS) (tld : mem_tld) :
    OkOrSyscall (reinit_tables mc os tld) := by
  unfold reinit_tables
  apply OkOrSyscall.bind
  · exact fbt_lalloc_total mc wf os tld _ _ (by exact_mod_cast Nat.succ_pos _)
  · rintro ⟨mt, os2, tld2⟩ h1
    simp only
    apply OkOrSyscall.bind
    · split
      · apply OkOrSyscall.bind
        · exact fbt_lalloc_total mc wf os2 _ _ _ (by exact_mod_cast Nat.succ_pos _)
        · rintro ⟨pc, os3, tld3⟩ _
          exact Or.inl ⟨_, rfl⟩
      · exact Or.inl ⟨_, rfl⟩
    · rintro ⟨os4, tld4⟩ h3
      simp only
      obtain ⟨_, _, hreg, _⟩ := fbt_lalloc_ext mc wf os os2 tld tld2 _ _ mt h1
      rw [alloc_size_eq mc _ wf.table_int, ulen_ofNat] at hreg
      obtain ⟨hkeep, hmt⟩ := reinit_pc_ext mc wf os2 os4 tld2 tld4 mt h3
      have hsize := pages_gt mc.ccache.MAPPINGTABLE_SIZE mc.PAGESIZE wf.page_pos
      have h2 := (hreg (mt + mc.ccache.MAPPINGTABLE_SIZE) (by omega) (by omega)).1
      have h4 : os4.prot (tld4.mappingtable + mc.ccache.MAPPINGTABLE_SIZE)
          = some (PROT_READ ||| PROT_WRITE) := by
        rw [hmt, hkeep _ (by rw [h2]; exact fun e => Option.noConfusion e), h2]
        rfl
      apply OkOrSyscall.bind
      · left
        unfold store_long
        rw [h4]
        exact ⟨_, rfl⟩
      · intro os5 _
        exact Or.inl ⟨_, rfl⟩

/-- Lines 123-151 of `fbt_reinit_tls` return unless the kernel refuses a mapping. -/
theorem reinit_rest_total (mc : MemConfig) (wf : mc.WF) (os : OS) (tld : mem_tld) :
    OkOrSyscall (reinit_rest mc os tld) := by
  unfold reinit_rest
  simp only
  apply OkOrSyscall.bind
  · split
    · rename_i hauth
      have hpc := wf.syscall_pages hauth
      apply OkOrSyscall.bind
      · apply fbt_lalloc_total mc wf
        rw [hpc]
        decide
      · rintro ⟨tbl, os6, tld6⟩ _
        simp only
        rw [if_pos hpc]
        exact Or.inl ⟨_, rfl⟩
    · exact Or.inl ⟨_, rfl⟩
  · rintro ⟨os7, tld7⟩ _
    simp only
    unfold fbt_allocate_new_code_cache
    apply OkOrSyscall.bind
    · exact fbt_lalloc_total mc wf os7 tld7 _ _ (by have := wf.cache_pos; omega)
    · rintro ⟨mem, os1, tld1⟩ _
      exact Or.inl ⟨_, rfl⟩

/-- Lines 69-153 of `fbt_reinit_tls`, called with `NULL` or with the address that the
thread data have in the bootstrap block, return unless the kernel refuses a mapping. -/
theorem reinit_body_total (mc : MemConfig) (wf : mc.WF) (os : OS) (mem : Nat)
    (caller : Option Nat) (base : mem_tld)
    (hc : caller = none ∨ caller = some (mem + stack_size mc)) :
    OkOrSyscall (reinit_body mc os mem caller base) := by
  unfold reinit_body
  rw [if_neg (by
    rintro ⟨h1, h2⟩
    rcases hc with h | h
    · exact h1 h
    · exact h2 h)]
  have hbf := wf.boot_fits
  rw [if_neg (by
    show ¬ ((scratch_size mc : Int) -
      (((mem + stack_size mc + mc.sizeof_tld + mc.sizeof_mem_info : Nat) : Int) - (mem : Int))
      ≤ 0)
    push_cast
    omega)]
  apply OkOrSyscall.bind
  · exact reinit_tables_total mc wf os _
  · rintro ⟨os5, tld4⟩ _
    exact reinit_rest_total mc wf os5 tld4


theorem mem_run_snoc (mc : MemConfig) (call : MemCall) (calls : List MemCall) :
    ∀ (os os1 os2 : OS) (tld tld1 tld2 : mem_tld),
      mem_run mc calls os tld = Result.ok (os1, tld1) →
      mem_step mc os1 tld1 call = Result.ok (os2, tld2) →
      mem_run mc (calls ++ [call]) os tld = Result.ok (os2, tld2) := by
  induction calls with
  | nil =>
    intro os os1 os2 tld tld1 tld2 h1 h2
    simp only [mem_run] at h1
    injection h1 with h1
    injection h1 with e1 e2
    subst e1; subst e2
    simp only [List.nil_append, mem_run]
    rw [h2]
    rfl
  | cons c rest ih =>
    intro os os1 os2 tld tld1 tld2 h1 h2
    simp only [mem_run] at h1
    obtain ⟨⟨os3, tld3⟩, h3, h4⟩ := (Result.bind_eq_ok _ _ _).1 h1
    simp only at h4
    simp only [List.cons_append, mem_run]
    rw [h3]
    exact ih os3 os1 os2 tld3 tld1 tld2 h4 h2

/-- A returning call leads from a state of a thread to a state of a thread. -/
theorem Reachable.step {mc : MemConfig} {os os1 : OS} {tld tld1 : mem_tld}
    (hr : Reachable mc os tld) (call : MemCall)
    (h : mem_step mc os tld call = Result.ok (os1, tld1)) : Reachable mc os1 tld1 := by
  obtain ⟨os0, calls, osi, tldi, hinit, hrun⟩ := hr
  exact ⟨os0, calls ++ [call], osi, tldi, hinit,
    mem_run_snoc mc call calls osi os os1 tldi tld tld1 hrun h⟩

/-- C14: in every state of a thread, that is, after `fbt_init_tls` and any sequence of
returning calls of `fbt_lalloc`, `fbt_smalloc`, the allocation of a code cache, the
functions of the trampolines and `fbt_reinit_tls`, the last chunk of the chunk list is
the record of the bootstrap block, `ptr + BT_STACK_SIZE * PAGESIZE` of that chunk is the
address of the thread data, and `tld->stack` is that address. So `fbt_reinit_tls(tld)`
does not fail at its assertion of line 72; it returns unless the kernel refuses one of
its mappings; and when it returns, the thread data are at the same address, `tld->stack`
is that address, and the state is a state of the thread again. -/
theorem tld_address_stable (mc : MemConfig) (wf : mc.WF) (os : OS) (tld : mem_tld)
    (hr : Reachable mc os tld) :
    (∃ front mem, tld.chunk = front ++ [boot_record mc mem] ∧
      (boot_record mc mem).ptr + mc.BT_STACK_SIZE * mc.PAGESIZE = tld.self ∧
      tld.stack = tld.self) ∧
    fbt_reinit_tls mc os (some tld) ≠ Result.stop (Stop.assertion 72) ∧
    OkOrSyscall (fbt_reinit_tls mc os (some tld)) ∧
    ∀ os1 tld1, fbt_reinit_tls mc os (some tld) = Result.ok (os1, tld1) →
      tld1.self = tld.self ∧ tld1.stack = tld1.self ∧ Reachable mc os1 tld1 := by
  have hinv := reachable_MemInv mc wf os tld hr
  have hcore : MemInvCore mc os.prot tld.chunk tld.self tld.stack tld.smalloc
      tld.smalloc_size := hinv
  have htotal : OkOrSyscall (fbt_reinit_tls mc os (some tld)) := by
    obtain ⟨os2, mem, hfree, hself, _, _⟩ := fbt_mem_free_MemInv mc os tld hinv
    unfold fbt_reinit_tls
    simp only
    rw [hfree]
    simp only [Result.bind]
    exact reinit_body_total mc wf os2 mem _ _ (Or.inr (by rw [hself]))
  refine ⟨?_, ?_, htotal, ?_⟩
  · obtain ⟨front, mem, hch, hself, hstack⟩ := hcore.boot
    exact ⟨front, mem, hch, hself.symm, hstack⟩
  · rcases htotal with ⟨a, ha⟩ | hs
    · rw [ha]
      exact fun e => Result.noConfusion e
    · rw [hs]
      intro e
      injection e with e
      cases e
  · intro os1 tld1 h
    obtain ⟨hinv1, hself⟩ := fbt_reinit_tls_MemInv mc wf os os1 tld tld1 hinv h
    have hcore1 : MemInvCore mc os1.prot tld1.chunk tld1.self tld1.stack tld1.smalloc
        tld1.smalloc_size := hinv1
    obtain ⟨_, _, _, _, hstack⟩ := hcore1.boot
    exact ⟨hself, hstack, hr.step MemCall.reinit h⟩

set_option maxRecDepth 1000000 in
/-- C14, witness: after `fbt_init_tls` the thread data are at `288`; `fbt_reinit_tls`
returns, and the thread data and `tld->stack` are at `288` again. -/
theorem tld_address_stable_witness :
    exampleInit.2.self = 288 ∧
    ∃ os1 tld1, fbt_reinit_tls exampleMem exampleInit.1 (some exampleInit.2)
        = Result.ok (os1, tld1) ∧
      tld1.self = exampleInit.2.self ∧ tld1.stack = tld1.self :=
  ⟨rfl, _, _, rfl,
    ((tld_address_stable exampleMem exampleMem_wf exampleInit.1 exampleInit.2
      ⟨exampleOS, [], exampleInit.1, exampleInit.2, exampleInit_eq, rfl⟩).2.2.2 _ _ rfl).1,
    ((tld_address_stable exampleMem exampleMem_wf exampleInit.1 exampleInit.2
      ⟨exampleOS, [], exampleInit.1, exampleInit.2, exampleInit_eq, rfl⟩).2.2.2 _ _ rfl).2.1⟩


/-! ## C24: the scratch allocator -/

/-- C24: let a scratch block hold a chunk record and a request of the largest size,
`SMALLOC_MAX + sizeof(struct mem_info) <= SMALLOC_PAGES * PAGESIZE`. In every state of a
thread, `fbt_smalloc(size)` ends the process with its own message exactly when
`size > SMALLOC_MAX` or `size <= 0`. For `0 < size <= SMALLOC_MAX` it returns, unless it
needs a new scratch block and the kernel refuses the mapping. When it returns `p`, the
block `[p, p + size)` lies in the region of a tracked chunk of the type `MT_INTERNAL`; no
address of the block belongs to the stack or the thread data, to a chunk record of the
list, or was in use before the call, that is, mapped and not scratch memory that had not
been handed out, and every address of it is in use afterwards; a block that
`fbt_smalloc` returns after any further calls other than `fbt_reinit_tls` is disjoint
from it; `tld->smalloc_size` is not negative, and `tld->smalloc + tld->smalloc_size` is
the end of an internal chunk that `tld->smalloc` points into. -/
theorem fbt_smalloc_sound (mc : MemConfig) (wf : mc.WF)
    (hmax : mc.SMALLOC_MAX + mc.sizeof_mem_info ≤ scratch_size mc) (os : OS) (tld : mem_tld)
    (hr : Reachable mc os tld) (size : Int) :
    (fbt_smalloc mc os tld size = Result.stop Stop.suicide ↔
      (size > (mc.SMALLOC_MAX : Int) ∨ size ≤ 0)) ∧
    (0 < size → size ≤ (mc.SMALLOC_MAX : Int) →
      OkOrSyscall (fbt_smalloc mc os tld size) ∧
      (size ≤ tld.smalloc_size → ∃ a, fbt_smalloc mc os tld size = Result.ok a) ∧
      ∀ p os1 tld1, fbt_smalloc mc os tld size = Result.ok (p, os1, tld1) →
        (∃ d ∈ tld1.chunk, d.type = mem_type.MT_INTERNAL ∧ d.ptr ≤ p ∧
          p + size.toNat ≤ d.ptr + ulen d.size) ∧
        (∀ x, p ≤ x → x < p + size.toNat →
          ¬ (tld.self ≤ x + stack_size mc ∧ x < tld.self + mc.sizeof_tld) ∧
          (∀ c ∈ tld1.chunk, ¬ (c.addr ≤ x ∧ x < c.addr + mc.sizeof_mem_info)) ∧
          ¬ InUse os tld x ∧ InUse os1 tld1 x) ∧
        (∀ calls os2 tld2, (∀ call ∈ calls, call.keeps) →
          mem_run mc calls os1 tld1 = Result.ok (os2, tld2) →
          ∀ size2 p2 os3 tld3, fbt_smalloc mc os2 tld2 size2 = Result.ok (p2, os3, tld3) →
            ∀ x, p ≤ x → x < p + size.toNat → ¬ (p2 ≤ x ∧ x < p2 + size2.toNat)) ∧
        0 ≤ tld1.smalloc_size ∧
        ∃ d ∈ tld1.chunk, d.type = mem_type.MT_INTERNAL ∧ d.ptr ≤ tld1.smalloc ∧
          (tld1.smalloc : Int) + tld1.smalloc_size = ((d.ptr + ulen d.size : Nat) : Int)) := by
  have hrs := wf.record_small
  have hrec : 2 * mc.sizeof_mem_info ≤ scratch_size mc := by omega
  have hinv := reachable_MemInv mc wf os tld hr
  have hcore : MemInvCore mc os.prot tld.chunk tld.self tld.stack tld.smalloc
      tld.smalloc_size := hinv
  refine ⟨?_, ?_⟩
  · rcases fbt_smalloc_cases mc wf os tld size with
      ⟨hc, e⟩ | ⟨h0, h1, _, e⟩ | ⟨h0, h1, _, _, e⟩ | ⟨h0, h1, _, mem, os1, _, e⟩
    · exact ⟨fun _ => hc, fun _ => e⟩
    · rw [e]
      exact ⟨fun e1 => Result.noConfusion e1, fun hc => by omega⟩
    · rw [e]
      refine ⟨fun e1 => ?_, fun hc => by omega⟩
      injection e1 with e1
      cases e1
    · rw [e]
      exact ⟨fun e1 => Result.noConfusion e1, fun hc => by omega⟩
  · intro h0 h1
    have hsz : mc.sizeof_mem_info + size.toNat ≤ scratch_size mc := by omega
    refine ⟨?_, ?_, ?_⟩
    · rcases fbt_smalloc_cases mc wf os tld size with
        ⟨hc, _⟩ | ⟨_, _, _, e⟩ | ⟨_, _, _, _, e⟩ | ⟨_, _, _, mem, os1, _, e⟩
      · omega
      · exact Or.inl ⟨_, e⟩
      · exact Or.inr e
      · exact Or.inl ⟨_, e⟩
    · intro hfit
      exact ⟨_, smalloc_fuel_fits mc _ os tld size h0 h1 hfit⟩
    · intro p os1 tld1 h
      obtain ⟨hinv1, _, hblock, hin, hch⟩ :=
        fbt_smalloc_MemInv mc wf os os1 tld tld1 size p hinv h
      have hcore1 : MemInvCore mc os1.prot tld1.chunk tld1.self tld1.stack tld1.smalloc
          tld1.smalloc_size := hinv1
      obtain ⟨⟨d, hd, hty, hd1, hd2⟩, hbefore⟩ := hin hsz
      have hnot : ∀ x, p ≤ x → x < p + size.toNat → ¬ InUse os tld x := by
        intro x hx1 hx2 hu
        rcases hbefore x hx1 hx2 with hf | hn
        · exact hu.2 hf
        · exact hu.1 hn
      have hnow : ∀ x, p ≤ x → x < p + size.toNat → InUse os1 tld1 x := by
        intro x hx1 hx2
        refine ⟨?_, hblock x hx1 hx2⟩
        rw [hcore1.mapped d hd x ⟨by omega, by omega⟩]
        exact fun e => Option.noConfusion e
      refine ⟨⟨d, hd, hty, hd1, hd2⟩, ?_, ?_, hcore1.nonneg hmax, hcore1.scratch⟩
      · intro x hx1 hx2
        refine ⟨?_, ?_, hnot x hx1 hx2, hnow x hx1 hx2⟩
        · intro hs
          exact hnot x hx1 hx2 ⟨hcore.tld_mapped wf x hs.1 hs.2,
            (hcore.used hrec).2 x hs.1 hs.2⟩
        · intro c hc hcx
          have hold : c ∈ tld.chunk → False := fun hc0 =>
            hnot x hx1 hx2 ⟨hcore.record_mapped hrec c hc0 x hcx.1 hcx.2,
              (hcore.used hrec).1 c hc0 x hcx.1 hcx.2⟩
          rcases hch with e | ⟨mem, e, hp⟩
          · rw [e] at hc
            exact hold hc
          · rw [e] at hc
            rcases List.mem_cons.1 hc with rfl | hc0
            · have h2 : x < mem + mc.sizeof_mem_info := hcx.2
              omega
            · exact hold hc0
      · intro calls os2 tld2 hkeeps hrun size2 p2 os3 tld3 h2 x hx1 hx2 hx3
        obtain ⟨hinv2, hk⟩ := mem_run_MemInv mc wf calls os1 os2 tld1 tld2 hinv1 hrun
        have hu2 := hk hkeeps x (hnow x hx1 hx2)
        have h21 : size2 ≤ (mc.SMALLOC_MAX : Int) :=
          (fbt_smalloc_inv mc wf os2 os3 tld2 tld3 size2 p2 h2).2.1
        have hsz2 : mc.sizeof_mem_info + size2.toNat ≤ scratch_size mc := by
          clear hk hu2 hinv2 hrun hnow hnot hbefore hch hin hblock
          omega
        have hin2 := (fbt_smalloc_MemInv mc wf os2 os3 tld2 tld3 size2 p2 hinv2 h2).2.2.2.1
        rcases (hin2 hsz2).2 x hx3.1 hx3.2 with hf | hn
        · exact hu2.2 hf
        · exact hu2.1 hn

set_option maxRecDepth 1000000 in
/-- C24, witness: after `fbt_init_tls`, with 8 bytes of scratch memory left,
`fbt_smalloc(8)` returns and leaves `tld->smalloc_size` not negative. -/
theorem fbt_smalloc_sound_witness :
    ∃ p os1 tld1, fbt_smalloc exampleMem exampleInit.1 exampleInit.2 8
        = Result.ok (p, os1, tld1) ∧ 0 ≤ tld1.smalloc_size :=
  ⟨_, _, _, rfl,
    ((((fbt_smalloc_sound exampleMem exampleMem_wf (by decide) exampleInit.1 exampleInit.2
      ⟨exampleOS, [], exampleInit.1, exampleInit.2, exampleInit_eq, rfl⟩ 8).2
      (by decide) (by decide)).2.2 _ _ _ rfl).2.2.2).1⟩

end Fbt
